import Mathlib

/-!
# gaohuia/expression: tokenizer, rotation parser and tree evaluator

A shallow embedding of `parser/parser.go` and of `Calc` in `main/main.go`.

Conventions of the embedding

* A Go `string` is the list of its characters (for ASCII text, its bytes); a
  `Token` is such a list.
* Go `int` is the 64-bit two's-complement integer: values are `Int`, and every
  arithmetic result is reduced by `wrap`.
* A Go `panic` is the outcome `Except.error (Abort.panic msg)`.  Loops and the
  mutually recursive parser rules carry a fuel counter; running out of it is the
  separate outcome `Abort.fuel`, so that "returns" is never confused with "did
  not finish".
* A Go result pair `(value, err)` is an `Except Error value`.
* The token cursor `*Tokens` is passed explicitly: every parser rule takes the
  cursor and returns its result together with the cursor it leaves behind.
* Trees are built from uniquely owned nodes (every node is stored in exactly one
  parent), so pointer mutation is rendered as rebuilding the node.
* `rand.Int()` reads an oracle `rng : Nat → Nat` at a draw counter.
-/

namespace Calculator

/-! ## Constants -/

def OpAdd : Int := 1
def OpSub : Int := 2
def OpMul : Int := 3
def OpDiv : Int := 4
def OpVal : Int := 5
def OpFunc : Int := 6

def TokenTypeOperator : Int := 1
def TokenTypeOperand : Int := 2
def TokenTypeQuoteLeft : Int := 3
def TokenTypeQuoteRight : Int := 4
def TokenTypeComma : Int := 5
def TokenTypeIdentifier : Int := 6

/-- Go `type Token string`. -/
abbrev Token := List Char

/-- How a call can fail to return: a Go panic, or the embedding's fuel ran out. -/
inductive Abort where
  | panic (msg : String)
  | fuel
  deriving DecidableEq, Repr

/-- Go `error` values: the two sentinels and `errors.New(msg)`. -/
inductive Error where
  | ErrorNoMoreTokens
  | ErrorUnexpectedToken
  | New (msg : String)
  deriving DecidableEq, Repr

/-- Text returned by the method `Error()` of an error value. -/
def Error.text : Error → String
  | .ErrorNoMoreTokens => "no more token"
  | .ErrorUnexpectedToken => "unexpected token"
  | .New msg => msg

deriving instance DecidableEq for Except

/-! ## Host integers -/

/-- Width of Go `int`. -/
def intBits : Nat := 64

/-- Two's-complement reduction of an integer to `intBits` bits. -/
def wrap (x : Int) : Int :=
  (x + 2 ^ (intBits - 1)) % 2 ^ intBits - 2 ^ (intBits - 1)

/-- Largest `int`. -/
def maxInt : Int := 2 ^ (intBits - 1) - 1

/-- Smallest `int`. -/
def minInt : Int := -(2 ^ (intBits - 1))

/-! ## Operator priority -/

/-- The map `OperatorPriority`; a missing key reads as `0`. -/
def OperatorPriority (op : Int) : Int :=
  if op = OpAdd then 1
  else if op = OpSub then 1
  else if op = OpDiv then 2
  else if op = OpMul then 2
  else 0

def CompareOperatorPriority (op1 op2 : Int) : Int :=
  OperatorPriority op1 - OperatorPriority op2

/-! ## Token classification -/

/-- Character class `[a-zA-Z]`. -/
def isLetter (c : Char) : Bool :=
  (97 ≤ c.toNat && c.toNat ≤ 122) || (65 ≤ c.toNat && c.toNat ≤ 90)

/-- Character class `\d`, which is `[0-9]`. -/
def isDigit (c : Char) : Bool :=
  48 ≤ c.toNat && c.toNat ≤ 57

/-- Character class `\w`, which is `[0-9A-Za-z_]`. -/
def isWord (c : Char) : Bool :=
  isLetter c || isDigit c || c.toNat = 95

/-- Go `IdentifierPattern.MatchString`: the pattern `[a-zA-Z]\w*` is not anchored,
so it matches as soon as the text holds a letter somewhere. -/
def IsIdentifier (token : List Char) : Bool :=
  token.any isLetter

/-- Go `OperandPattern.MatchString`: the pattern `\d+` is not anchored, so it
matches as soon as the text holds a digit somewhere. -/
def OperandPatternMatchString (token : List Char) : Bool :=
  token.any isDigit

def Token.GetType (t : Token) : Except Abort Int :=
  if t = ['+'] ∨ t = ['-'] ∨ t = ['*'] ∨ t = ['/'] then .ok TokenTypeOperator
  else if t = ['('] then .ok TokenTypeQuoteLeft
  else if t = [')'] then .ok TokenTypeQuoteRight
  else if t = [','] then .ok TokenTypeComma
  else if IsIdentifier t then .ok TokenTypeIdentifier
  else if OperandPatternMatchString t then .ok TokenTypeOperand
  else .error (.panic "unknown token type")

/-- Value of a run of decimal digits, most significant first. -/
def digitsValue (ds : List Char) : Nat :=
  ds.foldl (fun acc c => 10 * acc + (c.toNat - 48)) 0

/-- Go `strconv.Atoi`: an optional sign, then one or more decimal digits, and the
value must fit `int`; `none` is the error result. -/
def Atoi (s : List Char) : Option Int :=
  let neg := s.head? = some '-'
  let ds := if s.head? = some '-' ∨ s.head? = some '+' then s.tail else s
  if ds = [] ∨ ¬ ds.all isDigit then none
  else
    let v : Int := if neg then -(digitsValue ds : Int) else (digitsValue ds : Int)
    if v < minInt ∨ maxInt < v then none else some v

def Token.GetValue (t : Token) : Except Abort Int := do
  let opType ← t.GetType
  if opType = TokenTypeOperator then
    if t = ['+'] then pure OpAdd
    else if t = ['-'] then pure OpSub
    else if t = ['*'] then pure OpMul
    else if t = ['/'] then pure OpDiv
    else throw (.panic "unknown operator")
  else if opType = TokenTypeOperand then
    match Atoi t with
    | none => throw (.panic "strconv.Atoi: parsing failed")
    | some v => pure v
  else throw (.panic ("this token has no value: " ++ String.mk t))

/-! ## Expression tree -/

mutual
/-- Go `struct Operator`; a `*Operator` field is an `Option`. -/
inductive Operator where
  | mk (OpType : Int) (Left : Option Operator) (Right : Option Operator)
      (Value : Any) (Leaf : Bool)
/-- The dynamic values stored in `Operator.Value`: an `int` or a `*FunctionCall`. -/
inductive Any where
  | int (v : Int)
  | func (v : FunctionCall)
/-- Go `struct FunctionCall`. -/
inductive FunctionCall where
  | mk (Name : List Char) (Args : List Operator)
end

def Operator.OpType : Operator → Int
  | .mk t _ _ _ _ => t

def Operator.Left : Operator → Option Operator
  | .mk _ l _ _ _ => l

def Operator.Right : Operator → Option Operator
  | .mk _ _ r _ _ => r

def Operator.Value : Operator → Any
  | .mk _ _ _ v _ => v

def Operator.Leaf : Operator → Bool
  | .mk _ _ _ _ b => b

def FunctionCall.Name : FunctionCall → List Char
  | .mk n _ => n

def FunctionCall.Args : FunctionCall → List Operator
  | .mk _ a => a

def Operator.IsLeaf (op : Operator) : Bool := op.Leaf

def NewOperator (opType : Int) (left right : Option Operator) : Operator :=
  .mk opType left right (.int 0) false

def NewValue (value : Int) : Operator :=
  .mk OpVal none none (.int value) true

/-- Assignment `op.Right = r`. -/
def Operator.setRight : Operator → Option Operator → Operator
  | .mk t l _ v b, r => .mk t l r v b

/-- Assignment `op.Left = l`. -/
def Operator.setLeft : Operator → Option Operator → Operator
  | .mk t _ r v b, l => .mk t l r v b

/-- Assignment `op.Leaf = b`. -/
def Operator.setLeaf : Operator → Bool → Operator
  | .mk t l r v _, b => .mk t l r v b

/-! ## Evaluator -/

/-- Go `rand.Int()`: a non-negative `int` read from the oracle at draw `k`. -/
def randInt (rng : Nat → Nat) (k : Nat) : Int :=
  ((rng k % 2 ^ (intBits - 1) : Nat) : Int)

/-- The cases of `switch op.OpType` that make no further call: the four binary
operators, `OpVal`, and the `return 0` reached by any other `OpType`. -/
def calculateSwitch (opType : Int) (value : Any) (left right : Int) : Except Abort Int :=
  if opType = OpAdd then pure (wrap (left + right))
  else if opType = OpSub then pure (wrap (left - right))
  else if opType = OpMul then pure (wrap (left * right))
  else if opType = OpDiv then
    if right = 0 then throw (.panic "runtime error: integer divide by zero")
    else pure (wrap (Int.tdiv left right))
  else if opType = OpVal then
    match value with
    | .int v => pure v
    | .func _ => throw (.panic "unknown value type")
  else pure 0

mutual
/-- Go `(*Operator).Calculate`, threading the number `k` of random draws made.
`case OpFunc` is told apart first; it excludes the other cases of the switch,
which are in `calculateSwitch`.  When the type assertion of `case OpFunc` fails
the code runs on to `return 0`. -/
def Operator.Calculate (rng : Nat → Nat) : Operator → Nat → Except Abort (Int × Nat)
  | .mk opType l r value _, k => do
    let (left, k) ← calculateChild rng l k
    let (right, k) ← calculateChild rng r k
    match opType == OpFunc, value with
    | true, .func v => calculateFunc rng v k
    | true, .int _ => pure (0, k)
    | false, _ => do
      let v ← calculateSwitch opType value left right
      pure (v, k)
/-- The guarded calls `if op.Left != nil` and `if op.Right != nil`; `0` for `nil`. -/
def calculateChild (rng : Nat → Nat) : Option Operator → Nat → Except Abort (Int × Nat)
  | none, k => pure (0, k)
  | some op, k => op.Calculate rng k
/-- The `case OpFunc` body once the type assertion succeeded. -/
def calculateFunc (rng : Nat → Nat) : FunctionCall → Nat → Except Abort (Int × Nat)
  | .mk name args, k =>
    if name = "random".toList then pure (randInt rng k, k + 1)
    else if name = "sum".toList then sumLoop rng args 0 k
    else if name = "max".toList then
      match args with
      | [] => throw (.panic "max function requires at least one argument")
      | a0 :: rest => do
        let (max, k) ← a0.Calculate rng k
        maxLoop rng (a0 :: rest) max k
    else if name = "min".toList then
      match args with
      | [] => throw (.panic "min function requires at least one argument")
      | a0 :: rest => do
        let (min, k) ← a0.Calculate rng k
        minLoop rng (a0 :: rest) min k
    else throw (.panic ("unknown function name: " ++ String.mk name))
/-- Loop `for _, arg := range v.Args { sum += arg.Calculate() }`. -/
def sumLoop (rng : Nat → Nat) : List Operator → Int → Nat → Except Abort (Int × Nat)
  | [], sum, k => pure (sum, k)
  | arg :: rest, sum, k => do
    let (v, k) ← arg.Calculate rng k
    sumLoop rng rest (wrap (sum + v)) k
/-- Loop `for _, arg := range v.Args { if arg.Calculate() > max { max = arg.Calculate() } }`. -/
def maxLoop (rng : Nat → Nat) : List Operator → Int → Nat → Except Abort (Int × Nat)
  | [], max, k => pure (max, k)
  | arg :: rest, max, k => do
    let (v, k) ← arg.Calculate rng k
    if v > max then do
      let (v2, k) ← arg.Calculate rng k
      maxLoop rng rest v2 k
    else maxLoop rng rest max k
/-- Loop `for _, arg := range v.Args { if arg.Calculate() < min { min = arg.Calculate() } }`. -/
def minLoop (rng : Nat → Nat) : List Operator → Int → Nat → Except Abort (Int × Nat)
  | [], min, k => pure (min, k)
  | arg :: rest, min, k => do
    let (v, k) ← arg.Calculate rng k
    if v < min then do
      let (v2, k) ← arg.Calculate rng k
      minLoop rng rest v2 k
    else minLoop rng rest min k
end

/-! ## Token cursor -/

/-- Go `struct Tokens`. -/
structure Tokens where
  tokens : List Token
  index : Int
  total : Int
  deriving DecidableEq

def NewTokens (tokens : List Token) : Tokens :=
  { tokens := tokens, index := 0, total := tokens.length }

def Tokens.GetIndex (t : Tokens) : Int := t.index

def Tokens.SetIndex (t : Tokens) (index : Int) : Tokens := { t with index := index }

def Tokens.ReturnToken (t : Tokens) : Tokens := { t with index := t.index - 1 }

/-- Slice read `t.tokens[i]`, which panics outside `0 ≤ i < len(t.tokens)`. -/
def Tokens.at (t : Tokens) (i : Int) : Except Abort Token :=
  if i < 0 then .error (.panic "runtime error: index out of range")
  else
    match t.tokens.get? i.toNat with
    | some token => .ok token
    | none => .error (.panic "runtime error: index out of range")

def Tokens.GetToken (t : Tokens) : Except Abort (Except Error Token × Tokens) :=
  if t.index < t.total then do
    let token ← t.at t.index
    pure (.ok token, { t with index := t.index + 1 })
  else pure (.error .ErrorNoMoreTokens, t)

def Tokens.GetTokenAt (t : Tokens) (index : Int) : Except Abort Token :=
  if index < 0 ∨ index ≥ t.total then .error (.panic "index out of range")
  else t.at index

def Tokens.GetTotalTokens (t : Tokens) : Int := t.total

def Tokens.HasMoreTokens (t : Tokens) : Bool := t.index < t.total

def Tokens.GetTokenOfType (t : Tokens) (tokenType : Int) :
    Except Abort (Except Error Int × Tokens) := do
  let (r, t) ← t.GetToken
  match r with
  | .error err => pure (.error err, t)
  | .ok token =>
    if (← token.GetType) ≠ tokenType then
      pure (.error .ErrorUnexpectedToken, t.ReturnToken)
    else do
      let v ← token.GetValue
      pure (.ok v, t)

/-! ## Folding an operator and an operand into the tree -/

mutual
/-- The descent `for { if rightMost.IsLeaf() { break }; path = append(path, rightMost);
rightMost = rightMost.Right }`: the recorded `path`, root first, and the node it
stops at.  Calling `IsLeaf` on a `nil` child is a nil-pointer panic. -/
def rightSpine : Operator → Except Abort (List Operator × Operator)
  | .mk t l r v leaf =>
    if leaf then pure ([], .mk t l r v leaf)
    else do
      let (path, rightMost) ← rightSpineChild r
      pure (.mk t l r v leaf :: path, rightMost)
/-- The step `rightMost = rightMost.Right` followed by the rest of the descent. -/
def rightSpineChild : Option Operator → Except Abort (List Operator × Operator)
  | none => throw (.panic "runtime error: invalid memory address or nil pointer dereference")
  | some r => rightSpine r
end

/-- The tree seen from `path[i]` once the loop has stopped at `i`: `path[i].Right`
points to `current`, and every `path[j].Right` above points to `path[j+1]`.
`parents` lists `path[i], path[i-1], …, path[0]`. -/
def plug (current : Operator) : List Operator → Operator
  | [] => current
  | parent :: parents => plug (parent.setRight (some current)) parents

/-- The loop `for i := len(path) - 1; i >= 0; i--` of `GetExpression`, with
`parents` listing `path[i], path[i-1], …, path[0]`; the result is the tree that
`root` denotes when the loop is left. -/
def rotate (current : Operator) : List Operator → Operator
  | [] => current
  | parent :: parents =>
    if CompareOperatorPriority parent.OpType current.OpType ≥ 0 then
      -- parent.Right = current.Left; current.Left = parent;
      -- then root = current, or gParent.Right = current
      rotate (current.setLeft (some (parent.setRight current.Left))) parents
    else
      plug current (parent :: parents)

/-- The body of the loop of `GetExpression` after `operator` and `operand` were
read: the new value of `root`. -/
def fold (root : Operator) (operator : Int) (operand : Operator) : Except Abort Operator :=
  if root.IsLeaf then
    pure (NewOperator operator (some root) (some operand))
  else do
    let (path, _) ← rightSpine root
    match path.reverse with
    | [] => throw (.panic "runtime error: index out of range")
    | lastOperator :: parents =>
      let current := NewOperator operator lastOperator.Right (some operand)
      pure (rotate current (lastOperator :: parents))

/-! ## Parser rules -/

/-! Every rule returns the Go result pair together with the cursor it leaves. -/

mutual
def GetQuotedOperand : Nat → Tokens → Except Abort (Except Error Operator × Tokens)
  | 0, _ => throw .fuel
  | fuel + 1, tokens => do
    let index := tokens.GetIndex
    let (r, tokens) ← tokens.GetToken
    match r with
    | .error err => pure (.error err, tokens)
    | .ok token =>
      -- The deferred closure reads the function-level `err`, which is nil from
      -- here on: the `err` assigned below are new variables of the `if` block.
      let err : Option Error := none
      let deferred : Tokens → Tokens := fun tokens =>
        if err.isSome then tokens.SetIndex index else tokens
      if (← token.GetType) = TokenTypeQuoteLeft then do
        let (r, tokens) ← GetExpression fuel tokens
        match r with
        | .error err => pure (.error err, deferred tokens)
        | .ok operator =>
          let (r, tokens) ← tokens.GetToken
          match r with
          | .error err =>
            pure (.error (.New ("syntax error, expected token ')', but " ++ err.text)),
              deferred tokens)
          | .ok token =>
            if (← token.GetType) ≠ TokenTypeQuoteRight then
              pure (.error (.New ("unexpected token: " ++ String.mk token)), deferred tokens)
            else
              pure (.ok (operator.setLeaf true), deferred tokens)
      else
        pure (.error (.New ("syntax error, unexpected token: " ++ String.mk token)),
          deferred tokens)
/-- The loop of `GetArgumentList`, entered with the `args` collected so far. -/
def GetArgumentListLoop : Nat → List Operator → Tokens → Except Abort (Except Error (List Operator) × Tokens)
  | 0, _, _ => throw .fuel
  | fuel + 1, args, tokens => do
    let (r, tokens) ← GetExpression fuel tokens
    match r with
    | .error _ => pure (.ok args, tokens)
    | .ok operator =>
      let args := args ++ [operator]
      let (r, tokens) ← tokens.GetToken
      match r with
      | .error _ => pure (.error (.New "syntax error, expected token ',' or ')'"), tokens)
      | .ok token =>
        if (← token.GetType) = TokenTypeComma then
          GetArgumentListLoop fuel args tokens
        else
          pure (.ok args, tokens.ReturnToken)
def GetArgumentList : Nat → Tokens → Except Abort (Except Error (List Operator) × Tokens)
  | 0, _ => throw .fuel
  | fuel + 1, tokens => GetArgumentListLoop fuel [] tokens
def GetFunctionCallOperand : Nat → Tokens → Except Abort (Except Error Operator × Tokens)
  | 0, _ => throw .fuel
  | fuel + 1, tokens => do
    let index := tokens.GetIndex
    -- deferred: `if op == nil { tokens.SetIndex(index) }`; `op` is nil on every
    -- error return
    let (r, tokens) ← tokens.GetToken
    match r with
    | .error err => pure (.error err, tokens.SetIndex index)
    | .ok token =>
      if (← token.GetType) = TokenTypeIdentifier then do
        let name := token
        let (r, tokens) ← tokens.GetToken
        match r with
        | .error _ =>
          pure (.error (.New "syntax error, expected token '('"), tokens.SetIndex index)
        | .ok token =>
          if (← token.GetType) ≠ TokenTypeQuoteLeft then
            pure (.error (.New "syntax error, expected token '('"), tokens.SetIndex index)
          else do
            let (r, tokens) ← GetArgumentList fuel tokens
            match r with
            | .error err => pure (.error err, tokens.SetIndex index)
            | .ok args =>
              let (r, tokens) ← tokens.GetToken
              match r with
              | .error _ =>
                pure (.error (.New "syntax error, expected token ')'"), tokens.SetIndex index)
              | .ok token =>
                if (← token.GetType) ≠ TokenTypeQuoteRight then
                  pure (.error (.New "syntax error, expected token ')'"),
                    tokens.SetIndex index)
                else
                  pure (.ok (.mk OpFunc none none (.func (.mk name args)) true), tokens)
      else
        pure (.error (.New "syntax error, expected function name"), tokens.SetIndex index)
def GetOperand : Nat → Tokens → Except Abort (Except Error Operator × Tokens)
  | 0, _ => throw .fuel
  | fuel + 1, tokens => do
    let (r, tokens) ← tokens.GetToken
    match r with
    | .error err => pure (.error err, tokens)
    | .ok token =>
      if (← token.GetType) = TokenTypeQuoteLeft then
        GetQuotedOperand fuel tokens.ReturnToken
      else if (← token.GetType) = TokenTypeIdentifier then
        GetFunctionCallOperand fuel tokens.ReturnToken
      else if (← token.GetType) = TokenTypeOperand then do
        let v ← token.GetValue
        pure (.ok (NewValue v), tokens)
      else
        pure (.error .ErrorUnexpectedToken, tokens.ReturnToken)
/-- The loop of `GetExpression`, entered with the current `root`. -/
def GetExpressionLoop : Nat → Operator → Tokens → Except Abort (Except Error Operator × Tokens)
  | 0, _, _ => throw .fuel
  | fuel + 1, root, tokens => do
    let index := tokens.GetIndex
    let (r, tokens) ← tokens.GetTokenOfType TokenTypeOperator
    match r with
    | .error _ => pure (.ok root, tokens)
    | .ok operator =>
      let (r, tokens) ← GetOperand fuel tokens
      match r with
      | .error _ => pure (.ok root, tokens.SetIndex index)
      | .ok operand =>
        let root ← fold root operator operand
        GetExpressionLoop fuel root tokens
def GetExpression : Nat → Tokens → Except Abort (Except Error Operator × Tokens)
  | 0, _ => throw .fuel
  | fuel + 1, tokens => do
    let (r, tokens) ← GetOperand fuel tokens
    match r with
    | .error err => pure (.error err, tokens)
    | .ok operand => GetExpressionLoop fuel operand tokens
end

/-- Fuel handed to `GetExpression` on a cursor over `n` tokens: three per token
and two more. -/
def parseFuel (n : Nat) : Nat := 3 * n + 2

def BuildCalculatorTreeFromTokens (tokens : Tokens) : Except Abort (Except Error Operator × Tokens) := do
  let (r, tokens) ← GetExpression (parseFuel tokens.tokens.length) tokens
  match r with
  | .error err => pure (.error err, tokens)
  | .ok operator =>
    if tokens.HasMoreTokens then do
      let token ← tokens.at tokens.index
      pure (.error (.New ("syntax error, unexpected token: " ++ String.mk token)), tokens)
    else
      pure (.ok operator, tokens)

/-! ## Tokenizer -/

/-- The character `"` (code 34). -/
def quoteChar : Char := Char.ofNat 34

/-- The character `\` (code 92). -/
def backslashChar : Char := Char.ofNat 92

/-- The single-character alternatives `,`, `+`, `-`, `*`, `/`, `(`, `)` and `"`
of the tokenizer pattern. -/
def isPunct (c : Char) : Bool :=
  c = ',' || c = '+' || c = '-' || c = '*' || c = '/' || c = '(' || c = ')' || c = quoteChar

/-- Go `pattern.FindStringIndex(s)` for the pattern
`[a-zA-Z]\w*|,|\d+|\+|\-|\*|\/|\(|\)|"`: start and end of the leftmost
match, the alternatives tried in order and the repetitions greedy; `none` when
nothing matches. -/
def FindStringIndex : List Char → Option (Nat × Nat)
  | [] => none
  | c :: cs =>
    if isLetter c then some (0, 1 + (cs.takeWhile isWord).length)
    else if isDigit c then some (0, 1 + (cs.takeWhile isDigit).length)
    else if isPunct c then some (0, 1)
    else
      match FindStringIndex cs with
      | some (a, b) => some (a + 1, b + 1)
      | none => none

/-- Go `strings.Index` for the one-character string holding a quote: position of
the first quote in `s`; `none` is `-1`. -/
def stringsIndexQuote : List Char → Option Nat
  | [] => none
  | c :: cs =>
    if c = quoteChar then some 0
    else
      match stringsIndexQuote cs with
      | some i => some (i + 1)
      | none => none

/-- Slice `s[a:b]`. -/
def slice (s : List Char) (a b : Nat) : List Char :=
  (s.take b).drop a

/-- The inner loop of `Tokenize`, which looks for the closing quote: the token
and the index after it. -/
def TokenizeQuote (expression : List Char) (quoteStart : Nat) :
    Nat → Nat → Except Abort (Token × Nat)
  | 0, _ => throw .fuel
  | fuel + 1, index =>
    match stringsIndexQuote (expression.drop (index + 1)) with
    | none => throw (.panic "unterminated string")
    | some i =>
      match expression.get? (index + i) with
      | none => throw (.panic "runtime error: index out of range")
      | some c =>
        if c ≠ backslashChar then
          pure (slice expression quoteStart (index + i + 2), index + i + 2)
        else
          TokenizeQuote expression quoteStart fuel (index + i + 1)

/-- The loop `for index < length` of `Tokenize`. -/
def TokenizeLoop (expression : List Char) :
    Nat → Nat → List Token → Except Abort (List Token)
  | 0, _, _ => throw .fuel
  | fuel + 1, index, result =>
    if index < expression.length then
      match FindStringIndex (expression.drop index) with
      | some (m0, m1) =>
        let s := slice expression (m0 + index) (m1 + index)
        if s ≠ [quoteChar] then
          TokenizeLoop expression fuel (index + m1) (result ++ [s])
        else do
          let (token, index) ←
            TokenizeQuote expression (m0 + index) expression.length (m0 + index)
          TokenizeLoop expression fuel index (result ++ [token])
      | none => pure result
    else pure result

def Tokenize (expression : List Char) : Except Abort Tokens := do
  let result ← TokenizeLoop expression (expression.length + 1) 0 []
  pure (NewTokens result)

def BuildCalculatorTree (expression : List Char) :
    Except Abort (Except Error Operator × Tokens) := do
  let tokens ← Tokenize expression
  BuildCalculatorTreeFromTokens tokens

/-- Go `Calc` of `main.go`. -/
def Calc (rng : Nat → Nat) (expression : List Char) (k : Nat) : Except Abort Int := do
  let (r, _) ← BuildCalculatorTree expression
  match r with
  | .error _ => pure (-1)
  | .ok tree => do
    let (v, _) ← tree.Calculate rng k
    pure v

/-! ## Trees that draw no random number -/

mutual
/-- No `FunctionCall` named `random` occurs in the tree. -/
def Operator.noRandom : Operator → Bool
  | .mk _ l r value _ => noRandomChild l && noRandomChild r && noRandomAny value
def noRandomChild : Option Operator → Bool
  | none => true
  | some op => op.noRandom
def noRandomAny : Any → Bool
  | .int _ => true
  | .func v => noRandomFunc v
def noRandomFunc : FunctionCall → Bool
  | .mk name args => name != "random".toList && noRandomList args
def noRandomList : List Operator → Bool
  | [] => true
  | arg :: rest => arg.noRandom && noRandomList rest
end

mutual
/-- Proof device: `Calculate` with the oracle and the draw counter left out.  It
repeats every call of the source, and agrees with `Calculate` on trees with
`noRandom` (`Calculate_eq_pureValue`). -/
def Operator.pureValue : Operator → Except Abort Int
  | .mk opType l r value _ => do
    let left ← pureChild l
    let right ← pureChild r
    match opType == OpFunc, value with
    | true, .func v => pureFunc v
    | true, .int _ => pure 0
    | false, _ => calculateSwitch opType value left right
def pureChild : Option Operator → Except Abort Int
  | none => pure 0
  | some op => op.pureValue
def pureFunc : FunctionCall → Except Abort Int
  | .mk name args =>
    if name = "random".toList then pure 0
    else if name = "sum".toList then pureSumLoop args 0
    else if name = "max".toList then
      match args with
      | [] => throw (.panic "max function requires at least one argument")
      | a0 :: rest => do
        let max ← a0.pureValue
        pureMaxLoop (a0 :: rest) max
    else if name = "min".toList then
      match args with
      | [] => throw (.panic "min function requires at least one argument")
      | a0 :: rest => do
        let min ← a0.pureValue
        pureMinLoop (a0 :: rest) min
    else throw (.panic ("unknown function name: " ++ String.mk name))
def pureSumLoop : List Operator → Int → Except Abort Int
  | [], sum => pure sum
  | arg :: rest, sum => do
    let v ← arg.pureValue
    pureSumLoop rest (wrap (sum + v))
def pureMaxLoop : List Operator → Int → Except Abort Int
  | [], max => pure max
  | arg :: rest, max => do
    let v ← arg.pureValue
    if v > max then do
      let v2 ← arg.pureValue
      pureMaxLoop rest v2
    else pureMaxLoop rest max
def pureMinLoop : List Operator → Int → Except Abort Int
  | [], min => pure min
  | arg :: rest, min => do
    let v ← arg.pureValue
    if v < min then do
      let v2 ← arg.pureValue
      pureMinLoop rest v2
    else pureMinLoop rest min
end

/-- A result that leaves the draw counter at `k`. -/
def atDraw (k : Nat) : Except Abort Int → Except Abort (Int × Nat)
  | .ok v => .ok (v, k)
  | .error e => .error e


/-- The tree of a parse result, if there is one, has `noRandom`. -/
def parsedNoRandom : Except Abort (Except Error Operator × Tokens) → Bool
  | .ok (.ok tree, _) => tree.noRandom
  | _ => true

/-! ## The classical precedence grammar over operand nodes

`sum := prod ((+|-) prod)*` and `prod := atom ((*|/) atom)*`, both levels
left-associative.  A derivation is a value of `SumT`; its yield is the sequence
`x0 o1 x1 … on xn`, given as the first atom and the list of the pairs `(oi, xi)`. -/

/-- A derivation of `prod`: an atom, or a shorter product extended on the right. -/
inductive ProdT where
  | atom (x : Operator)
  | mul (l : ProdT) (op : Int) (x : Operator)

/-- A derivation of `sum`: a product, or a shorter sum extended on the right. -/
inductive SumT where
  | prod (p : ProdT)
  | add (l : SumT) (op : Int) (p : ProdT)

def ProdT.first : ProdT → Operator
  | .atom x => x
  | .mul l _ _ => l.first

def ProdT.rest : ProdT → List (Int × Operator)
  | .atom _ => []
  | .mul l op x => l.rest ++ [(op, x)]

def SumT.first : SumT → Operator
  | .prod p => p.first
  | .add l _ _ => l.first

def SumT.rest : SumT → List (Int × Operator)
  | .prod p => p.rest
  | .add l op p => l.rest ++ (op, p.first) :: p.rest

/-- The atoms are leaf-like nodes and the operators are `*` or `/`. -/
def ProdT.WF : ProdT → Prop
  | .atom x => x.Leaf = true
  | .mul l op x => l.WF ∧ (op = OpMul ∨ op = OpDiv) ∧ x.Leaf = true

/-- The products are well formed and the operators between them are `+` or `-`. -/
def SumT.WF : SumT → Prop
  | .prod p => p.WF
  | .add l op p => l.WF ∧ (op = OpAdd ∨ op = OpSub) ∧ p.WF

/-- The tree of a product: every atom intact, the operators nested to the left. -/
def ProdT.tree : ProdT → Operator
  | .atom x => x
  | .mul l op x => NewOperator op (some l.tree) (some x)

/-- The tree of a sum. -/
def SumT.tree : SumT → Operator
  | .prod p => p.tree
  | .add l op p => NewOperator op (some l.tree) (some p.tree)

/-- The value of a product: its atoms evaluated from left to right and combined
by the host arithmetic of the operators. -/
def ProdT.value (rng : Nat → Nat) : ProdT → Nat → Except Abort (Int × Nat)
  | .atom x, k => x.Calculate rng k
  | .mul l op x, k => do
    let (a, k) ← l.value rng k
    let (b, k) ← x.Calculate rng k
    let v ← calculateSwitch op (.int 0) a b
    pure (v, k)

/-- The value of a sum: its products evaluated from left to right. -/
def SumT.value (rng : Nat → Nat) : SumT → Nat → Except Abort (Int × Nat)
  | .prod p, k => p.value rng k
  | .add l op p, k => do
    let (a, k) ← l.value rng k
    let (b, k) ← p.value rng k
    let v ← calculateSwitch op (.int 0) a b
    pure (v, k)

/-- The folds of the loop of `GetExpression` over the pairs `(operator, operand)`
read after the first operand `root`. -/
def foldAll (root : Operator) : List (Int × Operator) → Except Abort Operator
  | [] => pure root
  | (operator, operand) :: rest => do
    let root ← fold root operator operand
    foldAll root rest

/-- Extends a sum by one more pair: `*` and `/` extend its last product, `+` and
`-` open a new product. -/
def SumT.snoc : SumT → Int → Operator → SumT
  | .prod p, op, x =>
    if op = OpMul ∨ op = OpDiv then .prod (.mul p op x) else .add (.prod p) op (.atom x)
  | .add l a p, op, x =>
    if op = OpMul ∨ op = OpDiv then .add l a (.mul p op x) else .add (.add l a p) op (.atom x)

/-! ## The informal grammar over tokens

```
expression := operand (operator operand)*
operand    := integer | '(' expression ')' | identifier '(' arg-list ')'
arg-list   := ε | expression (',' expression)*
operator   := '+' | '-' | '*' | '/'
integer    := [0-9]+
identifier := [A-Za-z][A-Za-z0-9_]*
```
-/

/-- Rule `operator := '+' | '-' | '*' | '/'`. -/
def isOperatorToken (t : Token) : Bool :=
  t = ['+'] || t = ['-'] || t = ['*'] || t = ['/']

/-- Rule `integer := [0-9]+`, of a value that fits `int`. -/
def isIntegerToken (t : Token) : Bool :=
  !t.isEmpty && t.all isDigit && decide ((digitsValue t : Int) ≤ maxInt)

/-- Rule `identifier := [A-Za-z][A-Za-z0-9_]*`. -/
def isIdentifierToken : Token → Bool
  | [] => false
  | c :: cs => isLetter c && cs.all isWord

/-- The nonterminals: `opTail` is `(operator operand)*` and `argList1` is
`expression (',' expression)*`. -/
inductive Nonterminal where
  | expression
  | operand
  | opTail
  | argList
  | argList1

/-- Derivability, `Derives n w`: the token sequence `w` is derivable from the nonterminal `n`. -/
inductive Derives : Nonterminal → List Token → Prop where
  | expression (w w' : List Token) :
      Derives .operand w → Derives .opTail w' → Derives .expression (w ++ w')
  | integer (t : Token) : isIntegerToken t = true → Derives .operand [t]
  | paren (w : List Token) :
      Derives .expression w → Derives .operand (['('] :: w ++ [[')']])
  | call (t : Token) (w : List Token) :
      isIdentifierToken t = true → Derives .argList w →
      Derives .operand (t :: ['('] :: w ++ [[')']])
  | tailNil : Derives .opTail []
  | tailCons (o : Token) (w w' : List Token) :
      isOperatorToken o = true → Derives .operand w → Derives .opTail w' →
      Derives .opTail (o :: w ++ w')
  | argsNil : Derives .argList []
  | argsSome (w : List Token) : Derives .argList1 w → Derives .argList w
  | argsOne (w : List Token) : Derives .expression w → Derives .argList1 w
  | argsMore (w w' : List Token) :
      Derives .expression w → Derives .argList1 w' → Derives .argList1 (w ++ [','] :: w')

/-- A cursor over the tokens `ts` at index `i`. -/
def cursorAt (ts : List Token) (i : Nat) : Tokens :=
  { tokens := ts, index := i, total := ts.length }

mutual
/-- The descent along the right spine meets a leaf-like node before a `nil`. -/
def Operator.spineOK : Operator → Bool
  | .mk _ _ r _ leaf => leaf || spineOKChild r
def spineOKChild : Option Operator → Bool
  | none => false
  | some r => r.spineOK
end

/-- A parse result that is a tree and no error. -/
def accepted : Except Abort (Except Error Operator × Tokens) → Bool
  | .ok (.ok _, _) => true
  | _ => false

/-- What may follow an expression: the end of the tokens, a `)` or a `,`. -/
def Follow (rest : List Token) : Prop :=
  rest = [] ∨ ∃ r, rest = [')'] :: r ∨ rest = [','] :: r

/-- The parser rule for a nonterminal, started on a cursor whose remaining
tokens begin with `w`, returns a result and no error and leaves the cursor just
after `w`, whenever the fuel is at least three per token of `w` plus a constant. -/
def Complete : Nonterminal → List Token → Prop
  | .operand, w => ∀ (ts : List Token) (i : Nat) (rest : List Token) (f : Nat),
      ts.drop i = w ++ rest → 3 * w.length + 1 ≤ f →
      ∃ t, GetOperand f (cursorAt ts i) = .ok (.ok t, cursorAt ts (i + w.length)) ∧
        t.Leaf = true
  | .opTail, w => ∀ (ts : List Token) (i : Nat) (rest : List Token) (f : Nat)
      (root : Operator),
      ts.drop i = w ++ rest → Follow rest → root.spineOK = true → 3 * w.length + 1 ≤ f →
      ∃ t, GetExpressionLoop f root (cursorAt ts i)
          = .ok (.ok t, cursorAt ts (i + w.length)) ∧ t.spineOK = true
  | .expression, w => ∀ (ts : List Token) (i : Nat) (rest : List Token) (f : Nat),
      ts.drop i = w ++ rest → Follow rest → 3 * w.length + 2 ≤ f →
      ∃ t, GetExpression f (cursorAt ts i) = .ok (.ok t, cursorAt ts (i + w.length)) ∧
        t.spineOK = true
  | .argList1, w => ∀ (ts : List Token) (i : Nat) (rest : List Token) (f : Nat)
      (args : List Operator),
      ts.drop i = w ++ [')'] :: rest → 3 * w.length + 3 ≤ f →
      ∃ args', GetArgumentListLoop f args (cursorAt ts i)
          = .ok (.ok (args ++ args'), cursorAt ts (i + w.length))
  | .argList, w => ∀ (ts : List Token) (i : Nat) (rest : List Token) (f : Nat),
      ts.drop i = w ++ [')'] :: rest → 3 * w.length + 4 ≤ f →
      ∃ args, GetArgumentList f (cursorAt ts i)
          = .ok (.ok args, cursorAt ts (i + w.length))

/-- Some `,` of the token sequence is immediately followed by `)`. -/
def commaClose : List Token → Bool
  | [] => false
  | a :: rest =>
    (decide (a = [',']) && decide (rest.head? = some [')'])) || commaClose rest

/-- The cursor `c` reads the tokens `ts` and its index lies within `0..total`. -/
def Inside (ts : List Token) (c : Tokens) : Prop :=
  c.tokens = ts ∧ c.total = ts.length ∧ 0 ≤ c.index ∧ c.index ≤ ts.length

/-- Every parser rule run with fuel `n` on a cursor inside `ts` leaves a cursor
inside `ts`. -/
def FrameAt (n : Nat) : Prop :=
  (∀ ts t r c, Inside ts t → GetExpression n t = .ok (r, c) → Inside ts c) ∧
  (∀ ts t r c, Inside ts t → GetOperand n t = .ok (r, c) → Inside ts c) ∧
  (∀ ts t r c, Inside ts t → GetQuotedOperand n t = .ok (r, c) → Inside ts c) ∧
  (∀ ts t r c, Inside ts t → GetFunctionCallOperand n t = .ok (r, c) → Inside ts c) ∧
  (∀ ts t r c, Inside ts t → GetArgumentList n t = .ok (r, c) → Inside ts c) ∧
  (∀ ts args t r c, Inside ts t → GetArgumentListLoop n args t = .ok (r, c) → Inside ts c) ∧
  (∀ ts root t r c, Inside ts t → GetExpressionLoop n root t = .ok (r, c) → Inside ts c)

/-! ## Well-formed expression texts -/

/-- White space: space, tab, line feed, carriage return. -/
def isSpace (c : Char) : Bool :=
  c = ' ' || c = Char.ofNat 9 || c = Char.ofNat 10 || c = Char.ofNat 13

/-- Spacing, `Spaced tokens text`: `text` is the tokens written in order, with white
space allowed before, between and after them. -/
inductive Spaced : List Token → List Char → Prop where
  | nil (ws : List Char) : (∀ c ∈ ws, isSpace c = true) → Spaced [] ws
  | cons (ws : List Char) (t : Token) (ts : List Token) (text : List Char) :
      (∀ c ∈ ws, isSpace c = true) → Spaced ts text → Spaced (t :: ts) (ws ++ t ++ text)

/-- A well-formed expression text: a token sequence derivable from `expression`,
written with optional white space. -/
def WellFormedText (text : List Char) : Prop :=
  ∃ tokens, Derives .expression tokens ∧ Spaced tokens text

/-! ## The scan of the tokenizer -/

/-- Closing quote, `Closing expression q r`: `r` is the first position after `q` that holds a
`"` whose immediately preceding character is not a backslash. -/
def Closing (expression : List Char) (q r : Nat) : Prop :=
  q < r ∧ expression.get? r = some quoteChar ∧
    expression.get? (r - 1) ≠ some backslashChar ∧
    ∀ j, q < j → j < r → expression.get? j = some quoteChar →
      expression.get? (j - 1) = some backslashChar

/-- Scan index, `ScanAt expression i`: the loop of `Tokenize` begins an iteration with
`index = i`. -/
inductive ScanAt (expression : List Char) : Nat → Prop where
  | start : ScanAt expression 0
  | token (i m0 m1 : Nat) : ScanAt expression i → i < expression.length →
      FindStringIndex (expression.drop i) = some (m0, m1) →
      slice expression (m0 + i) (m1 + i) ≠ [quoteChar] → ScanAt expression (i + m1)
  | string (i m0 m1 r : Nat) : ScanAt expression i → i < expression.length →
      FindStringIndex (expression.drop i) = some (m0, m1) →
      slice expression (m0 + i) (m1 + i) = [quoteChar] → Closing expression (m0 + i) r →
      ScanAt expression (r + 1)

/-- The scan reaches an opening `"` at position `q`: an iteration of the loop
finds its next match to be the single character `"` at `q`. -/
def OpensAt (expression : List Char) (q : Nat) : Prop :=
  ∃ i m0 m1, ScanAt expression i ∧ i < expression.length ∧
    FindStringIndex (expression.drop i) = some (m0, m1) ∧
    slice expression (m0 + i) (m1 + i) = [quoteChar] ∧ q = m0 + i

/-- The text of `TestTokenize`: `"hello" + "world" + "\"aaaa\""`. -/
def testExpression : List Char :=
  [quoteChar] ++ "hello".toList ++ [quoteChar] ++ " + ".toList ++
  [quoteChar] ++ "world".toList ++ [quoteChar] ++ " + ".toList ++
  [quoteChar, backslashChar, quoteChar] ++ "aaaa".toList ++
  [backslashChar, quoteChar, quoteChar]

/-- What a result shows of the error and of the cursor: the error, if one is
returned, and the index the cursor is left at. -/
def errorAndIndex {α : Type} :
    Except Abort (Except Error α × Tokens) → Except Abort (Option Error × Int)
  | .error a => .error a
  | .ok (.error e, c) => .ok (some e, c.index)
  | .ok (.ok _, c) => .ok (none, c.index)

/-! ## Further definitions for the statements about the rules -/

/-- One of the seven one-character tokens `+ - * / ( ) ,`. -/
def isPunctToken (t : Token) : Bool :=
  t = ['+'] || t = ['-'] || t = ['*'] || t = ['/'] || t = ['('] || t = [')'] || t = [',']

/-- A token outside string literals: an identifier, a non-empty run of digits, or
one of the seven one-character tokens. -/
def isPlainToken (t : Token) : Bool :=
  isIdentifierToken t || (!t.isEmpty && t.all isDigit) || isPunctToken t

/-- Go `strings.Join(ts, " ")`: the tokens written in order with one space between
neighbours. -/
def joinSpaces : List Token → List Char
  | [] => []
  | [t] => t
  | t :: t' :: rest => t ++ ' ' :: joinSpaces (t' :: rest)

/-! ## What the rules return -/

/-- The trees of the four shapes the rules build: a value node, a function-call
node over built arguments, a binary node made by `NewOperator` over two built
trees, and a built tree marked leaf-like because it was read between `(` and
`)`. -/
inductive Built : Operator → Prop where
  | value (v : Int) : Built (NewValue v)
  | call (name : List Char) (args : List Operator) :
      (∀ a ∈ args, Built a) → Built (.mk OpFunc none none (.func (.mk name args)) true)
  | binary (op : Int) (l r : Operator) :
      (op = OpAdd ∨ op = OpSub ∨ op = OpMul ∨ op = OpDiv) → Built l → Built r →
      Built (NewOperator op (some l) (some r))
  | paren (e : Operator) : Built e → Built (e.setLeaf true)

/-- Every atom of the product has the property `P`. -/
def ProdT.Atoms (P : Operator → Prop) : ProdT → Prop
  | .atom x => P x
  | .mul l _ x => l.Atoms P ∧ P x

/-- Every atom of the sum has the property `P`. -/
def SumT.Atoms (P : Operator → Prop) : SumT → Prop
  | .prod p => p.Atoms P
  | .add l _ p => l.Atoms P ∧ p.Atoms P

/-- The tree of a well-formed sum over built operands: what `root` holds between
two iterations of the loop of `GetExpression`. -/
def Folded (x : Operator) : Prop :=
  ∃ s : SumT, s.WF ∧ s.Atoms Built ∧ x = s.tree

/-- The token can be classified and, when it is an operand, has a value. -/
def Token.sound (tok : Token) : Bool :=
  match tok.GetType with
  | .error _ => false
  | .ok ty =>
    if ty = TokenTypeOperand then
      match tok.GetValue with
      | .ok _ => true
      | .error _ => false
    else true

/-- Every token at an index from `i` up to `j`, `j` excluded, has a kind. -/
def Classified (ts : List Token) (i j : Nat) : Prop :=
  ∀ k, i ≤ k → k < j → ∃ tok ty, ts.get? k = some tok ∧ tok.GetType = .ok ty

/-- What a rule run with fuel `n` on the cursor over `ts` at index `i` may end in:
a result or an error, with the cursor over `ts` at some index `j` up to which the
tokens were classified, and `Good` or `Bad` of `j`; a panic, and then some token
is not sound; or the end of the fuel, and then `n` is below `bound`. -/
def Outcome {α : Type} (ts : List Token) (n bound i : Nat) (Good : α → Nat → Prop)
    (Bad : Nat → Prop) : Except Abort (Except Error α × Tokens) → Prop
  | .ok (.ok x, c) => ∃ j, c = cursorAt ts j ∧ j ≤ ts.length ∧ Classified ts i j ∧ Good x j
  | .ok (.error _, c) => ∃ j, c = cursorAt ts j ∧ j ≤ ts.length ∧ Classified ts i j ∧ Bad j
  | .error (.panic _) => ∃ tok ∈ ts, tok.sound = false
  | .error .fuel => n < bound

/-- The outcomes of the seven rules run with fuel `n`. -/
structure Sem (n : Nat) : Prop where
  expression : ∀ (ts : List Token) (i : Nat), i ≤ ts.length →
    Outcome ts n (3 * (ts.length - i) + 2) i (fun x j => i + 1 ≤ j ∧ Folded x)
      (fun j => i ≤ j) (GetExpression n (cursorAt ts i))
  operand : ∀ (ts : List Token) (i : Nat), i ≤ ts.length →
    Outcome ts n (3 * (ts.length - i) + 1) i
      (fun x j => i + 1 ≤ j ∧ x.Leaf = true ∧ Built x)
      (fun j => i ≤ j) (GetOperand n (cursorAt ts i))
  quoted : ∀ (ts : List Token) (i : Nat), i < ts.length →
    Outcome ts n (3 * (ts.length - i)) i
      (fun x j => i + 1 ≤ j ∧ x.Leaf = true ∧ Built x)
      (fun j => i ≤ j) (GetQuotedOperand n (cursorAt ts i))
  call : ∀ (ts : List Token) (i : Nat), i < ts.length →
    Outcome ts n (3 * (ts.length - i)) i
      (fun x j => i + 1 ≤ j ∧ x.Leaf = true ∧ Built x)
      (fun j => j = i) (GetFunctionCallOperand n (cursorAt ts i))
  arguments : ∀ (ts : List Token) (i : Nat), i ≤ ts.length →
    Outcome ts n (3 * (ts.length - i) + 4) i
      (fun args j => i ≤ j ∧ ∀ a ∈ args, Built a)
      (fun j => i ≤ j) (GetArgumentList n (cursorAt ts i))
  argumentsLoop : ∀ (ts : List Token) (i : Nat) (args : List Operator), i ≤ ts.length →
    (∀ a ∈ args, Built a) →
    Outcome ts n (3 * (ts.length - i) + 3) i
      (fun args' j => i ≤ j ∧ ∀ a ∈ args', Built a)
      (fun j => i ≤ j) (GetArgumentListLoop n args (cursorAt ts i))
  loop : ∀ (ts : List Token) (i : Nat) (root : Operator), i ≤ ts.length → Folded root →
    Outcome ts n (3 * (ts.length - i) + 1) i (fun x j => i ≤ j ∧ Folded x)
      (fun _ => False) (GetExpressionLoop n root (cursorAt ts i))

mutual
/-- The priorities of the operators of the nodes that the descent
`rightMost = rightMost.Right` of `GetExpression` collects in `path`, from the
root downward. -/
def Operator.spinePriorities : Operator → List Int
  | .mk t _ r _ leaf =>
    if leaf then [] else OperatorPriority t :: spinePrioritiesChild r
/-- The priorities collected from a child onward. -/
def spinePrioritiesChild : Option Operator → List Int
  | none => []
  | some r => r.spinePriorities
end

/-- A string-literal token: it begins with a quote and ends with another one. -/
def isStringToken (t : Token) : Bool :=
  decide (2 ≤ t.length) && decide (t.head? = some quoteChar) &&
    decide (t.getLast? = some quoteChar)

/-- The loop and the rule `expression`, started on a cursor whose remaining tokens
are `w` and then the single operator `o`, return a tree and leave the cursor
just after `w`, before `o`. -/
def CompleteBefore (o : Token) : Nonterminal → List Token → Prop
  | .opTail, w => ∀ (ts : List Token) (i : Nat) (f : Nat) (root : Operator),
      ts.drop i = w ++ [o] → root.spineOK = true → 3 * w.length + 2 ≤ f →
      ∃ t, GetExpressionLoop f root (cursorAt ts i)
          = .ok (.ok t, cursorAt ts (i + w.length)) ∧ t.spineOK = true
  | .expression, w => ∀ (ts : List Token) (i : Nat) (f : Nat),
      ts.drop i = w ++ [o] → 3 * w.length + 3 ≤ f →
      ∃ t, GetExpression f (cursorAt ts i) = .ok (.ok t, cursorAt ts (i + w.length))
  | _, _ => True

/-! ## The bodies of the two loops -/

/-- How one pass through the body of a `for` loop ends: the loop is left and the
rule returns, or the next pass begins. -/
inductive Iteration (σ : Type) where
  | stop (result : Except Error σ) (tokens : Tokens)
  | again (state : σ) (tokens : Tokens)

/-- One pass through the body of the loop of `GetExpression`, entered with the
current `root`. -/
def GetExpressionBody (fuel : Nat) (root : Operator) (tokens : Tokens) :
    Except Abort (Iteration Operator) := do
  let index := tokens.GetIndex
  let (r, tokens) ← tokens.GetTokenOfType TokenTypeOperator
  match r with
  | .error _ => pure (.stop (.ok root) tokens)
  | .ok operator =>
    let (r, tokens) ← GetOperand fuel tokens
    match r with
    | .error _ => pure (.stop (.ok root) (tokens.SetIndex index))
    | .ok operand =>
      let root ← fold root operator operand
      pure (.again root tokens)

/-- One pass through the body of the loop of `GetArgumentList`, entered with the
`args` collected so far. -/
def GetArgumentListBody (fuel : Nat) (args : List Operator) (tokens : Tokens) :
    Except Abort (Iteration (List Operator)) := do
  let (r, tokens) ← GetExpression fuel tokens
  match r with
  | .error _ => pure (.stop (.ok args) tokens)
  | .ok operator =>
    let args := args ++ [operator]
    let (r, tokens) ← tokens.GetToken
    match r with
    | .error _ =>
      pure (.stop (.error (.New "syntax error, expected token ',' or ')'")) tokens)
    | .ok token =>
      if (← token.GetType) = TokenTypeComma then
        pure (.again args tokens)
      else
        pure (.stop (.ok args) tokens.ReturnToken)

/-- What follows a pass through the body of the loop of `GetExpression`. -/
def afterExpressionBody (fuel : Nat) :
    Iteration Operator → Except Abort (Except Error Operator × Tokens)
  | .stop result tokens => pure (result, tokens)
  | .again root tokens => GetExpressionLoop fuel root tokens

/-- What follows a pass through the body of the loop of `GetArgumentList`. -/
def afterArgumentListBody (fuel : Nat) :
    Iteration (List Operator) → Except Abort (Except Error (List Operator) × Tokens)
  | .stop result tokens => pure (result, tokens)
  | .again args tokens => GetArgumentListLoop fuel args tokens

/-! ## Runs with more fuel -/

/-- The run `y` ends as the run `x` did, unless `x` ran out of fuel. -/
def Extends {α : Type} (x y : Except Abort α) : Prop :=
  x = .error .fuel ∨ y = x

/-- Each rule run with fuel `n + 1` ends as with fuel `n`, unless that run ran out
of fuel. -/
structure Stable (n : Nat) : Prop where
  expression : ∀ t, Extends (GetExpression n t) (GetExpression (n + 1) t)
  operand : ∀ t, Extends (GetOperand n t) (GetOperand (n + 1) t)
  quoted : ∀ t, Extends (GetQuotedOperand n t) (GetQuotedOperand (n + 1) t)
  call : ∀ t, Extends (GetFunctionCallOperand n t) (GetFunctionCallOperand (n + 1) t)
  arguments : ∀ t, Extends (GetArgumentList n t) (GetArgumentList (n + 1) t)
  argumentsLoop : ∀ args t,
    Extends (GetArgumentListLoop n args t) (GetArgumentListLoop (n + 1) args t)
  loop : ∀ root t, Extends (GetExpressionLoop n root t) (GetExpressionLoop (n + 1) root t)

/-! ## Trees with the record of their parentheses -/

/-- The trees that the rules build from the tokens `ts`: a value node, a
function-call node over such trees, a binary node made by `NewOperator` over two
such trees, and the tree `e` marked leaf-like, where `e` is the tree that
`GetExpression` returned for the tokens between a `(` at index `i` and a `)` at
index `j` of `ts`. -/
inductive Parsed (ts : List Token) : Operator → Prop where
  | value (v : Int) : Parsed ts (NewValue v)
  | call (name : List Char) (args : List Operator) :
      (∀ a ∈ args, Parsed ts a) → Parsed ts (.mk OpFunc none none (.func (.mk name args)) true)
  | binary (op : Int) (l r : Operator) :
      (op = OpAdd ∨ op = OpSub ∨ op = OpMul ∨ op = OpDiv) → Parsed ts l → Parsed ts r →
      Parsed ts (NewOperator op (some l) (some r))
  | paren (e : Operator) (n i j : Nat) :
      ts.get? i = some ['('] → ts.get? j = some [')'] →
      GetExpression n (cursorAt ts (i + 1)) = .ok (.ok e, cursorAt ts j) →
      Parsed ts e → Parsed ts (e.setLeaf true)

/-- The tree `t` is the tree of a subexpression written in parentheses in `ts`:
some `(` at an index `i` and some `)` at an index `j` enclose tokens for which
`GetExpression`, started right after the `(`, returned a tree `e` and stopped
at the `)`, and `t` is `e` marked leaf-like. -/
def Parenthesized (ts : List Token) (t : Operator) : Prop :=
  ∃ (n i j : Nat) (e : Operator), ts.get? i = some ['('] ∧ ts.get? j = some [')'] ∧
    GetExpression n (cursorAt ts (i + 1)) = .ok (.ok e, cursorAt ts j) ∧ t = e.setLeaf true

/-- The tree `t`, returned with the cursor `c` by a rule entered at index `i`, is
the tree of the parenthesized subexpression that begins with the `(` at `i`; the
cursor is just after its `)`. -/
def ParenthesizedAt (ts : List Token) (i : Nat) (t : Operator) (c : Tokens) : Prop :=
  ∃ (n j : Nat) (e : Operator), ts.get? i = some ['('] ∧ ts.get? j = some [')'] ∧
    GetExpression n (cursorAt ts (i + 1)) = .ok (.ok e, cursorAt ts j) ∧
    c = cursorAt ts (j + 1) ∧ t = e.setLeaf true

/-- The tree of a well-formed sum whose atoms have the property `P`. -/
def FoldedBy (P : Operator → Prop) (x : Operator) : Prop :=
  ∃ s : SumT, s.WF ∧ s.Atoms P ∧ x = s.tree

/-- The trees that the seven rules return when run with fuel `n` on the tokens
`ts`, with the record of their parentheses. -/
structure Traced (ts : List Token) (n : Nat) : Prop where
  expression : ∀ (i : Nat) (x : Operator) (c : Tokens), i ≤ ts.length →
    GetExpression n (cursorAt ts i) = .ok (.ok x, c) →
    FoldedBy (fun a => a.Leaf = true ∧ Parsed ts a) x ∧
      (x.Leaf = true → ∃ m, GetOperand m (cursorAt ts i) = .ok (.ok x, c))
  operand : ∀ (i : Nat) (x : Operator) (c : Tokens), i ≤ ts.length →
    GetOperand n (cursorAt ts i) = .ok (.ok x, c) →
    x.Leaf = true ∧ Parsed ts x ∧
      (x.OpType = OpVal ∨ x.OpType = OpFunc ∨ ParenthesizedAt ts i x c)
  quoted : ∀ (i : Nat) (x : Operator) (c : Tokens), i < ts.length →
    GetQuotedOperand n (cursorAt ts i) = .ok (.ok x, c) →
    x.Leaf = true ∧ Parsed ts x ∧ ParenthesizedAt ts i x c
  call : ∀ (i : Nat) (x : Operator) (c : Tokens), i < ts.length →
    GetFunctionCallOperand n (cursorAt ts i) = .ok (.ok x, c) →
    x.Leaf = true ∧ Parsed ts x ∧ x.OpType = OpFunc
  arguments : ∀ (i : Nat) (args : List Operator) (c : Tokens), i ≤ ts.length →
    GetArgumentList n (cursorAt ts i) = .ok (.ok args, c) → ∀ a ∈ args, Parsed ts a
  argumentsLoop : ∀ (i : Nat) (args0 args : List Operator) (c : Tokens), i ≤ ts.length →
    (∀ a ∈ args0, Parsed ts a) →
    GetArgumentListLoop n args0 (cursorAt ts i) = .ok (.ok args, c) → ∀ a ∈ args, Parsed ts a
  loop : ∀ (i : Nat) (root x : Operator) (c : Tokens), i ≤ ts.length →
    FoldedBy (fun a => a.Leaf = true ∧ Parsed ts a) root →
    GetExpressionLoop n root (cursorAt ts i) = .ok (.ok x, c) →
    FoldedBy (fun a => a.Leaf = true ∧ Parsed ts a) x ∧
      ((x = root ∧ c = cursorAt ts i) ∨ x.Leaf = false)

/-! ## Tokens after a well-formed expression -/

/-- Some identifier of the tokens is directly followed by `(`: a function call
opens. -/
def opensCall : List Token → Bool
  | [] => false
  | [_] => false
  | t :: t' :: rest => (isIdentifierToken t && decide (t' = ['('])) || opensCall (t' :: rest)

/-- The tokens of `ts` from index `i` up to index `j`, `j` excluded. -/
def tokensBetween (ts : List Token) (i j : Nat) : List Token :=
  (ts.drop i).take (j - i)

/-- From index `i0` on, every token of `ts` is plain and no identifier is
directly followed by `(`. -/
def PlainFrom (ts : List Token) (i0 : Nat) : Prop :=
  ∀ k tok, i0 ≤ k → ts.get? k = some tok →
    isPlainToken tok = true ∧ (isIdentifierToken tok = true → ts.get? (k + 1) ≠ some ['('])

/-- The loop of `GetExpression`, started on a cursor whose remaining tokens begin
with `w`, comes to the pass that begins just after `w`; likewise the rule
`expression`. -/
def LoopPrefix : Nonterminal → List Token → Prop
  | .opTail, w => ∀ (ts : List Token) (i : Nat) (rest : List Token) (f : Nat)
      (root : Operator),
      ts.drop i = w ++ rest → root.spineOK = true → 3 * w.length ≤ f →
      ∃ root' f', root'.spineOK = true ∧
        GetExpressionLoop (f + 1) root (cursorAt ts i)
          = GetExpressionLoop (f' + 1) root' (cursorAt ts (i + w.length))
  | .expression, w => ∀ (ts : List Token) (i : Nat) (rest : List Token) (f : Nat),
      ts.drop i = w ++ rest → 3 * w.length + 1 ≤ f →
      ∃ root' f', root'.spineOK = true ∧
        GetExpression (f + 1) (cursorAt ts i)
          = GetExpressionLoop (f' + 1) root' (cursorAt ts (i + w.length))
  | _, _ => True

/-- On tokens that are plain and open no call from `i0` on, what the rules run
with fuel `n` return from an index `i ≥ i0` is a tree only for tokens derivable
from the nonterminal of the rule. -/
structure Sound (ts : List Token) (i0 n : Nat) : Prop where
  expression : ∀ (i : Nat) (t : Operator) (c : Tokens), i0 ≤ i → i ≤ ts.length →
    GetExpression n (cursorAt ts i) = .ok (.ok t, c) →
    ∃ j, c = cursorAt ts j ∧ i ≤ j ∧ j ≤ ts.length ∧
      Derives .expression (tokensBetween ts i j)
  operand : ∀ (i : Nat) (t : Operator) (c : Tokens), i0 ≤ i → i ≤ ts.length →
    GetOperand n (cursorAt ts i) = .ok (.ok t, c) →
    ∃ j, c = cursorAt ts j ∧ i ≤ j ∧ j ≤ ts.length ∧
      Derives .operand (tokensBetween ts i j)
  quoted : ∀ (i : Nat) (t : Operator) (c : Tokens), i0 ≤ i → i < ts.length →
    GetQuotedOperand n (cursorAt ts i) = .ok (.ok t, c) →
    ∃ j, c = cursorAt ts j ∧ i ≤ j ∧ j ≤ ts.length ∧
      Derives .operand (tokensBetween ts i j)
  call : ∀ (i : Nat) (t : Operator) (c : Tokens), i0 ≤ i → i < ts.length →
    GetFunctionCallOperand n (cursorAt ts i) ≠ .ok (.ok t, c)
  loop : ∀ (i : Nat) (root t : Operator) (c : Tokens), i0 ≤ i → i ≤ ts.length →
    GetExpressionLoop n root (cursorAt ts i) = .ok (.ok t, c) →
    ∃ j, c = cursorAt ts j ∧ i ≤ j ∧ j ≤ ts.length ∧
      Derives .opTail (tokensBetween ts i j)

/-! ## The evaluator on trees without `random` -/

mutual
theorem Calculate_eq_pureValue (rng : Nat → Nat) :
    ∀ (t : Operator) (k : Nat), t.noRandom = true →
      t.Calculate rng k = atDraw k t.pureValue
  | .mk opType l r value leaf, k, h => by
    simp only [Operator.noRandom, Bool.and_eq_true] at h
    rw [Operator.Calculate, Operator.pureValue, calculateChild_eq_pureChild rng l k h.1.1]
    cases hl : pureChild l with
    | error e => rfl
    | ok left =>
      simp only [atDraw, bind, Except.bind]
      rw [calculateChild_eq_pureChild rng r k h.1.2]
      cases hr : pureChild r with
      | error e => rfl
      | ok right =>
        simp only [atDraw]
        cases hop : (opType == OpFunc) with
        | false =>
          cases hs : calculateSwitch opType value left right <;>
            simp [hs, atDraw, pure, Except.pure]
        | true =>
          cases value with
          | int v => simp [atDraw, pure, Except.pure]
          | func v =>
            simp only []
            exact calculateFunc_eq_pureFunc rng v k (by simpa [noRandomAny] using h.2)
theorem calculateChild_eq_pureChild (rng : Nat → Nat) :
    ∀ (c : Option Operator) (k : Nat), noRandomChild c = true →
      calculateChild rng c k = atDraw k (pureChild c)
  | none, k, _ => by simp [calculateChild, pureChild, atDraw, pure, Except.pure]
  | some op, k, h => by
    rw [calculateChild, pureChild]
    exact Calculate_eq_pureValue rng op k (by simpa [noRandomChild] using h)
theorem calculateFunc_eq_pureFunc (rng : Nat → Nat) :
    ∀ (v : FunctionCall) (k : Nat), noRandomFunc v = true →
      calculateFunc rng v k = atDraw k (pureFunc v)
  | .mk name [], k, h => by
    simp only [noRandomFunc, Bool.and_eq_true, bne_iff_ne, ne_eq] at h
    rw [calculateFunc, pureFunc]
    simp only [h.1, if_false]
    split
    · exact sumLoop_eq_pureSumLoop rng [] 0 k h.2
    · split
      · rfl
      · split <;> rfl
  | .mk name (a0 :: rest), k, h => by
    simp only [noRandomFunc, Bool.and_eq_true, bne_iff_ne, ne_eq] at h
    have ha : a0.noRandom = true := by
      have := h.2; simp only [noRandomList, Bool.and_eq_true] at this; exact this.1
    rw [calculateFunc, pureFunc]
    simp only [h.1, if_false]
    split
    · exact sumLoop_eq_pureSumLoop rng (a0 :: rest) 0 k h.2
    · split
      · rw [Calculate_eq_pureValue rng a0 k ha]
        cases h0 : a0.pureValue with
        | error e => rfl
        | ok m =>
          simp only [atDraw, bind, Except.bind]
          exact maxLoop_eq_pureMaxLoop rng (a0 :: rest) m k h.2
      · split
        · rw [Calculate_eq_pureValue rng a0 k ha]
          cases h0 : a0.pureValue with
          | error e => rfl
          | ok m =>
            simp only [atDraw, bind, Except.bind]
            exact minLoop_eq_pureMinLoop rng (a0 :: rest) m k h.2
        · rfl
theorem sumLoop_eq_pureSumLoop (rng : Nat → Nat) :
    ∀ (args : List Operator) (sum : Int) (k : Nat), noRandomList args = true →
      sumLoop rng args sum k = atDraw k (pureSumLoop args sum)
  | [], sum, k, _ => by simp [sumLoop, pureSumLoop, atDraw, pure, Except.pure]
  | arg :: rest, sum, k, h => by
    simp only [noRandomList, Bool.and_eq_true] at h
    rw [sumLoop, pureSumLoop, Calculate_eq_pureValue rng arg k h.1]
    cases hv : arg.pureValue with
    | error e => rfl
    | ok v =>
      simp only [atDraw, bind, Except.bind]
      exact sumLoop_eq_pureSumLoop rng rest _ k h.2
theorem maxLoop_eq_pureMaxLoop (rng : Nat → Nat) :
    ∀ (args : List Operator) (max : Int) (k : Nat), noRandomList args = true →
      maxLoop rng args max k = atDraw k (pureMaxLoop args max)
  | [], max, k, _ => by simp [maxLoop, pureMaxLoop, atDraw, pure, Except.pure]
  | arg :: rest, max, k, h => by
    simp only [noRandomList, Bool.and_eq_true] at h
    rw [maxLoop, pureMaxLoop, Calculate_eq_pureValue rng arg k h.1]
    cases hv : arg.pureValue with
    | error e => rfl
    | ok v =>
      simp only [atDraw, bind, Except.bind]
      split
      · rw [Calculate_eq_pureValue rng arg k h.1, hv]
        simp only [atDraw]
        exact maxLoop_eq_pureMaxLoop rng rest _ k h.2
      · exact maxLoop_eq_pureMaxLoop rng rest _ k h.2
theorem minLoop_eq_pureMinLoop (rng : Nat → Nat) :
    ∀ (args : List Operator) (min : Int) (k : Nat), noRandomList args = true →
      minLoop rng args min k = atDraw k (pureMinLoop args min)
  | [], min, k, _ => by simp [minLoop, pureMinLoop, atDraw, pure, Except.pure]
  | arg :: rest, min, k, h => by
    simp only [noRandomList, Bool.and_eq_true] at h
    rw [minLoop, pureMinLoop, Calculate_eq_pureValue rng arg k h.1]
    cases hv : arg.pureValue with
    | error e => rfl
    | ok v =>
      simp only [atDraw, bind, Except.bind]
      split
      · rw [Calculate_eq_pureValue rng arg k h.1, hv]
        simp only [atDraw]
        exact minLoop_eq_pureMinLoop rng rest _ k h.2
      · exact minLoop_eq_pureMinLoop rng rest _ k h.2
end

/-! ## End-to-end scenarios -/

/-- On a text whose tree holds no `random` call, `Calc` does not depend on the
oracle. -/
theorem Calc_eq_of_noRandom (rng : Nat → Nat) (k : Nat) (expression : List Char)
    (h : parsedNoRandom (BuildCalculatorTree expression) = true) :
    Calc rng expression k = Calc (fun _ => 0) expression 0 := by
  unfold Calc
  cases hp : BuildCalculatorTree expression with
  | error e => rfl
  | ok p =>
    obtain ⟨r, cursor⟩ := p
    cases r with
    | error e => rfl
    | ok tree =>
      rw [hp] at h
      simp only [parsedNoRandom] at h
      simp only [bind, Except.bind]
      rw [Calculate_eq_pureValue rng tree k h, Calculate_eq_pureValue _ tree 0 h]
      cases tree.pureValue <;> rfl

set_option maxRecDepth 100000 in
/-- C6: `Calc` returns the listed integer on each listed input, whatever the
oracle behind `rand.Int()`. -/
theorem Calc_scenarios (rng : Nat → Nat) (k : Nat) :
    Calc rng "1+(2+3)*4".toList k = .ok 21
    ∧ Calc rng "1+2*3".toList k = .ok 7
    ∧ Calc rng "2*3+4".toList k = .ok 10
    ∧ Calc rng "4+5*2".toList k = .ok 14
    ∧ Calc rng "1*2*3*4".toList k = .ok 24
    ∧ Calc rng "1+2*3+4+5+6+7+8+9*10".toList k = .ok 127
    ∧ Calc rng "1+((2+3)*4)*5".toList k = .ok 101
    ∧ Calc rng "(((111)))".toList k = .ok 111
    ∧ Calc rng "min(1, max(1,2,3)+1) ".toList k = .ok 1
    ∧ Calc rng
        "min(1,2,3,4,5,6,7,8,9,10)*max(1,2,3,4,5,6,7,8,9,10)+min(1,2,3,4,5,6,7,8,9,10)".toList
        k = .ok 11
    ∧ Calc rng "sum(1+2+3, 4+5+6, 7+8+9, min(1,10))*max(1,2)".toList k = .ok 92 := by
  refine ⟨?_, ?_, ?_, ?_, ?_, ?_, ?_, ?_, ?_, ?_, ?_⟩ <;>
    (rw [Calc_eq_of_noRandom rng k _ (by decide!)]; decide!)

/-! ## The fold of `GetExpression` builds the tree of the precedence grammar -/

theorem rightSpine_of_leaf (y : Operator) (h : y.Leaf = true) :
    rightSpine y = .ok ([], y) := by
  cases y with
  | mk t l r v leaf =>
    simp only [Operator.Leaf] at h
    subst h
    simp [rightSpine, pure, Except.pure]

theorem foldAll_append (root : Operator) (xs ys : List (Int × Operator)) :
    foldAll root (xs ++ ys) = (foldAll root xs).bind (fun r => foldAll r ys) := by
  induction xs generalizing root with
  | nil => rfl
  | cons p xs ih =>
    obtain ⟨o, x⟩ := p
    simp only [List.cons_append, foldAll, bind]
    cases fold root o x with
    | error e => rfl
    | ok r => simpa [Except.bind] using ih r

theorem priority_mul (op : Int) (h : op = OpMul ∨ op = OpDiv) : OperatorPriority op = 2 := by
  rcases h with h | h <;> subst h <;> decide

theorem priority_add (op : Int) (h : op = OpAdd ∨ op = OpSub) : OperatorPriority op = 1 := by
  rcases h with h | h <;> subst h <;> decide

theorem priority_le_two (op : Int) : OperatorPriority op ≤ 2 := by
  unfold OperatorPriority
  split_ifs <;> decide

/-- A product tree is a leaf-like atom or a `*`/`/` node whose right child is a
leaf-like atom. -/
theorem ProdT.tree_shape (p : ProdT) (hp : p.WF) :
    p.tree.Leaf = true ∨
      ∃ m l y, p.tree = NewOperator m (some l) (some y) ∧ OperatorPriority m = 2 ∧
        y.Leaf = true := by
  cases p with
  | atom x => exact Or.inl hp
  | mul l op x => exact Or.inr ⟨op, l.tree, x, rfl, priority_mul op hp.2.1, hp.2.2⟩

/-- Folding any operator into a product tree puts the product on the left. -/
theorem fold_prod (p : ProdT) (hp : p.WF) (op : Int) (x : Operator) :
    fold p.tree op x = .ok (NewOperator op (some p.tree) (some x)) := by
  rcases p.tree_shape hp with h | ⟨m, l, y, ht, hm, hy⟩
  · simp [fold, Operator.IsLeaf, h, pure, Except.pure]
  · rw [ht]
    have h2 := priority_le_two op
    simp [fold, Operator.IsLeaf, NewOperator, Operator.Leaf, rightSpine, rightSpineChild,
      rightSpine_of_leaf y hy, bind, Except.bind, pure, Except.pure, rotate,
      CompareOperatorPriority, Operator.OpType, hm, Operator.Right, Operator.setLeft,
      Operator.setRight, Operator.Left, h2]

/-- Folding `+` or `-` into a sum tree puts the sum on the left. -/
theorem fold_sum_add (s : SumT) (hs : s.WF) (op : Int) (hop : op = OpAdd ∨ op = OpSub)
    (x : Operator) :
    fold s.tree op x = .ok (NewOperator op (some s.tree) (some x)) := by
  cases s with
  | prod p => exact fold_prod p hs op x
  | add l a p =>
    obtain ⟨_, ha, hp⟩ := hs
    have h1 := priority_add a ha
    have h2 := priority_add op hop
    rcases p.tree_shape hp with h | ⟨m, q, y, ht, hm, hy⟩
    · simp [SumT.tree, fold, Operator.IsLeaf, NewOperator, Operator.Leaf, rightSpine,
        rightSpineChild, rightSpine_of_leaf _ h, bind, Except.bind, pure, Except.pure, rotate,
        CompareOperatorPriority, Operator.OpType, h1, h2, Operator.Right, Operator.setLeft,
        Operator.setRight, Operator.Left]
    · simp [SumT.tree, ht, fold, Operator.IsLeaf, NewOperator, Operator.Leaf, rightSpine,
        rightSpineChild, rightSpine_of_leaf _ hy, bind, Except.bind, pure, Except.pure, rotate,
        CompareOperatorPriority, Operator.OpType, h1, h2, hm, Operator.Right, Operator.setLeft,
        Operator.setRight, Operator.Left]

/-- Folding `*` or `/` into a sum tree extends its last product. -/
theorem fold_sum_mul (l : SumT) (a : Int) (ha : a = OpAdd ∨ a = OpSub) (p : ProdT)
    (hp : p.WF) (op : Int) (hop : op = OpMul ∨ op = OpDiv) (x : Operator) :
    fold (SumT.add l a p).tree op x = .ok (SumT.add l a (.mul p op x)).tree := by
  have h1 := priority_add a ha
  have h2 := priority_mul op hop
  rcases p.tree_shape hp with h | ⟨m, q, y, ht, hm, hy⟩
  · simp [SumT.tree, ProdT.tree, fold, Operator.IsLeaf, NewOperator, Operator.Leaf, rightSpine,
      rightSpineChild, rightSpine_of_leaf _ h, bind, Except.bind, pure, Except.pure, rotate,
      plug, CompareOperatorPriority, Operator.OpType, h1, h2, Operator.Right,
      Operator.setLeft, Operator.setRight, Operator.Left]
  · simp [SumT.tree, ProdT.tree, ht, fold, Operator.IsLeaf, NewOperator, Operator.Leaf,
      rightSpine, rightSpineChild, rightSpine_of_leaf _ hy, bind, Except.bind, pure,
      Except.pure, rotate, plug, CompareOperatorPriority, Operator.OpType, h1, h2, hm,
      Operator.Right, Operator.setLeft, Operator.setRight, Operator.Left]

theorem foldAll_prod (p : ProdT) (hp : p.WF) : foldAll p.first p.rest = .ok p.tree := by
  induction p with
  | atom x => rfl
  | mul l op x ih =>
    simp only [ProdT.first, ProdT.rest, foldAll_append, ih hp.1, Except.bind, foldAll, bind,
      fold_prod l hp.1 op x]
    rfl

/-- After the sum `l` and the operator `a`, folding the pairs of the product `p`
onto the tree that holds its first atom gives the tree of `l a p`. -/
theorem foldAll_last_prod (l : SumT) (a : Int) (ha : a = OpAdd ∨ a = OpSub) (p : ProdT)
    (hp : p.WF) :
    foldAll (NewOperator a (some l.tree) (some p.first)) p.rest
      = .ok (SumT.add l a p).tree := by
  induction p with
  | atom x => rfl
  | mul q op x ih =>
    simp only [ProdT.first, ProdT.rest, foldAll_append, ih hp.1, Except.bind, foldAll, bind]
    rw [fold_sum_mul l a ha q hp.1 op hp.2.1 x]
    rfl

theorem foldAll_sum (s : SumT) (hs : s.WF) : foldAll s.first s.rest = .ok s.tree := by
  induction s with
  | prod p => exact foldAll_prod p hs
  | add l a p ih =>
    simp only [SumT.first, SumT.rest, foldAll_append, ih hs.1, Except.bind, foldAll, bind]
    rw [fold_sum_add l hs.1 a hs.2.1 p.first]
    exact foldAll_last_prod l a hs.2.1 p hs.2.2

theorem SumT.snoc_spec (s : SumT) (hs : s.WF) (op : Int)
    (hop : op = OpAdd ∨ op = OpSub ∨ op = OpMul ∨ op = OpDiv) (x : Operator)
    (hx : x.Leaf = true) :
    (s.snoc op x).WF ∧ (s.snoc op x).first = s.first ∧
      (s.snoc op x).rest = s.rest ++ [(op, x)] := by
  cases s with
  | prod p =>
    by_cases h : op = OpMul ∨ op = OpDiv
    · simp only [SumT.snoc, h, if_true]
      exact ⟨⟨hs, h, hx⟩, rfl, rfl⟩
    · simp only [SumT.snoc, h, if_false]
      have h' : op = OpAdd ∨ op = OpSub := by tauto
      exact ⟨⟨hs, h', hx⟩, rfl, rfl⟩
  | add l a p =>
    by_cases h : op = OpMul ∨ op = OpDiv
    · simp only [SumT.snoc, h, if_true]
      exact ⟨⟨hs.1, hs.2.1, hs.2.2, h, hx⟩, rfl, by simp [SumT.rest, ProdT.rest, ProdT.first]⟩
    · simp only [SumT.snoc, h, if_false]
      have h' : op = OpAdd ∨ op = OpSub := by tauto
      exact ⟨⟨hs, h', hx⟩, rfl, by simp [SumT.rest, ProdT.rest, ProdT.first]⟩

/-- Every sequence of leaf-like operands and binary operators is the yield of a
derivation. -/
theorem exists_derivation (x0 : Operator) (rest : List (Int × Operator))
    (h0 : x0.Leaf = true)
    (hrest : ∀ p ∈ rest,
      (p.1 = OpAdd ∨ p.1 = OpSub ∨ p.1 = OpMul ∨ p.1 = OpDiv) ∧ p.2.Leaf = true) :
    ∃ s : SumT, s.WF ∧ s.first = x0 ∧ s.rest = rest := by
  induction rest using List.reverseRecOn with
  | nil => exact ⟨.prod (.atom x0), h0, rfl, rfl⟩
  | append_singleton init p ih =>
    obtain ⟨s, hs, hf, hr⟩ := ih (fun q hq => hrest q (List.mem_append_left _ hq))
    have hp := hrest p (List.mem_append_right _ (List.mem_singleton_self p))
    obtain ⟨h1, h2, h3⟩ := s.snoc_spec hs p.1 hp.1 p.2 hp.2
    exact ⟨s.snoc p.1 p.2, h1, h2 ▸ hf, by rw [h3, hr]⟩

theorem Calculate_NewOperator (rng : Nat → Nat) (op : Int)
    (hop : op = OpAdd ∨ op = OpSub ∨ op = OpMul ∨ op = OpDiv) (a b : Operator) (k : Nat) :
    (NewOperator op (some a) (some b)).Calculate rng k = (do
      let (l, k) ← a.Calculate rng k
      let (r, k) ← b.Calculate rng k
      let v ← calculateSwitch op (.int 0) l r
      pure (v, k)) := by
  have h : (op == OpFunc) = false := by
    rcases hop with h | h | h | h <;> subst h <;> decide
  rw [NewOperator, Operator.Calculate]
  simp only [calculateChild]
  rw [h]

theorem ProdT.Calculate_prod_tree (rng : Nat → Nat) (p : ProdT) (hp : p.WF) (k : Nat) :
    p.tree.Calculate rng k = p.value rng k := by
  induction p generalizing k with
  | atom x => rfl
  | mul l op x ih =>
    simp only [ProdT.tree, ProdT.value]
    rw [Calculate_NewOperator rng op (by have := hp.2.1; tauto)]
    simp only [ih hp.1]

theorem SumT.Calculate_sum_tree (rng : Nat → Nat) (s : SumT) (hs : s.WF) (k : Nat) :
    s.tree.Calculate rng k = s.value rng k := by
  induction s generalizing k with
  | prod p => exact p.Calculate_prod_tree rng hs k
  | add l op p ih =>
    simp only [SumT.tree, SumT.value]
    rw [Calculate_NewOperator rng op (by have := hs.2.1; tauto)]
    simp only [ih hs.1, p.Calculate_prod_tree rng hs.2.2]

/-- C1: for every first operand `x0` and every list `rest` of pairs of a binary
operator and an operand, all operands leaf-like, the sequence is the yield of a
derivation of the precedence grammar, and for every derivation `s` with this
yield the folds of `GetExpression` return exactly the tree of `s`, whose
`Calculate` is the value of `s`. -/
theorem foldAll_eq_precedence_tree (x0 : Operator) (rest : List (Int × Operator))
    (h0 : x0.Leaf = true)
    (hrest : ∀ p ∈ rest,
      (p.1 = OpAdd ∨ p.1 = OpSub ∨ p.1 = OpMul ∨ p.1 = OpDiv) ∧ p.2.Leaf = true) :
    (∃ s : SumT, s.WF ∧ s.first = x0 ∧ s.rest = rest) ∧
    ∀ s : SumT, s.WF → s.first = x0 → s.rest = rest →
      foldAll x0 rest = .ok s.tree ∧
      ∀ (rng : Nat → Nat) (k : Nat), s.tree.Calculate rng k = s.value rng k := by
  refine ⟨exists_derivation x0 rest h0 hrest, ?_⟩
  intro s hs hf hr
  subst hf hr
  exact ⟨foldAll_sum s hs, fun rng k => s.Calculate_sum_tree rng hs k⟩

/-- Witness of C1 on `1 + 2 * 3`. -/
theorem foldAll_eq_precedence_tree_witness :
    foldAll (NewValue 1) [(OpAdd, NewValue 2), (OpMul, NewValue 3)]
      = .ok (NewOperator OpAdd (some (NewValue 1))
          (some (NewOperator OpMul (some (NewValue 2)) (some (NewValue 3))))) :=
  ((foldAll_eq_precedence_tree (NewValue 1) [(OpAdd, NewValue 2), (OpMul, NewValue 3)] rfl
      (by
        intro p hp
        simp only [List.mem_cons, List.mem_singleton, List.not_mem_nil, or_false] at hp
        rcases hp with rfl | rfl
        · exact ⟨Or.inl rfl, rfl⟩
        · exact ⟨Or.inr (Or.inr (Or.inl rfl)), rfl⟩)).2
    (.add (.prod (.atom (NewValue 1))) OpAdd (.mul (.atom (NewValue 2)) OpMul (NewValue 3)))
    ⟨rfl, Or.inl rfl, rfl, Or.inl rfl, rfl⟩ rfl rfl).1

/-! ## The built-in functions -/

theorem wrap_add_wrap (a b : Int) : wrap (wrap a + b) = wrap (a + b) := by
  unfold wrap
  have h : (a + 2 ^ (intBits - 1)) % 2 ^ intBits - 2 ^ (intBits - 1) + b + 2 ^ (intBits - 1)
      = (a + 2 ^ (intBits - 1)) % 2 ^ intBits + b := by ring
  rw [h, Int.emod_add_emod]
  congr 2
  ring

theorem wrap_of_range (x : Int) (h1 : minInt ≤ x) (h2 : x ≤ maxInt) : wrap x = x := by
  unfold wrap
  unfold minInt at h1
  unfold maxInt at h2
  simp only [intBits] at *
  norm_num at *
  omega

theorem pureValue_of_Calculate (rng : Nat → Nat) (a : Operator) (k k' : Nat) (v : Int)
    (hr : a.noRandom = true) (h : a.Calculate rng k = .ok (v, k')) :
    a.pureValue = .ok v := by
  rw [Calculate_eq_pureValue rng a k hr] at h
  cases hp : a.pureValue with
  | error e => rw [hp] at h; simp [atDraw] at h
  | ok w =>
    rw [hp] at h
    simp only [atDraw, Except.ok.injEq, Prod.mk.injEq] at h
    rw [h.1]

theorem pureSumLoop_eq (args : List Operator) (vs : List Int)
    (h : List.Forall₂ (fun a v => a.pureValue = .ok v) args vs) (s : Int) :
    pureSumLoop args (wrap s) = .ok (wrap (s + vs.sum)) := by
  induction h generalizing s with
  | nil => simp [pureSumLoop, pure, Except.pure]
  | cons hv _ ih =>
    simp only [pureSumLoop, hv, bind, Except.bind, List.sum_cons]
    rw [wrap_add_wrap, ih, add_assoc]

theorem pureMaxLoop_eq (args : List Operator) (vs : List Int)
    (h : List.Forall₂ (fun a v => a.pureValue = .ok v) args vs) (m : Int) :
    pureMaxLoop args m = .ok (vs.foldl max m) := by
  induction h generalizing m with
  | nil => simp [pureMaxLoop, pure, Except.pure]
  | @cons a v as vs hv _ ih =>
    simp only [pureMaxLoop, hv, bind, Except.bind, List.foldl_cons]
    split
    · rw [ih]
      congr 2
      omega
    · rw [ih]
      congr 2
      omega

theorem pureMinLoop_eq (args : List Operator) (vs : List Int)
    (h : List.Forall₂ (fun a v => a.pureValue = .ok v) args vs) (m : Int) :
    pureMinLoop args m = .ok (vs.foldl min m) := by
  induction h generalizing m with
  | nil => simp [pureMinLoop, pure, Except.pure]
  | @cons a v as vs hv _ ih =>
    simp only [pureMinLoop, hv, bind, Except.bind, List.foldl_cons]
    split
    · rw [ih]
      congr 2
      omega
    · rw [ih]
      congr 2
      omega

theorem foldl_max_spec (vs : List Int) (m : Int) :
    (vs.foldl max m = m ∨ vs.foldl max m ∈ vs) ∧ m ≤ vs.foldl max m ∧
      ∀ v ∈ vs, v ≤ vs.foldl max m := by
  induction vs generalizing m with
  | nil => simp
  | cons w ws ih =>
    obtain ⟨h1, h2, h3⟩ := ih (max m w)
    simp only [List.foldl_cons, List.mem_cons, forall_eq_or_imp]
    refine ⟨?_, by omega, by omega, h3⟩
    rcases h1 with h1 | h1
    · rcases le_total m w with h | h
      · right; left; rw [h1]; exact max_eq_right h
      · left; rw [h1]; exact max_eq_left h
    · right; right; exact h1

theorem foldl_min_spec (vs : List Int) (m : Int) :
    (vs.foldl min m = m ∨ vs.foldl min m ∈ vs) ∧ vs.foldl min m ≤ m ∧
      ∀ v ∈ vs, vs.foldl min m ≤ v := by
  induction vs generalizing m with
  | nil => simp
  | cons w ws ih =>
    obtain ⟨h1, h2, h3⟩ := ih (min m w)
    simp only [List.foldl_cons, List.mem_cons, forall_eq_or_imp]
    refine ⟨?_, by omega, by omega, h3⟩
    rcases h1 with h1 | h1
    · rcases le_total m w with h | h
      · left; rw [h1]; exact min_eq_left h
      · right; left; rw [h1]; exact min_eq_right h
    · right; right; exact h1

theorem pureValue_func (v : FunctionCall) (leaf : Bool) :
    (Operator.mk OpFunc none none (.func v) leaf).pureValue = pureFunc v := by
  have h : (OpFunc == OpFunc) = true := by decide
  rw [Operator.pureValue]
  simp only [pureChild, bind, Except.bind, pure, Except.pure]
  rw [h]

theorem noRandomList_of_forall (args : List Operator) (h : ∀ a ∈ args, a.noRandom = true) :
    noRandomList args = true := by
  induction args with
  | nil => rfl
  | cons a as ih =>
    simp only [noRandomList, Bool.and_eq_true]
    exact ⟨h a (List.mem_cons_self _ _), ih (fun b hb => h b (List.mem_cons_of_mem _ hb))⟩

/-- C7: on a `FunctionCall` node whose arguments hold no `random` call and
evaluate to the values `vs` (each argument evaluated once), `sum` returns the
host-integer sum of `vs` (the exact sum when it fits `int`, `0` for no argument),
and `max` and `min` with at least one argument return the greatest and the least
element of `vs`; no draw is made. -/
theorem Calculate_sum_max_min (rng : Nat → Nat) (k : Nat) (args : List Operator)
    (vs : List Int) (hr : ∀ a ∈ args, a.noRandom = true)
    (hv : List.Forall₂ (fun a v => ∃ k', a.Calculate rng k = .ok (v, k')) args vs) :
    (Operator.mk OpFunc none none (.func (.mk "sum".toList args)) true).Calculate rng k
        = .ok (wrap vs.sum, k)
    ∧ (minInt ≤ vs.sum → vs.sum ≤ maxInt →
        (Operator.mk OpFunc none none (.func (.mk "sum".toList args)) true).Calculate rng k
          = .ok (vs.sum, k))
    ∧ (args = [] →
        (Operator.mk OpFunc none none (.func (.mk "sum".toList args)) true).Calculate rng k
          = .ok (0, k))
    ∧ (args ≠ [] → ∃ m,
        (Operator.mk OpFunc none none (.func (.mk "max".toList args)) true).Calculate rng k
          = .ok (m, k) ∧ m ∈ vs ∧ ∀ v ∈ vs, v ≤ m)
    ∧ (args ≠ [] → ∃ m,
        (Operator.mk OpFunc none none (.func (.mk "min".toList args)) true).Calculate rng k
          = .ok (m, k) ∧ m ∈ vs ∧ ∀ v ∈ vs, m ≤ v) := by
  have hl := noRandomList_of_forall args hr
  have hp : List.Forall₂ (fun a v => a.pureValue = .ok v) args vs := by
    clear hl
    induction hv with
    | nil => exact .nil
    | @cons a v as vs h _ ih =>
      obtain ⟨k', hk⟩ := h
      exact .cons (pureValue_of_Calculate rng a k k' v (hr a (List.mem_cons_self _ _)) hk)
        (ih (fun b hb => hr b (List.mem_cons_of_mem _ hb)))
  have hsum : (Operator.mk OpFunc none none (.func (.mk "sum".toList args)) true).Calculate
      rng k = .ok (wrap vs.sum, k) := by
    rw [Calculate_eq_pureValue rng _ k (by
      simp only [Operator.noRandom, noRandomChild, noRandomAny, noRandomFunc, hl]; decide)]
    have h0 : pureSumLoop args 0 = .ok (wrap vs.sum) := by
      have := pureSumLoop_eq args vs hp 0
      rw [zero_add] at this
      rw [← this]
      rfl
    have hn : ("sum".toList = "random".toList) = False := by decide
    rw [pureValue_func]
    cases args <;> simp only [pureFunc, hn, if_false, if_true, h0, atDraw]
  refine ⟨hsum, ?_, ?_, ?_, ?_⟩
  · intro h1 h2
    rw [hsum, wrap_of_range _ h1 h2]
  · intro h
    subst h
    cases hv
    rw [hsum]
    rfl
  · intro hne
    cases hp with
    | nil => exact absurd rfl hne
    | @cons a v as ws h0 hrest =>
      refine ⟨(v :: ws).foldl max v, ?_, ?_, ?_⟩
      · rw [Calculate_eq_pureValue rng _ k (by
          simp only [Operator.noRandom, noRandomChild, noRandomAny, noRandomFunc, hl]; decide)]
        have hm := pureMaxLoop_eq (a :: as) (v :: ws) (.cons h0 hrest) v
        have hn1 : ("max".toList = "random".toList) = False := by decide
        have hn2 : ("max".toList = "sum".toList) = False := by decide
        rw [pureValue_func]
        simp only [pureFunc, bind, Except.bind, hn1, hn2, if_false, if_true, h0, hm, atDraw]
      · have := (foldl_max_spec (v :: ws) v).1
        rcases this with h | h
        · rw [h]; exact List.mem_cons_self _ _
        · exact h
      · exact (foldl_max_spec (v :: ws) v).2.2
  · intro hne
    cases hp with
    | nil => exact absurd rfl hne
    | @cons a v as ws h0 hrest =>
      refine ⟨(v :: ws).foldl min v, ?_, ?_, ?_⟩
      · rw [Calculate_eq_pureValue rng _ k (by
          simp only [Operator.noRandom, noRandomChild, noRandomAny, noRandomFunc, hl]; decide)]
        have hm := pureMinLoop_eq (a :: as) (v :: ws) (.cons h0 hrest) v
        have hn1 : ("min".toList = "random".toList) = False := by decide
        have hn2 : ("min".toList = "sum".toList) = False := by decide
        have hn3 : ("min".toList = "max".toList) = False := by decide
        rw [pureValue_func]
        simp only [pureFunc, bind, Except.bind, hn1, hn2, hn3, if_false, if_true, h0, hm,
          atDraw]
      · have := (foldl_min_spec (v :: ws) v).1
        rcases this with h | h
        · rw [h]; exact List.mem_cons_self _ _
        · exact h
      · exact (foldl_min_spec (v :: ws) v).2.2

/-- Witness of C7 on the arguments `3` and `5`. -/
theorem Calculate_sum_max_min_witness :
    (Operator.mk OpFunc none none (.func (.mk "sum".toList [NewValue 3, NewValue 5]))
        true).Calculate (fun _ => 0) 0 = .ok (wrap [3, 5].sum, 0) :=
  (Calculate_sum_max_min (fun _ => 0) 0 [NewValue 3, NewValue 5] [3, 5]
    (by
      intro a ha
      simp only [List.mem_cons, List.mem_singleton, List.not_mem_nil, or_false] at ha
      rcases ha with rfl | rfl <;> rfl)
    (.cons ⟨0, rfl⟩ (.cons ⟨0, rfl⟩ .nil))).1

/-! ## Token classification and the cursor -/

theorem isDigit_not_isLetter (c : Char) (h : isDigit c = true) : isLetter c = false := by
  simp only [isDigit, isLetter, Bool.and_eq_true, decide_eq_true_eq, Bool.or_eq_false_iff,
    Bool.and_eq_false_iff, decide_eq_false_iff_not] at *
  omega

theorem GetType_operator (o : Token) (h : isOperatorToken o = true) :
    o.GetType = .ok TokenTypeOperator := by
  simp only [isOperatorToken, Bool.or_eq_true, decide_eq_true_eq] at h
  simp only [Token.GetType]
  rw [if_pos (by tauto)]

theorem GetValue_operator (o : Token) (h : isOperatorToken o = true) :
    ∃ v, o.GetValue = .ok v ∧ (v = OpAdd ∨ v = OpSub ∨ v = OpMul ∨ v = OpDiv) := by
  have ht := GetType_operator o h
  simp only [isOperatorToken, Bool.or_eq_true, decide_eq_true_eq] at h
  rcases h with ((h | h) | h) | h <;> subst h
  · exact ⟨OpAdd, by decide, Or.inl rfl⟩
  · exact ⟨OpSub, by decide, Or.inr (Or.inl rfl)⟩
  · exact ⟨OpMul, by decide, Or.inr (Or.inr (Or.inl rfl))⟩
  · exact ⟨OpDiv, by decide, Or.inr (Or.inr (Or.inr rfl))⟩

theorem GetType_quoteLeft : Token.GetType ['('] = .ok TokenTypeQuoteLeft := by decide

theorem GetType_quoteRight : Token.GetType [')'] = .ok TokenTypeQuoteRight := by decide

theorem GetType_comma : Token.GetType [','] = .ok TokenTypeComma := by decide

theorem GetType_identifier (t : Token) (h : isIdentifierToken t = true) :
    t.GetType = .ok TokenTypeIdentifier := by
  cases t with
  | nil => simp [isIdentifierToken] at h
  | cons c cs =>
    simp only [isIdentifierToken, Bool.and_eq_true] at h
    have hc := h.1
    have hne : ∀ d : Char, isLetter d = false → c :: cs ≠ [d] := by
      intro d hd heq
      simp only [List.cons.injEq] at heq
      rw [heq.1, hd] at hc
      exact Bool.false_ne_true hc
    have h1 := hne '+' (by decide)
    have h2 := hne '-' (by decide)
    have h3 := hne '*' (by decide)
    have h4 := hne '/' (by decide)
    have h5 := hne '(' (by decide)
    have h6 := hne ')' (by decide)
    have h7 := hne ',' (by decide)
    simp only [Token.GetType, h1, h2, h3, h4, h5, h6, h7, or_self, if_false, IsIdentifier,
      List.any_cons, hc, Bool.true_or, if_true]

theorem isIntegerToken_iff (t : Token) :
    isIntegerToken t = true ↔
      t ≠ [] ∧ (∀ c ∈ t, isDigit c = true) ∧ (digitsValue t : Int) ≤ maxInt := by
  simp only [isIntegerToken, Bool.and_eq_true, Bool.not_eq_true', List.isEmpty_eq_false,
    List.all_eq_true, decide_eq_true_eq, and_assoc]

theorem GetType_integer (t : Token) (h : isIntegerToken t = true) :
    t.GetType = .ok TokenTypeOperand := by
  obtain ⟨hne, hd, _⟩ := (isIntegerToken_iff t).1 h
  cases t with
  | nil => exact absurd rfl hne
  | cons c cs =>
    have hc := hd c (List.mem_cons_self _ _)
    have hne : ∀ d : Char, isDigit d = false → c :: cs ≠ [d] := by
      intro d hd heq
      simp only [List.cons.injEq] at heq
      rw [heq.1, hd] at hc
      exact Bool.false_ne_true hc
    have h1 := hne '+' (by decide)
    have h2 := hne '-' (by decide)
    have h3 := hne '*' (by decide)
    have h4 := hne '/' (by decide)
    have h5 := hne '(' (by decide)
    have h6 := hne ')' (by decide)
    have h7 := hne ',' (by decide)
    have hl : IsIdentifier (c :: cs) = false := by
      simp only [IsIdentifier, List.any_eq_false]
      intro d hdm
      simp [isDigit_not_isLetter d (hd d hdm)]
    simp only [Token.GetType, h1, h2, h3, h4, h5, h6, h7, or_self, if_false, hl,
      Bool.false_eq_true, OperandPatternMatchString, List.any_cons, hc, Bool.true_or, if_true]

theorem Atoi_integer (t : Token) (h : isIntegerToken t = true) :
    Atoi t = some (digitsValue t : Int) := by
  obtain ⟨hne, hd, hr⟩ := (isIntegerToken_iff t).1 h
  cases t with
  | nil => exact absurd rfl hne
  | cons c cs =>
    have hc := hd c (List.mem_cons_self _ _)
    have hm : c ≠ '-' := by
      intro h; rw [h] at hc; exact absurd hc (by decide)
    have hp : c ≠ '+' := by
      intro h; rw [h] at hc; exact absurd hc (by decide)
    have hall : (c :: cs).all isDigit = true := by
      simp only [List.all_eq_true]; exact hd
    have h0 : ¬ ((digitsValue (c :: cs) : Int) < minInt) := by
      have : (0 : Int) ≤ (digitsValue (c :: cs) : Int) := Int.ofNat_nonneg _
      have hmin : minInt < 0 := by decide
      omega
    simp only [Atoi, List.head?_cons, Option.some.injEq, hm, hp, or_self, if_false, hall,
      not_true_eq_false, or_false, h0, not_lt.2 hr, false_or]
    simp

theorem GetValue_integer (t : Token) (h : isIntegerToken t = true) :
    t.GetValue = .ok (digitsValue t : Int) := by
  have h1 : (TokenTypeOperand = TokenTypeOperator) = False := by decide
  simp only [Token.GetValue, GetType_integer t h, Atoi_integer t h, bind, Except.bind, h1,
    if_false, if_true, pure, Except.pure]

theorem drop_cons_get {ts : List Token} {i : Nat} {t : Token} {r : List Token}
    (h : ts.drop i = t :: r) : ts.get? i = some t ∧ ts.drop (i + 1) = r ∧ i < ts.length := by
  have hlt : i < ts.length := by
    by_contra hge
    rw [List.drop_eq_nil_of_le (by omega)] at h
    exact absurd h (by simp)
  refine ⟨?_, ?_, hlt⟩
  · have := List.getElem?_drop ts i 0
    rw [h] at this
    simpa using this.symm
  · have := List.drop_drop 1 i ts
    rw [h] at this
    simpa [Nat.add_comm] using this.symm

theorem drop_append_length {ts : List Token} {i : Nat} {w r : List Token}
    (h : ts.drop i = w ++ r) : ts.drop (i + w.length) = r := by
  have := List.drop_drop w.length i ts
  rw [h, List.drop_left] at this
  exact this.symm

theorem drop_nil_length {ts : List Token} {i : Nat} (h : ts.drop i = []) : ts.length ≤ i := by
  by_contra hlt
  have hl := List.length_drop i ts
  rw [h] at hl
  simp only [List.length_nil] at hl
  omega

theorem GetToken_cursorAt {ts : List Token} {i : Nat} {t : Token} {r : List Token}
    (h : ts.drop i = t :: r) :
    (cursorAt ts i).GetToken = .ok (.ok t, cursorAt ts (i + 1)) := by
  obtain ⟨hg, _, hlt⟩ := drop_cons_get h
  have h1 : (i : Int) < (ts.length : Int) := by exact_mod_cast hlt
  have h2 : ¬ ((i : Int) < 0) := by omega
  simp only [Tokens.GetToken, cursorAt, h1, if_true, Tokens.at, h2, if_false, Int.toNat_ofNat,
    hg, bind, Except.bind, pure, Except.pure]
  simp

theorem GetToken_cursorAt_end {ts : List Token} {i : Nat} (h : ts.drop i = []) :
    (cursorAt ts i).GetToken = .ok (.error .ErrorNoMoreTokens, cursorAt ts i) := by
  have hlt := drop_nil_length h
  have h1 : ¬ ((i : Int) < (ts.length : Int)) := by
    have : (ts.length : Int) ≤ (i : Int) := by exact_mod_cast hlt
    omega
  simp only [Tokens.GetToken, cursorAt, h1, if_false, pure, Except.pure]

theorem ReturnToken_cursorAt (ts : List Token) (i : Nat) :
    (cursorAt ts (i + 1)).ReturnToken = cursorAt ts i := by
  simp [Tokens.ReturnToken, cursorAt]

theorem SetIndex_cursorAt (ts : List Token) (i j : Nat) :
    (cursorAt ts j).SetIndex (cursorAt ts i).GetIndex = cursorAt ts i := by
  simp [Tokens.SetIndex, Tokens.GetIndex, cursorAt]

/-! ## The parser accepts every derivable token sequence -/

mutual
theorem rightSpine_ok : ∀ t : Operator, t.spineOK = true →
    ∃ path rm, rightSpine t = .ok (path, rm) ∧ (t.Leaf = false → ∃ p, path = t :: p)
  | .mk ty l r v leaf, h => by
    cases leaf with
    | true =>
      exact ⟨[], .mk ty l r v true, by simp [rightSpine, pure, Except.pure],
        by simp [Operator.Leaf]⟩
    | false =>
      simp only [Operator.spineOK, Bool.false_or] at h
      obtain ⟨p, rm, hp⟩ := rightSpineChild_ok r h
      exact ⟨.mk ty l r v false :: p, rm,
        by simp [rightSpine, hp, bind, Except.bind, pure, Except.pure], fun _ => ⟨p, rfl⟩⟩
theorem rightSpineChild_ok : ∀ c : Option Operator, spineOKChild c = true →
    ∃ path rm, rightSpineChild c = .ok (path, rm)
  | none, h => by simp [spineOKChild] at h
  | some r, h => by
    obtain ⟨p, rm, hp, _⟩ := rightSpine_ok r (by simpa [spineOKChild] using h)
    exact ⟨p, rm, by simpa [rightSpineChild] using hp⟩
end

theorem spineOK_of_leaf (t : Operator) (h : t.Leaf = true) : t.spineOK = true := by
  cases t with
  | mk ty l r v leaf =>
    simp only [Operator.Leaf] at h
    simp [Operator.spineOK, h]

theorem spineOK_setLeft (t : Operator) (l : Option Operator) :
    (t.setLeft l).spineOK = t.spineOK := by
  cases t; rfl

theorem spineOK_setRight (t c : Operator) (h : c.spineOK = true) :
    (t.setRight (some c)).spineOK = true := by
  cases t
  simp [Operator.setRight, Operator.spineOK, spineOKChild, h]

theorem spineOK_plug (c : Operator) (ps : List Operator) (h : c.spineOK = true) :
    (plug c ps).spineOK = true := by
  induction ps generalizing c with
  | nil => exact h
  | cons p ps ih => exact ih _ (spineOK_setRight p c h)

theorem spineOK_rotate (c : Operator) (ps : List Operator) (h : c.spineOK = true) :
    (rotate c ps).spineOK = true := by
  induction ps generalizing c with
  | nil => exact h
  | cons p ps ih =>
    simp only [rotate]
    split
    · exact ih _ (by rw [spineOK_setLeft]; exact h)
    · exact spineOK_plug c (p :: ps) h

/-- On a root whose right spine is sound, the fold of a leaf-like operand
returns, and the spine of the new root is sound. -/
theorem fold_ok (root : Operator) (op : Int) (x : Operator) (hr : root.spineOK = true)
    (hx : x.Leaf = true) : ∃ t, fold root op x = .ok t ∧ t.spineOK = true := by
  unfold fold
  cases hl : root.IsLeaf with
  | true =>
    refine ⟨NewOperator op (some root) (some x), by simp [pure, Except.pure], ?_⟩
    simp [NewOperator, Operator.spineOK, spineOKChild, spineOK_of_leaf x hx]
  | false =>
    obtain ⟨path, rm, hp, hne⟩ := rightSpine_ok root hr
    obtain ⟨p, rfl⟩ := hne hl
    simp only [Bool.false_eq_true, if_false, hp, bind, Except.bind]
    cases hrev : (root :: p).reverse with
    | nil => simp at hrev
    | cons last parents =>
      refine ⟨_, rfl, ?_⟩
      apply spineOK_rotate
      simp [NewOperator, Operator.spineOK, spineOKChild, spineOK_of_leaf x hx]

theorem GetTokenOfType_operator {ts : List Token} {i : Nat} {o : Token} {r : List Token}
    (h : ts.drop i = o :: r) (ho : isOperatorToken o = true) :
    ∃ v, (cursorAt ts i).GetTokenOfType TokenTypeOperator = .ok (.ok v, cursorAt ts (i + 1)) := by
  obtain ⟨v, hv, _⟩ := GetValue_operator o ho
  exact ⟨v, by simp [Tokens.GetTokenOfType, GetToken_cursorAt h, GetType_operator o ho, hv,
    bind, Except.bind, pure, Except.pure]⟩

theorem GetTokenOfType_follow {ts : List Token} {i : Nat} {rest : List Token}
    (h : ts.drop i = rest) (hf : Follow rest) :
    ∃ e, (cursorAt ts i).GetTokenOfType TokenTypeOperator = .ok (.error e, cursorAt ts i) := by
  rcases hf with rfl | ⟨r, rfl | rfl⟩
  · exact ⟨.ErrorNoMoreTokens, by simp [Tokens.GetTokenOfType, GetToken_cursorAt_end h, bind,
      Except.bind, pure, Except.pure]⟩
  · exact ⟨.ErrorUnexpectedToken, by simp [Tokens.GetTokenOfType, GetToken_cursorAt h,
      GetType_quoteRight, bind,
      Except.bind, pure, Except.pure, ReturnToken_cursorAt, TokenTypeQuoteRight,
      TokenTypeOperator]⟩
  · exact ⟨.ErrorUnexpectedToken, by simp [Tokens.GetTokenOfType, GetToken_cursorAt h,
      GetType_comma, bind,
      Except.bind, pure, Except.pure, ReturnToken_cursorAt, TokenTypeComma,
      TokenTypeOperator]⟩

theorem GetExpressionLoop_follow {ts : List Token} {i : Nat} {rest : List Token}
    (h : ts.drop i = rest) (hf : Follow rest) (f : Nat) (root : Operator) :
    GetExpressionLoop (f + 1) root (cursorAt ts i) = .ok (.ok root, cursorAt ts i) := by
  obtain ⟨e, he⟩ := GetTokenOfType_follow h hf
  simp [GetExpressionLoop, he, bind, Except.bind, pure, Except.pure]

theorem GetOperand_quoteRight {ts : List Token} {i : Nat} {r : List Token}
    (h : ts.drop i = [')'] :: r) (f : Nat) :
    GetOperand (f + 1) (cursorAt ts i)
      = .ok (.error .ErrorUnexpectedToken, cursorAt ts i) := by
  simp [GetOperand, GetToken_cursorAt h, GetType_quoteRight, bind, Except.bind, pure,
    Except.pure, ReturnToken_cursorAt, TokenTypeQuoteRight, TokenTypeQuoteLeft,
    TokenTypeIdentifier, TokenTypeOperand]

theorem GetExpression_quoteRight {ts : List Token} {i : Nat} {r : List Token}
    (h : ts.drop i = [')'] :: r) (f : Nat) :
    GetExpression (f + 2) (cursorAt ts i)
      = .ok (.error .ErrorUnexpectedToken, cursorAt ts i) := by
  simp [GetExpression, GetOperand_quoteRight h, bind, Except.bind, pure, Except.pure]

theorem complete_integer (t : Token) (h : isIntegerToken t = true) : Complete .operand [t] := by
  intro ts i rest f hd hf
  obtain ⟨f, rfl⟩ : ∃ g, f = g + 1 := ⟨f - 1, by omega⟩
  have hd' : ts.drop i = t :: rest := by simpa using hd
  exact ⟨NewValue (digitsValue t), by
    simp [GetOperand, GetToken_cursorAt hd', GetType_integer t h, GetValue_integer t h, bind,
      Except.bind, pure, Except.pure, TokenTypeQuoteLeft, TokenTypeIdentifier,
      TokenTypeOperand], rfl⟩

theorem GetQuotedOperand_complete (w : List Token) (ih : Complete .expression w)
    (ts : List Token) (i : Nat) (rest : List Token) (f : Nat)
    (hd : ts.drop i = ['('] :: w ++ [')'] :: rest) (hf : 3 * w.length + 3 ≤ f) :
    ∃ t, GetQuotedOperand f (cursorAt ts i)
        = .ok (.ok t, cursorAt ts (i + (w.length + 2))) ∧ t.Leaf = true := by
  obtain ⟨f, rfl⟩ : ∃ g, f = g + 1 := ⟨f - 1, by omega⟩
  have h1 := (drop_cons_get hd).2.1
  obtain ⟨t, ht, _⟩ := ih ts (i + 1) ([')'] :: rest) f h1 (Or.inr ⟨rest, Or.inl rfl⟩) (by omega)
  have h2 := drop_append_length h1
  refine ⟨t.setLeaf true, ?_, by cases t; rfl⟩
  simp [GetQuotedOperand, GetToken_cursorAt hd, GetType_quoteLeft, ht, GetToken_cursorAt h2,
    GetType_quoteRight, bind, Except.bind, pure, Except.pure]
  all_goals ring_nf

theorem complete_paren (w : List Token) (ih : Complete .expression w) :
    Complete .operand (['('] :: w ++ [[')']]) := by
  intro ts i rest f hd hf
  obtain ⟨f, rfl⟩ : ∃ g, f = g + 1 := ⟨f - 1, by omega⟩
  have hd' : ts.drop i = ['('] :: w ++ [')'] :: rest := by simpa using hd
  simp only [List.length_cons, List.length_append, List.length_nil] at hf
  obtain ⟨t, ht, hl⟩ := GetQuotedOperand_complete w ih ts i rest f hd' (by omega)
  refine ⟨t, ?_, hl⟩
  simp [GetOperand, GetToken_cursorAt hd', GetType_quoteLeft, ReturnToken_cursorAt, ht, bind,
    Except.bind, pure, Except.pure]

/-- On `name ( args )` with a derivable argument list the function-call rule
returns the `FunctionCall` node of that name. -/
theorem GetFunctionCallOperand_complete (t : Token) (w : List Token)
    (ht : isIdentifierToken t = true) (ih : Complete .argList w)
    (ts : List Token) (i : Nat) (rest : List Token) (f : Nat)
    (hd : ts.drop i = t :: ['('] :: w ++ [')'] :: rest) (hf : 3 * w.length + 5 ≤ f) :
    ∃ args, GetFunctionCallOperand f (cursorAt ts i)
        = .ok (.ok (.mk OpFunc none none (.func (.mk t args)) true),
            cursorAt ts (i + (w.length + 3))) := by
  obtain ⟨f, rfl⟩ : ∃ g, f = g + 1 := ⟨f - 1, by omega⟩
  have h1 := (drop_cons_get hd).2.1
  have h2 := (drop_cons_get h1).2.1
  obtain ⟨args, ha⟩ := ih ts (i + 1 + 1) rest f h2 (by omega)
  have h3 := drop_append_length h2
  refine ⟨args, ?_⟩
  simp [GetFunctionCallOperand, GetToken_cursorAt hd, GetType_identifier t ht,
    GetToken_cursorAt h1, GetType_quoteLeft, ha, GetToken_cursorAt h3, GetType_quoteRight,
    bind, Except.bind, pure, Except.pure]
  all_goals ring_nf

theorem GetOperand_call (t : Token) (w : List Token)
    (ht : isIdentifierToken t = true) (ih : Complete .argList w)
    (ts : List Token) (i : Nat) (rest : List Token) (f : Nat)
    (hd : ts.drop i = t :: ['('] :: w ++ [')'] :: rest) (hf : 3 * w.length + 6 ≤ f) :
    ∃ args, GetOperand f (cursorAt ts i)
        = .ok (.ok (.mk OpFunc none none (.func (.mk t args)) true),
            cursorAt ts (i + (w.length + 3))) := by
  obtain ⟨f, rfl⟩ : ∃ g, f = g + 1 := ⟨f - 1, by omega⟩
  obtain ⟨args, ha⟩ := GetFunctionCallOperand_complete t w ht ih ts i rest f hd (by omega)
  refine ⟨args, ?_⟩
  simp [GetOperand, GetToken_cursorAt hd, GetType_identifier t ht, ReturnToken_cursorAt, ha,
    bind, Except.bind, pure, Except.pure, TokenTypeIdentifier, TokenTypeQuoteLeft]

theorem complete_call (t : Token) (w : List Token) (ht : isIdentifierToken t = true)
    (ih : Complete .argList w) : Complete .operand (t :: ['('] :: w ++ [[')']]) := by
  intro ts i rest f hd hf
  have hd' : ts.drop i = t :: ['('] :: w ++ [')'] :: rest := by simpa using hd
  simp only [List.length_cons, List.length_append, List.length_nil] at hf
  obtain ⟨args, ha⟩ := GetOperand_call t w ht ih ts i rest f hd' (by omega)
  refine ⟨.mk OpFunc none none (.func (.mk t args)) true, ?_, rfl⟩
  rw [ha]
  simp only [List.length_cons, List.length_append, List.length_nil]

theorem complete_tailNil : Complete .opTail [] := by
  intro ts i rest f root hd hfo _ hf
  obtain ⟨f, rfl⟩ : ∃ g, f = g + 1 := ⟨f - 1, by omega⟩
  exact ⟨root, by simpa using GetExpressionLoop_follow (by simpa using hd) hfo f root,
    by assumption⟩

theorem complete_tailCons (o : Token) (w w' : List Token) (ho : isOperatorToken o = true)
    (ih : Complete .operand w) (ih' : Complete .opTail w') :
    Complete .opTail (o :: w ++ w') := by
  intro ts i rest f root hd hfo hroot hf
  obtain ⟨f, rfl⟩ : ∃ g, f = g + 1 := ⟨f - 1, by omega⟩
  have hd' : ts.drop i = o :: (w ++ (w' ++ rest)) := by simpa using hd
  simp only [List.length_cons, List.length_append] at hf
  obtain ⟨v, hv⟩ := GetTokenOfType_operator hd' ho
  have h1 := (drop_cons_get hd').2.1
  obtain ⟨x, hx, hxl⟩ := ih ts (i + 1) (w' ++ rest) f h1 (by omega)
  obtain ⟨root', hfold, hroot'⟩ := fold_ok root v x hroot hxl
  have h2 := drop_append_length h1
  obtain ⟨t, ht, hts⟩ := ih' ts (i + 1 + w.length) rest f root' h2 hfo hroot' (by omega)
  refine ⟨t, ?_, hts⟩
  simp [GetExpressionLoop, hv, hx, hfold, ht, bind, Except.bind, pure, Except.pure]
  all_goals ring_nf

theorem complete_expression (w w' : List Token) (ih : Complete .operand w)
    (ih' : Complete .opTail w') : Complete .expression (w ++ w') := by
  intro ts i rest f hd hfo hf
  obtain ⟨f, rfl⟩ : ∃ g, f = g + 1 := ⟨f - 1, by omega⟩
  have hd' : ts.drop i = w ++ (w' ++ rest) := by simpa using hd
  simp only [List.length_append] at hf
  obtain ⟨x, hx, hxl⟩ := ih ts i (w' ++ rest) f hd' (by omega)
  have h2 := drop_append_length hd'
  have hw : 1 ≤ w.length := by
    by_contra hlt
    have hnil : w = [] := List.length_eq_zero.1 (by omega)
    subst hnil
    obtain ⟨x0, hx0, _⟩ := ih [[')']] 0 [[')']] 1 rfl (by simp)
    rw [GetOperand_quoteRight (by rfl) 0] at hx0
    simp at hx0
  obtain ⟨t, ht, hts⟩ := ih' ts (i + w.length) rest f x h2 hfo (spineOK_of_leaf x hxl)
    (by omega)
  refine ⟨t, ?_, hts⟩
  simp [GetExpression, hx, ht, bind, Except.bind, pure, Except.pure]
  all_goals ring_nf

theorem complete_argsNil : Complete .argList [] := by
  intro ts i rest f hd hf
  obtain ⟨f, rfl⟩ : ∃ g, f = g + 4 := ⟨f - 4, by simp only [List.length_nil] at hf; omega⟩
  have hd' : ts.drop i = [')'] :: rest := by simpa using hd
  exact ⟨[], by
    simp [GetArgumentList, GetArgumentListLoop, GetExpression_quoteRight hd', bind,
      Except.bind, pure, Except.pure]⟩

theorem complete_argsSome (w : List Token) (ih : Complete .argList1 w) :
    Complete .argList w := by
  intro ts i rest f hd hf
  obtain ⟨f, rfl⟩ : ∃ g, f = g + 1 := ⟨f - 1, by omega⟩
  obtain ⟨args, ha⟩ := ih ts i rest f [] hd (by omega)
  exact ⟨args, by simpa [GetArgumentList] using ha⟩

theorem complete_argsOne (w : List Token) (ih : Complete .expression w) :
    Complete .argList1 w := by
  intro ts i rest f args hd hf
  obtain ⟨f, rfl⟩ : ∃ g, f = g + 1 := ⟨f - 1, by omega⟩
  obtain ⟨t, ht, _⟩ := ih ts i ([')'] :: rest) f hd (Or.inr ⟨rest, Or.inl rfl⟩) (by omega)
  have h2 := drop_append_length hd
  refine ⟨[t], ?_⟩
  simp [GetArgumentListLoop, ht, GetToken_cursorAt h2, GetType_quoteRight, bind, Except.bind,
    pure, Except.pure, ReturnToken_cursorAt, TokenTypeQuoteRight, TokenTypeComma]

theorem complete_argsMore (w w' : List Token) (ih : Complete .expression w)
    (ih' : Complete .argList1 w') : Complete .argList1 (w ++ [','] :: w') := by
  intro ts i rest f args hd hf
  obtain ⟨f, rfl⟩ : ∃ g, f = g + 1 := ⟨f - 1, by omega⟩
  have hd' : ts.drop i = w ++ ([','] :: (w' ++ [')'] :: rest)) := by simpa using hd
  simp only [List.length_cons, List.length_append] at hf
  obtain ⟨t, ht, _⟩ := ih ts i _ f hd' (Or.inr ⟨_, Or.inr rfl⟩) (by omega)
  have h2 := drop_append_length hd'
  have h3 := (drop_cons_get h2).2.1
  obtain ⟨args', ha⟩ := ih' ts (i + w.length + 1) rest f (args ++ [t]) h3 (by omega)
  refine ⟨t :: args', ?_⟩
  simp [GetArgumentListLoop, ht, GetToken_cursorAt h2, GetType_comma, ha, bind, Except.bind,
    pure, Except.pure]
  all_goals ring_nf

/-- Every derivable token sequence is parsed by the rule of its nonterminal. -/
theorem complete {n : Nonterminal} {w : List Token} (h : Derives n w) : Complete n w := by
  induction h with
  | expression w w' _ _ ih ih' => exact complete_expression w w' ih ih'
  | integer t ht => exact complete_integer t ht
  | paren w _ ih => exact complete_paren w ih
  | call t w ht _ ih => exact complete_call t w ht ih
  | tailNil => exact complete_tailNil
  | tailCons o w w' ho _ _ ih ih' => exact complete_tailCons o w w' ho ih ih'
  | argsNil => exact complete_argsNil
  | argsSome w _ ih => exact complete_argsSome w ih
  | argsOne w _ ih => exact complete_argsOne w ih
  | argsMore w w' _ _ ih ih' => exact complete_argsMore w w' ih ih'

/-! ## Accepted and rejected token sequences -/

theorem NewTokens_eq_cursorAt (w : List Token) : NewTokens w = cursorAt w 0 := by
  simp [NewTokens, cursorAt]

theorem HasMoreTokens_cursorAt_end (w : List Token) :
    (cursorAt w w.length).HasMoreTokens = false := by
  simp [Tokens.HasMoreTokens, cursorAt]

theorem BuildCalculatorTreeFromTokens_of (ts : List Token) (tree : Operator)
    (h : GetExpression (parseFuel ts.length) (cursorAt ts 0)
      = .ok (.ok tree, cursorAt ts ts.length)) :
    BuildCalculatorTreeFromTokens (NewTokens ts) = .ok (.ok tree, cursorAt ts ts.length) := by
  have hc : (cursorAt ts 0).tokens = ts := rfl
  unfold BuildCalculatorTreeFromTokens
  rw [NewTokens_eq_cursorAt, hc, h]
  simp only [bind, Except.bind, HasMoreTokens_cursorAt_end, pure, Except.pure]
  rfl

/-- C2: on every token sequence derivable from `expression`, all its integer
literals fitting `int`, `BuildCalculatorTreeFromTokens` returns a tree and no
error, and the cursor it leaves has consumed every token. -/
theorem BuildCalculatorTreeFromTokens_complete (w : List Token)
    (h : Derives .expression w) :
    ∃ tree cursor, BuildCalculatorTreeFromTokens (NewTokens w) = .ok (.ok tree, cursor) ∧
      cursor.tokens = w ∧ cursor.index = w.length ∧ cursor.total = w.length ∧
      cursor.HasMoreTokens = false := by
  obtain ⟨t, ht, _⟩ := complete h w 0 [] (parseFuel w.length) (by simp) (Or.inl rfl)
    (by simp [parseFuel])
  rw [Nat.zero_add] at ht
  exact ⟨t, cursorAt w w.length, BuildCalculatorTreeFromTokens_of w t ht, rfl, rfl, rfl,
    HasMoreTokens_cursorAt_end w⟩

/-- Witness of C2 on the tokens of `1+2`. -/
theorem BuildCalculatorTreeFromTokens_complete_witness :
    ∃ tree cursor,
      BuildCalculatorTreeFromTokens (NewTokens [['1'], ['+'], ['2']]) = .ok (.ok tree, cursor) ∧
      cursor.tokens = [['1'], ['+'], ['2']] ∧ cursor.index = ([['1'], ['+'], ['2']] : List Token).length ∧
      cursor.total = ([['1'], ['+'], ['2']] : List Token).length ∧
      cursor.HasMoreTokens = false :=
  BuildCalculatorTreeFromTokens_complete [['1'], ['+'], ['2']]
    (Derives.expression [['1']] [['+'], ['2']] (Derives.integer ['1'] (by decide))
      (Derives.tailCons ['+'] [['2']] [] (by decide) (Derives.integer ['2'] (by decide))
        Derives.tailNil))

theorem Calculate_func (rng : Nat → Nat) (k : Nat) (v : FunctionCall) (leaf : Bool) :
    (Operator.mk OpFunc none none (.func v) leaf).Calculate rng k = calculateFunc rng v k := by
  have h : (OpFunc == OpFunc) = true := by decide
  rw [Operator.Calculate]
  simp only [calculateChild, bind, Except.bind, pure, Except.pure]
  rw [h]

theorem Calculate_unknown_function (rng : Nat → Nat) (k : Nat) (name : List Char)
    (args : List Operator) (leaf : Bool)
    (h1 : name ≠ "random".toList) (h2 : name ≠ "sum".toList) (h3 : name ≠ "max".toList)
    (h4 : name ≠ "min".toList) :
    (Operator.mk OpFunc none none (.func (.mk name args)) leaf).Calculate rng k
      = .error (.panic ("unknown function name: " ++ String.mk name)) := by
  rw [Calculate_func]
  cases args <;> simp only [calculateFunc, if_neg h1, if_neg h2, if_neg h3, if_neg h4] <;> rfl

set_option maxRecDepth 100000 in
/-- C8: for every identifier `name` other than `sum`, `min`, `max` and `random`
and every derivable argument list, the parser accepts `name ( args )` and returns
the `FunctionCall` node of that name, on which `Calculate` panics with the
unknown-function message, as it does whatever the arguments; `Calculate` panics
on `min` and on `max` without arguments, and returns `0` on `sum` without
arguments.  The texts `foo(1)` and `min()` abort in `Calc`. -/
theorem Calculate_function_failures :
    (∀ (name : Token) (w : List Token), isIdentifierToken name = true →
      name ≠ "random".toList → name ≠ "sum".toList → name ≠ "max".toList →
      name ≠ "min".toList → Derives .argList w →
      ∃ args cursor,
        BuildCalculatorTreeFromTokens (NewTokens (name :: ['('] :: w ++ [[')']]))
          = .ok (.ok (.mk OpFunc none none (.func (.mk name args)) true), cursor) ∧
        ∀ (rng : Nat → Nat) (k : Nat) (args' : List Operator),
          (Operator.mk OpFunc none none (.func (.mk name args')) true).Calculate rng k
            = .error (.panic ("unknown function name: " ++ String.mk name)))
    ∧ (∀ (rng : Nat → Nat) (k : Nat),
        (Operator.mk OpFunc none none (.func (.mk "min".toList [])) true).Calculate rng k
          = .error (.panic "min function requires at least one argument"))
    ∧ (∀ (rng : Nat → Nat) (k : Nat),
        (Operator.mk OpFunc none none (.func (.mk "max".toList [])) true).Calculate rng k
          = .error (.panic "max function requires at least one argument"))
    ∧ (∀ (rng : Nat → Nat) (k : Nat),
        (Operator.mk OpFunc none none (.func (.mk "sum".toList [])) true).Calculate rng k
          = .ok (0, k))
    ∧ (∀ (rng : Nat → Nat) (k : Nat),
        Calc rng "foo(1)".toList k = .error (.panic "unknown function name: foo"))
    ∧ (∀ (rng : Nat → Nat) (k : Nat),
        Calc rng "min()".toList k
          = .error (.panic "min function requires at least one argument")) := by
  refine ⟨?_, ?_, ?_, ?_, ?_, ?_⟩
  · intro name w hn h1 h2 h3 h4 hw
    obtain ⟨ts, hts⟩ : ∃ ts, ts = name :: ['('] :: w ++ [[')']] := ⟨_, rfl⟩
    have hlen : ts.length = w.length + 3 := by rw [hts]; simp
    have hd0 : ts.drop 0 = name :: ['('] :: w ++ [')'] :: [] := by rw [hts]; simp
    obtain ⟨args, ha⟩ := GetOperand_call name w hn (complete hw) ts 0 []
      (3 * ts.length + 1) hd0 (by omega)
    have hdrop : ts.drop ts.length = [] := List.drop_eq_nil_of_le (le_refl _)
    have hloop := GetExpressionLoop_follow hdrop (Or.inl rfl) (3 * ts.length)
      (.mk OpFunc none none (.func (.mk name args)) true)
    rw [Nat.zero_add, ← hlen] at ha
    refine ⟨args, cursorAt ts ts.length, ?_, ?_⟩
    · rw [← hts]
      apply BuildCalculatorTreeFromTokens_of
      show GetExpression (3 * ts.length + 1 + 1) (cursorAt ts 0) = _
      rw [GetExpression, ha]
      simp only [bind, Except.bind]
      exact hloop
    · intro rng k args'
      exact Calculate_unknown_function rng k name args' true h1 h2 h3 h4
  · intro rng k
    rw [Calculate_func]
    rfl
  · intro rng k
    rw [Calculate_func]
    rfl
  · intro rng k
    rw [Calculate_func]
    rfl
  · intro rng k
    rw [Calc_eq_of_noRandom rng k _ (by decide!)]
    decide!
  · intro rng k
    rw [Calc_eq_of_noRandom rng k _ (by decide!)]
    decide!

/-- Witness of C8 on the tokens of `foo(1)`. -/
theorem Calculate_function_failures_witness :
    ∃ args cursor,
      BuildCalculatorTreeFromTokens (NewTokens ("foo".toList :: ['('] :: [['1']] ++ [[')']]))
        = .ok (.ok (.mk OpFunc none none (.func (.mk "foo".toList args)) true), cursor) ∧
      ∀ (rng : Nat → Nat) (k : Nat) (args' : List Operator),
        (Operator.mk OpFunc none none (.func (.mk "foo".toList args')) true).Calculate rng k
          = .error (.panic ("unknown function name: " ++ String.mk "foo".toList)) :=
  Calculate_function_failures.1 "foo".toList [['1']] (by decide) (by decide) (by decide)
    (by decide) (by decide)
    (Derives.argsSome _ (Derives.argsOne _
      (Derives.expression [['1']] [] (Derives.integer ['1'] (by decide)) Derives.tailNil)))

/-! ### A trailing comma in an argument list -/

theorem commaClose_cons (a : Token) (l : List Token) :
    commaClose (a :: l)
      = ((decide (a = [',']) && decide (l.head? = some [')'])) || commaClose l) := rfl

theorem commaClose_append (u v : List Token) :
    commaClose (u ++ v)
      = (commaClose u || commaClose v ||
          (decide (u.getLast? = some [',']) && decide (v.head? = some [')']))) := by
  induction u with
  | nil => simp [commaClose]
  | cons a u ih =>
    cases u with
    | nil =>
      cases v with
      | nil => simp [commaClose]
      | cons b v => simp [commaClose, Bool.or_comm]
    | cons b u =>
      rw [List.cons_append, commaClose_cons, ih, commaClose_cons a (b :: u)]
      simp only [List.cons_append, List.head?_cons, List.getLast?_cons_cons, Bool.or_assoc]

theorem getLast?_snoc (l : List Token) (a : Token) : (l ++ [a]).getLast? = some a := by
  simp

theorem getLast?_cons_ne_nil (a : Token) (l : List Token) (h : l ≠ []) :
    (a :: l).getLast? = l.getLast? := by
  cases l with
  | nil => exact absurd rfl h
  | cons b l => simp [List.getLast?_cons_cons]

/-- The property of derivable sequences that the trailing comma violates. -/
theorem derives_no_commaClose {n : Nonterminal} {w : List Token} (h : Derives n w) :
    commaClose w = false ∧ w.getLast? ≠ some [','] ∧ w.head? ≠ some [')'] ∧
      (n = .opTail ∨ n = .argList ∨ w ≠ []) := by
  induction h with
  | expression w w' _ _ ih ih' =>
    obtain ⟨h1, h2, h3, h4⟩ := ih
    obtain ⟨h1', h2', h3', _⟩ := ih'
    have hne : w ≠ [] := by simpa using h4
    refine ⟨?_, ?_, ?_, Or.inr (Or.inr (by simp [hne]))⟩
    · simp [commaClose_append, h1, h1', h2]
    · rw [List.getLast?_append]
      cases hl : w'.getLast? with
      | none => simpa using h2
      | some x => rw [hl] at h2'; simpa using h2'
    · rw [List.head?_append]
      cases hl : w.head? with
      | none => cases w <;> simp_all
      | some x => rw [hl] at h3; simpa using h3
  | integer t ht =>
    refine ⟨by simp [commaClose], ?_, ?_, Or.inr (Or.inr (by simp))⟩
    · intro h
      simp only [List.getLast?_singleton, Option.some.injEq] at h
      subst h
      exact absurd ht (by decide)
    · intro h
      simp only [List.head?_cons, Option.some.injEq] at h
      subst h
      exact absurd ht (by decide)
  | paren w _ ih =>
    obtain ⟨h1, h2, h3, _⟩ := ih
    refine ⟨?_, ?_, ?_, Or.inr (Or.inr (by simp))⟩
    · have : ['('] :: w ++ [[')']] = [['(']] ++ (w ++ [[')']]) := by simp
      rw [this, commaClose_append, commaClose_append]
      simp [commaClose, h1, h2]
    · rw [getLast?_snoc]
      simp
    · simp
  | call t w ht _ ih =>
    obtain ⟨h1, h2, h3, _⟩ := ih
    have ht1 : t ≠ [','] := by intro h; subst h; exact absurd ht (by decide)
    refine ⟨?_, ?_, ?_, Or.inr (Or.inr (by simp))⟩
    · have : t :: ['('] :: w ++ [[')']] = [t, ['(']] ++ (w ++ [[')']]) := by simp
      rw [this, commaClose_append, commaClose_append]
      simp [commaClose, h1, h2, ht1]
    · rw [getLast?_snoc]
      simp
    · intro h
      simp only [List.cons_append, List.head?_cons, Option.some.injEq] at h
      subst h
      exact absurd ht (by decide)
  | tailNil => exact ⟨rfl, by simp, by simp, Or.inl rfl⟩
  | tailCons o w w' ho _ _ ih ih' =>
    obtain ⟨h1, h2, h3, h4⟩ := ih
    obtain ⟨h1', h2', h3', _⟩ := ih'
    have ho1 : o ≠ [','] := by intro h; subst h; exact absurd ho (by decide)
    have ho2 : o ≠ [')'] := by intro h; subst h; exact absurd ho (by decide)
    have hne : w ≠ [] := by simpa using h4
    refine ⟨?_, ?_, ?_, Or.inl rfl⟩
    · have : o :: w ++ w' = [o] ++ (w ++ w') := by simp
      rw [this, commaClose_append, commaClose_append]
      simp [commaClose, h1, h1', h2, ho1]
    · have : o :: w ++ w' = (o :: w) ++ w' := by simp
      rw [this, List.getLast?_append]
      cases hl : w'.getLast? with
      | none =>
        simp only [Option.none_or]
        rw [getLast?_cons_ne_nil o w hne]
        exact h2
      | some x => rw [hl] at h2'; simpa using h2'
    · simpa using ho2
  | argsNil => exact ⟨rfl, by simp, by simp, Or.inr (Or.inl rfl)⟩
  | argsSome w _ ih => exact ⟨ih.1, ih.2.1, ih.2.2.1, Or.inr (Or.inl rfl)⟩
  | argsOne w _ ih =>
    exact ⟨ih.1, ih.2.1, ih.2.2.1, Or.inr (Or.inr (by simpa using ih.2.2.2))⟩
  | argsMore w w' _ _ ih ih' =>
    obtain ⟨h1, h2, h3, h4⟩ := ih
    obtain ⟨h1', h2', h3', h4'⟩ := ih'
    have hne : w ≠ [] := by simpa using h4
    have hne' : w' ≠ [] := by simpa using h4'
    refine ⟨?_, ?_, ?_, Or.inr (Or.inr (by simp))⟩
    · have : w ++ [','] :: w' = w ++ ([[',']] ++ w') := by simp
      rw [this, commaClose_append, commaClose_append]
      simp [commaClose, h1, h1', h3']
    · have : w ++ [','] :: w' = (w ++ [[',']]) ++ w' := by simp
      rw [this, List.getLast?_append]
      cases hl : w'.getLast? with
      | none => exact absurd (List.getLast?_eq_none_iff.1 hl) hne'
      | some x => rw [hl] at h2'; simpa using h2'
    · rw [List.head?_append]
      cases hl : w.head? with
      | none => cases w <;> simp_all
      | some x => rw [hl] at h3; simpa using h3

set_option maxRecDepth 100000 in
/-- C3, the failing input: the tokens `f ( 1 , )`, which `Tokenize` returns on the
text `f(1,)`, are not derivable from `expression`, yet
`BuildCalculatorTreeFromTokens` returns a tree and no error. -/
theorem trailing_comma_accepted :
    Tokenize "f(1,)".toList = .ok (NewTokens ["f".toList, ['('], ['1'], [','], [')']]) ∧
    ¬ Derives .expression ["f".toList, ['('], ['1'], [','], [')']] ∧
    accepted (BuildCalculatorTreeFromTokens
      (NewTokens ["f".toList, ['('], ['1'], [','], [')']])) = true := by
  refine ⟨by decide!, fun h => ?_, by decide!⟩
  have := (derives_no_commaClose h).1
  exact absurd this (by decide)

/-! ## The parser rules keep the cursor inside the tokens -/

theorem GetToken_inside {ts : List Token} {t c : Tokens} {r : Except Error Token}
    (hi : Inside ts t) (h : t.GetToken = .ok (r, c)) :
    Inside ts c ∧ ((∃ tok, r = .ok tok) → Inside ts c.ReturnToken ∧ c.ReturnToken = t) ∧
      ((∃ e, r = .error e) → c = t) := by
  obtain ⟨h1, h2, h3, h4⟩ := hi
  unfold Tokens.GetToken at h
  split at h
  · rename_i hlt
    cases ha : t.at t.index with
    | error e => simp [ha, bind, Except.bind] at h
    | ok tok =>
      simp only [ha, bind, Except.bind, pure, Except.pure, Except.ok.injEq,
        Prod.mk.injEq] at h
      obtain ⟨hr, hc⟩ := h
      subst hr hc
      have hlt' : t.index < ts.length := by rw [← h2]; exact hlt
      refine ⟨⟨h1, h2, by simp only; omega, by simp only; omega⟩, fun _ => ⟨?_, ?_⟩, ?_⟩
      · exact ⟨h1, h2, by simp only [Tokens.ReturnToken]; omega,
          by simp only [Tokens.ReturnToken]; omega⟩
      · simp [Tokens.ReturnToken]
      · rintro ⟨e, he⟩
        simp at he
  · simp only [pure, Except.pure, Except.ok.injEq, Prod.mk.injEq] at h
    obtain ⟨hr, hc⟩ := h
    subst hr hc
    exact ⟨⟨h1, h2, h3, h4⟩, fun ⟨tok, ht⟩ => by simp at ht, fun _ => rfl⟩

theorem GetTokenOfType_inside {ts : List Token} {t c : Tokens} {r : Except Error Int}
    {k : Int} (hi : Inside ts t) (h : t.GetTokenOfType k = .ok (r, c)) :
    Inside ts c := by
  unfold Tokens.GetTokenOfType at h
  cases hg : t.GetToken with
  | error e => simp [hg, bind, Except.bind] at h
  | ok p =>
    obtain ⟨r1, c1⟩ := p
    obtain ⟨hc1, hok, herr⟩ := GetToken_inside hi hg
    simp only [hg, bind, Except.bind] at h
    cases r1 with
    | error e =>
      simp only [pure, Except.pure, Except.ok.injEq, Prod.mk.injEq] at h
      rw [← h.2]; exact hc1
    | ok tok =>
      simp only at h
      cases hty : tok.GetType with
      | error e => simp [hty] at h
      | ok ty =>
        simp only [hty] at h
        split at h
        · simp only [pure, Except.pure, Except.ok.injEq, Prod.mk.injEq] at h
          rw [← h.2]; exact (hok ⟨tok, rfl⟩).1
        · cases hv : tok.GetValue with
          | error e => simp [hv] at h
          | ok v =>
            simp only [hv, pure, Except.pure, Except.ok.injEq, Prod.mk.injEq] at h
            rw [← h.2]; exact hc1

theorem Inside_SetIndex {ts : List Token} {t c : Tokens} (hi : Inside ts t)
    (hc : Inside ts c) : Inside ts (c.SetIndex t.GetIndex) :=
  ⟨hc.1, hc.2.1, hi.2.2.1, hi.2.2.2⟩

theorem frame_zero : FrameAt 0 := by
  refine ⟨?_, ?_, ?_, ?_, ?_, ?_, ?_⟩ <;> intros <;> rename_i h <;>
    simp [GetExpression, GetOperand, GetQuotedOperand, GetFunctionCallOperand,
      GetArgumentList, GetArgumentListLoop, GetExpressionLoop, throw, throwThe,
      MonadExceptOf.throw] at h

theorem frame_GetQuotedOperand {n : Nat} (ih : FrameAt n) {ts : List Token} {t c : Tokens}
    {r : Except Error Operator} (hi : Inside ts t)
    (h : GetQuotedOperand (n + 1) t = .ok (r, c)) : Inside ts c := by
  rw [GetQuotedOperand] at h
  cases hg : t.GetToken with
  | error e => simp [hg, bind, Except.bind] at h
  | ok p =>
    obtain ⟨r1, c1⟩ := p
    obtain ⟨hc1, -, -⟩ := GetToken_inside hi hg
    simp only [hg, bind, Except.bind] at h
    cases r1 with
    | error e =>
      simp only [pure, Except.pure, Except.ok.injEq, Prod.mk.injEq] at h
      rw [← h.2]; exact hc1
    | ok tok =>
      simp only [Option.isSome_none, Bool.false_eq_true, if_false] at h
      cases hty : tok.GetType with
      | error e => simp [hty] at h
      | ok ty =>
        simp only [hty] at h
        split at h
        · cases he : GetExpression n c1 with
          | error e => simp [he] at h
          | ok p2 =>
            obtain ⟨r2, c2⟩ := p2
            have hc2 := ih.1 ts c1 r2 c2 hc1 he
            simp only [he] at h
            cases r2 with
            | error e =>
              simp only [pure, Except.pure, Except.ok.injEq, Prod.mk.injEq] at h
              rw [← h.2]; exact hc2
            | ok op =>
              simp only at h
              cases hg2 : c2.GetToken with
              | error e => simp [hg2] at h
              | ok p3 =>
                obtain ⟨r3, c3⟩ := p3
                obtain ⟨hc3, -, -⟩ := GetToken_inside hc2 hg2
                simp only [hg2] at h
                cases r3 with
                | error e =>
                  simp only [pure, Except.pure, Except.ok.injEq, Prod.mk.injEq] at h
                  rw [← h.2]; exact hc3
                | ok tok2 =>
                  simp only at h
                  cases hty2 : tok2.GetType with
                  | error e => simp [hty2] at h
                  | ok ty2 =>
                    simp only [hty2] at h
                    split at h <;>
                      (simp only [pure, Except.pure, Except.ok.injEq, Prod.mk.injEq] at h
                       rw [← h.2]; exact hc3)
        · simp only [pure, Except.pure, Except.ok.injEq, Prod.mk.injEq] at h
          rw [← h.2]; exact hc1

theorem frame_GetArgumentListLoop {n : Nat} (ih : FrameAt n) {ts : List Token}
    {t c : Tokens} {args : List Operator} {r : Except Error (List Operator)}
    (hi : Inside ts t) (h : GetArgumentListLoop (n + 1) args t = .ok (r, c)) :
    Inside ts c := by
  rw [GetArgumentListLoop] at h
  cases he : GetExpression n t with
  | error e => simp [he, bind, Except.bind] at h
  | ok p =>
    obtain ⟨r1, c1⟩ := p
    have hc1 := ih.1 ts t r1 c1 hi he
    simp only [he, bind, Except.bind] at h
    cases r1 with
    | error e =>
      simp only [pure, Except.pure, Except.ok.injEq, Prod.mk.injEq] at h
      rw [← h.2]; exact hc1
    | ok op =>
      simp only at h
      cases hg : c1.GetToken with
      | error e => simp [hg] at h
      | ok p2 =>
        obtain ⟨r2, c2⟩ := p2
        obtain ⟨hc2, hok, -⟩ := GetToken_inside hc1 hg
        simp only [hg] at h
        cases r2 with
        | error e =>
          simp only [pure, Except.pure, Except.ok.injEq, Prod.mk.injEq] at h
          rw [← h.2]; exact hc2
        | ok tok =>
          simp only at h
          cases hty : tok.GetType with
          | error e => simp [hty] at h
          | ok ty =>
            simp only [hty] at h
            split at h
            · exact ih.2.2.2.2.2.1 ts _ c2 r c hc2 h
            · simp only [pure, Except.pure, Except.ok.injEq, Prod.mk.injEq] at h
              rw [← h.2]; exact (hok ⟨tok, rfl⟩).1

theorem frame_GetFunctionCallOperand {n : Nat} (ih : FrameAt n) {ts : List Token}
    {t c : Tokens} {r : Except Error Operator} (hi : Inside ts t)
    (h : GetFunctionCallOperand (n + 1) t = .ok (r, c)) : Inside ts c := by
  rw [GetFunctionCallOperand] at h
  cases hg : t.GetToken with
  | error e => simp [hg, bind, Except.bind] at h
  | ok p =>
    obtain ⟨r1, c1⟩ := p
    obtain ⟨hc1, -, -⟩ := GetToken_inside hi hg
    simp only [hg, bind, Except.bind] at h
    cases r1 with
    | error e =>
      simp only [pure, Except.pure, Except.ok.injEq, Prod.mk.injEq] at h
      rw [← h.2]; exact Inside_SetIndex hi hc1
    | ok tok =>
      simp only at h
      cases hty : tok.GetType with
      | error e => simp [hty] at h
      | ok ty =>
        simp only [hty] at h
        split at h
        · cases hg2 : c1.GetToken with
          | error e => simp [hg2] at h
          | ok p2 =>
            obtain ⟨r2, c2⟩ := p2
            obtain ⟨hc2, -, -⟩ := GetToken_inside hc1 hg2
            simp only [hg2] at h
            cases r2 with
            | error e =>
              simp only [pure, Except.pure, Except.ok.injEq, Prod.mk.injEq] at h
              rw [← h.2]; exact Inside_SetIndex hi hc2
            | ok tok2 =>
              simp only at h
              cases hty2 : tok2.GetType with
              | error e => simp [hty2] at h
              | ok ty2 =>
                simp only [hty2] at h
                split at h
                · simp only [pure, Except.pure, Except.ok.injEq, Prod.mk.injEq] at h
                  rw [← h.2]; exact Inside_SetIndex hi hc2
                · cases ha : GetArgumentList n c2 with
                  | error e => simp [ha] at h
                  | ok p3 =>
                    obtain ⟨r3, c3⟩ := p3
                    have hc3 := ih.2.2.2.2.1 ts c2 r3 c3 hc2 ha
                    simp only [ha] at h
                    cases r3 with
                    | error e =>
                      simp only [pure, Except.pure, Except.ok.injEq, Prod.mk.injEq] at h
                      rw [← h.2]; exact Inside_SetIndex hi hc3
                    | ok args =>
                      simp only at h
                      cases hg3 : c3.GetToken with
                      | error e => simp [hg3] at h
                      | ok p4 =>
                        obtain ⟨r4, c4⟩ := p4
                        obtain ⟨hc4, -, -⟩ := GetToken_inside hc3 hg3
                        simp only [hg3] at h
                        cases r4 with
                        | error e =>
                          simp only [pure, Except.pure, Except.ok.injEq, Prod.mk.injEq] at h
                          rw [← h.2]; exact Inside_SetIndex hi hc4
                        | ok tok3 =>
                          simp only at h
                          cases hty3 : tok3.GetType with
                          | error e => simp [hty3] at h
                          | ok ty3 =>
                            simp only [hty3] at h
                            split at h
                            · simp only [pure, Except.pure, Except.ok.injEq,
                                Prod.mk.injEq] at h
                              rw [← h.2]; exact Inside_SetIndex hi hc4
                            · simp only [pure, Except.pure, Except.ok.injEq,
                                Prod.mk.injEq] at h
                              rw [← h.2]; exact hc4
        · simp only [pure, Except.pure, Except.ok.injEq, Prod.mk.injEq] at h
          rw [← h.2]; exact Inside_SetIndex hi hc1

theorem frame_GetOperand {n : Nat} (ih : FrameAt n) {ts : List Token} {t c : Tokens}
    {r : Except Error Operator} (hi : Inside ts t)
    (h : GetOperand (n + 1) t = .ok (r, c)) : Inside ts c := by
  rw [GetOperand] at h
  cases hg : t.GetToken with
  | error e => simp [hg, bind, Except.bind] at h
  | ok p =>
    obtain ⟨r1, c1⟩ := p
    obtain ⟨hc1, hok, -⟩ := GetToken_inside hi hg
    simp only [hg, bind, Except.bind] at h
    cases r1 with
    | error e =>
      simp only [pure, Except.pure, Except.ok.injEq, Prod.mk.injEq] at h
      rw [← h.2]; exact hc1
    | ok tok =>
      have hret := (hok ⟨tok, rfl⟩).1
      simp only at h
      cases hty : tok.GetType with
      | error e => simp [hty] at h
      | ok ty =>
        simp only [hty] at h
        split at h
        · exact ih.2.2.1 ts _ r c hret h
        · split at h
          · exact ih.2.2.2.1 ts _ r c hret h
          · split at h
            · cases hv : tok.GetValue with
              | error e => simp [hv] at h
              | ok v =>
                simp only [hv, pure, Except.pure, Except.ok.injEq, Prod.mk.injEq] at h
                rw [← h.2]; exact hc1
            · simp only [pure, Except.pure, Except.ok.injEq, Prod.mk.injEq] at h
              rw [← h.2]; exact hret

theorem frame_GetExpressionLoop {n : Nat} (ih : FrameAt n) {ts : List Token}
    {t c : Tokens} {root : Operator} {r : Except Error Operator} (hi : Inside ts t)
    (h : GetExpressionLoop (n + 1) root t = .ok (r, c)) : Inside ts c := by
  rw [GetExpressionLoop] at h
  cases hg : t.GetTokenOfType TokenTypeOperator with
  | error e => simp [hg, bind, Except.bind] at h
  | ok p =>
    obtain ⟨r1, c1⟩ := p
    have hc1 := GetTokenOfType_inside hi hg
    simp only [hg, bind, Except.bind] at h
    cases r1 with
    | error e =>
      simp only [pure, Except.pure, Except.ok.injEq, Prod.mk.injEq] at h
      rw [← h.2]; exact hc1
    | ok operator =>
      simp only at h
      cases ho : GetOperand n c1 with
      | error e => simp [ho] at h
      | ok p2 =>
        obtain ⟨r2, c2⟩ := p2
        have hc2 := ih.2.1 ts c1 r2 c2 hc1 ho
        simp only [ho] at h
        cases r2 with
        | error e =>
          simp only [pure, Except.pure, Except.ok.injEq, Prod.mk.injEq] at h
          rw [← h.2]; exact Inside_SetIndex hi hc2
        | ok operand =>
          simp only at h
          cases hf : fold root operator operand with
          | error e => simp [hf] at h
          | ok root' =>
            simp only [hf] at h
            exact ih.2.2.2.2.2.2 ts root' c2 r c hc2 h

theorem frame_GetExpression {n : Nat} (ih : FrameAt n) {ts : List Token} {t c : Tokens}
    {r : Except Error Operator} (hi : Inside ts t)
    (h : GetExpression (n + 1) t = .ok (r, c)) : Inside ts c := by
  rw [GetExpression] at h
  cases ho : GetOperand n t with
  | error e => simp [ho, bind, Except.bind] at h
  | ok p =>
    obtain ⟨r1, c1⟩ := p
    have hc1 := ih.2.1 ts t r1 c1 hi ho
    simp only [ho, bind, Except.bind] at h
    cases r1 with
    | error e =>
      simp only [pure, Except.pure, Except.ok.injEq, Prod.mk.injEq] at h
      rw [← h.2]; exact hc1
    | ok operand => exact ih.2.2.2.2.2.2 ts operand c1 r c hc1 h

/-- Whatever the fuel, the parser rules leave the cursor on the same tokens and
within `0..total`. -/
theorem frame : ∀ n, FrameAt n
  | 0 => frame_zero
  | n + 1 => by
    have ih := frame n
    refine ⟨?_, ?_, ?_, ?_, ?_, ?_, ?_⟩
    · intro ts t r c hi h; exact frame_GetExpression ih hi h
    · intro ts t r c hi h; exact frame_GetOperand ih hi h
    · intro ts t r c hi h; exact frame_GetQuotedOperand ih hi h
    · intro ts t r c hi h; exact frame_GetFunctionCallOperand ih hi h
    · intro ts t r c hi h
      rw [GetArgumentList] at h
      cases n with
      | zero => simp [GetArgumentListLoop, throw, throwThe, MonadExceptOf.throw] at h
      | succ m => exact frame_GetArgumentListLoop (frame m) hi h
    · intro ts args t r c hi h; exact frame_GetArgumentListLoop ih hi h
    · intro ts root t r c hi h; exact frame_GetExpressionLoop ih hi h

/-! ## Whole-input consumption -/

theorem isWord_of_isDigit (c : Char) (h : isDigit c = true) : isWord c = true := by
  simp [isWord, h]

theorem isWord_of_isLetter (c : Char) (h : isLetter c = true) : isWord c = true := by
  simp [isWord, h]

/-- The tokens of a derivable sequence are made of word characters and of the
punctuation of the tokenizer pattern. -/
theorem derives_chars {n : Nonterminal} {w : List Token} (h : Derives n w) :
    ∀ t ∈ w, ∀ c ∈ t, isWord c = true ∨ isPunct c = true := by
  induction h with
  | expression w w' _ _ ih ih' =>
    intro t ht
    rcases List.mem_append.1 ht with h | h
    · exact ih t h
    · exact ih' t h
  | integer t ht =>
    intro t' ht' c hc
    simp only [List.mem_singleton] at ht'
    subst ht'
    exact Or.inl (isWord_of_isDigit c (((isIntegerToken_iff _).1 ht).2.1 c hc))
  | paren w _ ih =>
    intro t ht c hc
    simp only [List.cons_append, List.mem_cons, List.mem_append, List.mem_singleton,
      List.not_mem_nil, or_false] at ht
    rcases ht with rfl | h | rfl
    · simp only [List.mem_singleton] at hc; subst hc; exact Or.inr (by decide)
    · exact ih t h c hc
    · simp only [List.mem_singleton] at hc; subst hc; exact Or.inr (by decide)
  | call t w ht _ ih =>
    intro t' ht' c hc
    simp only [List.cons_append, List.mem_cons, List.mem_append, List.mem_singleton,
      List.not_mem_nil, or_false] at ht'
    rcases ht' with rfl | rfl | h | rfl
    · cases t' with
      | nil => simp at hc
      | cons d ds =>
        simp only [isIdentifierToken, Bool.and_eq_true, List.all_eq_true] at ht
        simp only [List.mem_cons] at hc
        rcases hc with rfl | hc
        · exact Or.inl (isWord_of_isLetter _ ht.1)
        · exact Or.inl (ht.2 c hc)
    · simp only [List.mem_singleton] at hc; subst hc; exact Or.inr (by decide)
    · exact ih t' h c hc
    · simp only [List.mem_singleton] at hc; subst hc; exact Or.inr (by decide)
  | tailNil => intro t ht; simp at ht
  | tailCons o w w' ho _ _ ih ih' =>
    intro t ht c hc
    simp only [List.cons_append, List.mem_cons, List.mem_append] at ht
    rcases ht with rfl | h | h
    · simp only [isOperatorToken, Bool.or_eq_true, decide_eq_true_eq] at ho
      rcases ho with ((h | h) | h) | h <;> subst h <;>
        (simp only [List.mem_singleton] at hc; subst hc; exact Or.inr (by decide))
    · exact ih t h c hc
    · exact ih' t h c hc
  | argsNil => intro t ht; simp at ht
  | argsSome w _ ih => exact ih
  | argsOne w _ ih => exact ih
  | argsMore w w' _ _ ih ih' =>
    intro t ht c hc
    simp only [List.mem_append, List.mem_cons] at ht
    rcases ht with h | rfl | h
    · exact ih t h c hc
    · simp only [List.mem_singleton] at hc; subst hc; exact Or.inr (by decide)
    · exact ih' t h c hc

theorem spaced_chars {tokens : List Token} {text : List Char} (h : Spaced tokens text) :
    ∀ c ∈ text, isSpace c = true ∨ ∃ t ∈ tokens, c ∈ t := by
  induction h with
  | nil ws hws => intro c hc; exact Or.inl (hws c hc)
  | cons ws t ts text hws _ ih =>
    intro c hc
    simp only [List.mem_append] at hc
    rcases hc with (hc | hc) | hc
    · exact Or.inl (hws c hc)
    · exact Or.inr ⟨t, List.mem_cons_self _ _, hc⟩
    · rcases ih c hc with h | ⟨t', ht', hct'⟩
      · exact Or.inl h
      · exact Or.inr ⟨t', List.mem_cons_of_mem _ ht', hct'⟩

theorem wellFormedText_chars {text : List Char} (h : WellFormedText text) :
    ∀ c ∈ text, isSpace c = true ∨ isWord c = true ∨ isPunct c = true := by
  obtain ⟨tokens, hd, hs⟩ := h
  intro c hc
  rcases spaced_chars hs c hc with h | ⟨t, ht, hct⟩
  · exact Or.inl h
  · exact Or.inr (derives_chars hd t ht c hct)

set_option maxRecDepth 100000 in
/-- C4, the counterexample: `1` is a well-formed text and `1$` is not, yet
`BuildCalculatorTree` returns a tree on `1$`: the tokenizer skips `$`. -/
theorem skipped_suffix_accepted :
    WellFormedText "1".toList ∧ ¬ WellFormedText ("1".toList ++ "$".toList) ∧
    accepted (BuildCalculatorTree ("1".toList ++ "$".toList)) = true := by
  refine ⟨?_, ?_, by decide!⟩
  · exact ⟨[['1']],
      Derives.expression [['1']] [] (Derives.integer ['1'] (by decide)) Derives.tailNil,
      Spaced.cons [] ['1'] [] [] (by simp) (Spaced.nil [] (by simp))⟩
  · intro h
    have := wellFormedText_chars h '$' (by decide)
    revert this
    decide

theorem accepted_iff (res : Except Abort (Except Error Operator × Tokens)) :
    accepted res = true ↔ ∃ tree cursor, res = .ok (.ok tree, cursor) := by
  constructor
  · intro h
    cases res with
    | error e => simp [accepted] at h
    | ok p =>
      obtain ⟨r, c⟩ := p
      cases r with
      | error e => simp [accepted] at h
      | ok tree => exact ⟨tree, c, rfl⟩
  · rintro ⟨tree, cursor, rfl⟩
    rfl

theorem Inside_NewTokens (ts : List Token) : Inside ts (NewTokens ts) :=
  ⟨rfl, rfl, le_refl _, by simp [NewTokens]⟩

/-- Whenever `BuildCalculatorTree` returns a tree, `Tokenize` returned a token
sequence and the cursor has consumed every one of its tokens. -/
theorem BuildCalculatorTree_consumes_tokens (expression : List Char) (tree : Operator)
    (cursor : Tokens) (h : BuildCalculatorTree expression = .ok (.ok tree, cursor)) :
    ∃ tokens, Tokenize expression = .ok (NewTokens tokens) ∧ cursor.tokens = tokens ∧
      cursor.total = tokens.length ∧ cursor.index = tokens.length := by
  unfold BuildCalculatorTree at h
  unfold Tokenize at h ⊢
  cases hl : TokenizeLoop expression (expression.length + 1) 0 [] with
  | error e => simp [hl, bind, Except.bind] at h
  | ok result =>
    refine ⟨result, by simp [bind, Except.bind, pure, Except.pure], ?_⟩
    simp only [hl, bind, Except.bind, pure, Except.pure, BuildCalculatorTreeFromTokens] at h
    cases he : GetExpression (parseFuel (NewTokens result).tokens.length) (NewTokens result) with
    | error e => simp [he] at h
    | ok p =>
      obtain ⟨r, c⟩ := p
      have hc := (frame _).1 result _ r c (Inside_NewTokens result) he
      simp only [he] at h
      cases r with
      | error e => simp at h
      | ok operator =>
        simp only at h
        split at h
        · cases ha : c.at c.index <;> simp [ha] at h
        · rename_i hm
          simp only [Except.ok.injEq, Prod.mk.injEq] at h
          obtain ⟨h1, h2, _, h4⟩ := hc
          rw [← h.2]
          refine ⟨h1, h2, ?_⟩
          simp only [Tokens.HasMoreTokens, decide_eq_true_eq, not_lt] at hm
          rw [h2] at hm
          omega

set_option maxRecDepth 100000 in
/-- The text `1$`: a tree is returned and the cursor has consumed the one token
`1` that `Tokenize` returns. -/
theorem BuildCalculatorTree_consumes_tokens_witness :
    ∃ tree cursor, BuildCalculatorTree "1$".toList = .ok (.ok tree, cursor) ∧
      ∃ tokens, Tokenize "1$".toList = .ok (NewTokens tokens) ∧ cursor.tokens = tokens ∧
        cursor.total = tokens.length ∧ cursor.index = tokens.length := by
  obtain ⟨tree, cursor, h⟩ := (accepted_iff _).1
    (by decide! : accepted (BuildCalculatorTree "1$".toList) = true)
  exact ⟨tree, cursor, h, BuildCalculatorTree_consumes_tokens "1$".toList tree cursor h⟩

/-! ## The tokenizer -/

theorem length_takeWhile_le (p : Char → Bool) (l : List Char) :
    (l.takeWhile p).length ≤ l.length := by
  induction l with
  | nil => simp
  | cons c cs ih =>
    simp only [List.takeWhile_cons]
    split <;> simp only [List.length_cons, List.length_nil] <;> omega

theorem FindStringIndex_bounds :
    ∀ (l : List Char) (m0 m1 : Nat), FindStringIndex l = some (m0, m1) →
      m0 < m1 ∧ m1 ≤ l.length
  | [], m0, m1, h => by simp [FindStringIndex] at h
  | c :: cs, m0, m1, h => by
    unfold FindStringIndex at h
    split at h
    · simp only [Option.some.injEq, Prod.mk.injEq] at h
      have := length_takeWhile_le isWord cs
      simp only [List.length_cons]
      omega
    · split at h
      · simp only [Option.some.injEq, Prod.mk.injEq] at h
        have := length_takeWhile_le isDigit cs
        simp only [List.length_cons]
        omega
      · split at h
        · simp only [Option.some.injEq, Prod.mk.injEq] at h
          simp only [List.length_cons]
          omega
        · cases hf : FindStringIndex cs with
          | none => simp [hf] at h
          | some p =>
            obtain ⟨a, b⟩ := p
            simp only [hf, Option.some.injEq, Prod.mk.injEq] at h
            have := FindStringIndex_bounds cs a b hf
            simp only [List.length_cons]
            omega

theorem stringsIndexQuote_some :
    ∀ (l : List Char) (i : Nat), stringsIndexQuote l = some i →
      l.get? i = some quoteChar ∧ ∀ j, j < i → l.get? j ≠ some quoteChar
  | [], i, h => by simp [stringsIndexQuote] at h
  | c :: cs, i, h => by
    unfold stringsIndexQuote at h
    split at h
    · rename_i hc
      simp only [Option.some.injEq] at h
      subst h
      exact ⟨by simp [hc], fun j hj => absurd hj (Nat.not_lt_zero j)⟩
    · rename_i hc
      cases hs : stringsIndexQuote cs with
      | none => simp [hs] at h
      | some k =>
        simp only [hs, Option.some.injEq] at h
        subst h
        obtain ⟨h1, h2⟩ := stringsIndexQuote_some cs k hs
        refine ⟨by simpa using h1, fun j hj => ?_⟩
        cases j with
        | zero => simpa using hc
        | succ j => simpa using h2 j (by omega)

theorem stringsIndexQuote_none :
    ∀ (l : List Char), stringsIndexQuote l = none → ∀ j, l.get? j ≠ some quoteChar
  | [], _, j => by simp
  | c :: cs, h, j => by
    unfold stringsIndexQuote at h
    split at h
    · simp at h
    · rename_i hc
      cases hs : stringsIndexQuote cs with
      | some k => simp [hs] at h
      | none =>
        cases j with
        | zero => simpa using hc
        | succ j => simpa using stringsIndexQuote_none cs hs j

theorem get?_drop_add (l : List Char) (a j : Nat) : (l.drop a).get? j = l.get? (a + j) := by
  simp [List.getElem?_drop]

/-- The first `"` after `index`, when there is a `"` at `r > index`. -/
theorem stringsIndexQuote_le (expression : List Char) (index r : Nat) (hr : index < r)
    (hq : expression.get? r = some quoteChar) :
    ∃ i, stringsIndexQuote (expression.drop (index + 1)) = some i ∧ index + 1 + i ≤ r ∧
      expression.get? (index + 1 + i) = some quoteChar ∧
      ∀ j, index < j → j < index + 1 + i → expression.get? j ≠ some quoteChar := by
  cases hs : stringsIndexQuote (expression.drop (index + 1)) with
  | none =>
    have := stringsIndexQuote_none _ hs (r - (index + 1))
    rw [get?_drop_add] at this
    have e : index + 1 + (r - (index + 1)) = r := by omega
    rw [e] at this
    exact absurd hq this
  | some i =>
    obtain ⟨h1, h2⟩ := stringsIndexQuote_some _ i hs
    rw [get?_drop_add] at h1
    refine ⟨i, rfl, ?_, h1, ?_⟩
    · by_contra hlt
      have := h2 (r - (index + 1)) (by omega)
      rw [get?_drop_add] at this
      have e : index + 1 + (r - (index + 1)) = r := by omega
      rw [e] at this
      exact this hq
    · intro j hj1 hj2
      have := h2 (j - (index + 1)) (by omega)
      rw [get?_drop_add] at this
      have e : index + 1 + (j - (index + 1)) = j := by omega
      rw [e] at this
      exact this

theorem get?_lt_of_some {l : List Char} {i : Nat} {c : Char} (h : l.get? i = some c) :
    i < l.length := by
  by_contra hge
  rw [List.get?_eq_none.2 (by omega)] at h
  exact absurd h (by simp)

theorem get?_some_of_lt {l : List Char} {i : Nat} (h : i < l.length) :
    ∃ c, l.get? i = some c := by
  cases hc : l.get? i with
  | none =>
    have := List.get?_eq_none.1 hc
    omega
  | some c => exact ⟨c, rfl⟩

/-- With a closing quote at `r`, the inner loop returns the text from the
opening quote through `r` and the index `r + 1`. -/
theorem TokenizeQuote_closing (expression : List Char) (q r : Nat)
    (hc : Closing expression q r) :
    ∀ (fuel index : Nat), q ≤ index → index < r → r - index ≤ fuel →
      TokenizeQuote expression q fuel index = .ok (slice expression q (r + 1), r + 1) := by
  obtain ⟨hqr, hrq, hrb, hmin⟩ := hc
  intro fuel
  induction fuel with
  | zero => intro index h1 h2 h3; omega
  | succ f ih =>
    intro index h1 h2 h3
    obtain ⟨i, hs, hle, hq, _⟩ := stringsIndexQuote_le expression index r h2 hrq
    have hlt := get?_lt_of_some hq
    obtain ⟨c, hc⟩ := get?_some_of_lt (show index + i < expression.length by omega)
    rw [TokenizeQuote, hs]
    simp only [hc]
    by_cases hjr : index + 1 + i = r
    · have hcb : c ≠ backslashChar := by
        intro hcb
        apply hrb
        rw [← hjr, ← hcb, ← hc]
        congr 1
        omega
      have e : index + i + 2 = r + 1 := by omega
      simp [hcb, e, pure, Except.pure]
    · have hcb : c = backslashChar := by
        have := hmin (index + 1 + i) (by omega) (by omega) hq
        have e : index + 1 + i - 1 = index + i := by omega
        rw [e, hc] at this
        simpa using this
      simp only [hcb, ne_eq, not_true_eq_false, if_false]
      exact ih (index + i + 1) (by omega) (by omega) (by omega)

/-- Without a closing quote the inner loop panics. -/
theorem TokenizeQuote_unterminated (expression : List Char) (q : Nat)
    (hno : ∀ r, ¬ Closing expression q r) :
    ∀ (fuel index : Nat), q ≤ index → index < expression.length →
      expression.length - index ≤ fuel →
      (∀ j, q < j → j ≤ index → expression.get? j = some quoteChar →
        expression.get? (j - 1) = some backslashChar) →
      TokenizeQuote expression q fuel index = .error (.panic "unterminated string") := by
  intro fuel
  induction fuel with
  | zero => intro index h1 h0 h2 _; omega
  | succ f ih =>
    intro index h1 h0 h2 hinv
    rw [TokenizeQuote]
    cases hs : stringsIndexQuote (expression.drop (index + 1)) with
    | none => rfl
    | some i =>
      obtain ⟨hq0, hfirst⟩ := stringsIndexQuote_some _ i hs
      rw [get?_drop_add] at hq0
      have hlt := get?_lt_of_some hq0
      obtain ⟨c, hc⟩ := get?_some_of_lt (show index + i < expression.length by omega)
      simp only [hc]
      have hcb : c = backslashChar := by
        by_contra hne
        apply hno (index + 1 + i)
        refine ⟨by omega, hq0, ?_, ?_⟩
        · have e : index + 1 + i - 1 = index + i := by omega
          rw [e, hc]
          simpa using hne
        · intro j hj1 hj2 hjq
          by_cases hji : j ≤ index
          · exact hinv j hj1 hji hjq
          · have := hfirst (j - (index + 1)) (by omega)
            rw [get?_drop_add] at this
            have e : index + 1 + (j - (index + 1)) = j := by omega
            rw [e] at this
            exact absurd hjq this
      simp only [hcb, ne_eq, not_true_eq_false, if_false]
      apply ih (index + i + 1) (by omega) (by omega) (by omega)
      intro j hj1 hj2 hjq
      by_cases hji : j ≤ index
      · exact hinv j hj1 hji hjq
      · by_cases hje : j = index + i + 1
        · subst hje
          have e : index + i + 1 - 1 = index + i := by omega
          rw [e, hc, hcb]
        · have := hfirst (j - (index + 1)) (by omega)
          rw [get?_drop_add] at this
          have e : index + 1 + (j - (index + 1)) = j := by omega
          rw [e] at this
          exact absurd hjq this

theorem TokenizeLoop_token (expression : List Char) (g i m0 m1 : Nat) (result : List Token)
    (hi : i < expression.length)
    (hf : FindStringIndex (expression.drop i) = some (m0, m1))
    (hs : slice expression (m0 + i) (m1 + i) ≠ [quoteChar]) :
    TokenizeLoop expression (g + 1) i result
      = TokenizeLoop expression g (i + m1) (result ++ [slice expression (m0 + i) (m1 + i)]) := by
  rw [TokenizeLoop]
  simp only [hi, if_true, hf, hs, ne_eq, not_false_eq_true]

theorem TokenizeLoop_string (expression : List Char) (g i m0 m1 : Nat) (result : List Token)
    (hi : i < expression.length)
    (hf : FindStringIndex (expression.drop i) = some (m0, m1))
    (hs : slice expression (m0 + i) (m1 + i) = [quoteChar]) :
    TokenizeLoop expression (g + 1) i result
      = (TokenizeQuote expression (m0 + i) expression.length (m0 + i)).bind
          (fun p => TokenizeLoop expression g p.2 (result ++ [p.1])) := by
  rw [TokenizeLoop]
  simp only [hi, if_true, hf, hs, ne_eq, not_true_eq_false, if_false, bind]

theorem TokenizeLoop_end (expression : List Char) (g i : Nat) (result : List Token)
    (h : ¬ i < expression.length ∨ FindStringIndex (expression.drop i) = none) :
    TokenizeLoop expression (g + 1) i result = .ok result := by
  rw [TokenizeLoop]
  rcases h with h | h
  · simp only [h, if_false, pure, Except.pure]
  · by_cases hi : i < expression.length
    · simp only [hi, if_true, h, pure, Except.pure]
    · simp only [hi, if_false, pure, Except.pure]

/-- C9, at the level of the loop: when an iteration at `index = i` finds its next
match to be the `"` at `q = m0 + i`, and `r` is the first later `"` not preceded
by a backslash, the iteration appends the one token `expression[q : r+1]` and the
loop goes on at `r + 1`. -/
theorem TokenizeLoop_string_closing (expression : List Char) (g i m0 m1 r : Nat)
    (result : List Token) (hi : i < expression.length)
    (hf : FindStringIndex (expression.drop i) = some (m0, m1))
    (hs : slice expression (m0 + i) (m1 + i) = [quoteChar])
    (hc : Closing expression (m0 + i) r) :
    TokenizeLoop expression (g + 1) i result
      = TokenizeLoop expression g (r + 1) (result ++ [slice expression (m0 + i) (r + 1)]) := by
  have hr := get?_lt_of_some hc.2.1
  rw [TokenizeLoop_string expression g i m0 m1 result hi hf hs,
    TokenizeQuote_closing expression (m0 + i) r hc expression.length (m0 + i) (le_refl _)
      hc.1 (by omega)]
  rfl

theorem TokenizeLoop_string_unterminated (expression : List Char) (g i m0 m1 : Nat)
    (result : List Token) (hi : i < expression.length)
    (hf : FindStringIndex (expression.drop i) = some (m0, m1))
    (hs : slice expression (m0 + i) (m1 + i) = [quoteChar])
    (hno : ∀ r, ¬ Closing expression (m0 + i) r) :
    TokenizeLoop expression (g + 1) i result = .error (.panic "unterminated string") := by
  have hb := FindStringIndex_bounds _ m0 m1 hf
  have hl : (expression.drop i).length = expression.length - i := List.length_drop i expression
  rw [TokenizeLoop_string expression g i m0 m1 result hi hf hs,
    TokenizeQuote_unterminated expression (m0 + i) hno expression.length (m0 + i) (le_refl _)
      (by omega) (by omega) (fun j h1 h2 => by omega)]
  rfl

/-- The run of the loop from the start reaches every `ScanAt` index, with fuel
to spare. -/
theorem ScanAt_reach (expression : List Char) {i : Nat} (h : ScanAt expression i) :
    ∃ k result, k ≤ i ∧ ∀ g, TokenizeLoop expression (g + k) 0 []
      = TokenizeLoop expression g i result := by
  induction h with
  | start => exact ⟨0, [], le_refl _, fun g => rfl⟩
  | token i m0 m1 _ hi hf hs ih =>
    obtain ⟨k, result, hk, hrun⟩ := ih
    have hb := FindStringIndex_bounds _ m0 m1 hf
    refine ⟨k + 1, result ++ [slice expression (m0 + i) (m1 + i)], by omega, fun g => ?_⟩
    rw [← Nat.add_assoc, Nat.add_right_comm, hrun (g + 1)]
    exact TokenizeLoop_token expression g i m0 m1 result hi hf hs
  | string i m0 m1 r _ hi hf hs hc ih =>
    obtain ⟨k, result, hk, hrun⟩ := ih
    refine ⟨k + 1, result ++ [slice expression (m0 + i) (r + 1)],
      by have := hc.1; omega, fun g => ?_⟩
    rw [← Nat.add_assoc, Nat.add_right_comm, hrun (g + 1)]
    exact TokenizeLoop_string_closing expression g i m0 m1 r result hi hf hs hc

theorem TokenizeLoop_prefix (expression : List Char) :
    ∀ (g i : Nat) (result ts : List Token), TokenizeLoop expression g i result = .ok ts →
      ∃ more, ts = result ++ more := by
  intro g
  induction g with
  | zero => intro i result ts h; simp [TokenizeLoop, throw, throwThe, MonadExceptOf.throw] at h
  | succ g ih =>
    intro i result ts h
    by_cases hi : i < expression.length
    · cases hf : FindStringIndex (expression.drop i) with
      | none =>
        rw [TokenizeLoop_end expression g i result (Or.inr hf)] at h
        simp only [Except.ok.injEq] at h
        exact ⟨[], by simp [h]⟩
      | some p =>
        obtain ⟨m0, m1⟩ := p
        by_cases hs : slice expression (m0 + i) (m1 + i) = [quoteChar]
        · rw [TokenizeLoop_string expression g i m0 m1 result hi hf hs] at h
          cases hq : TokenizeQuote expression (m0 + i) expression.length (m0 + i) with
          | error e => simp [hq, Except.bind] at h
          | ok p =>
            simp only [hq, Except.bind] at h
            obtain ⟨more, hm⟩ := ih _ _ _ h
            exact ⟨p.1 :: more, by simp [hm]⟩
        · rw [TokenizeLoop_token expression g i m0 m1 result hi hf hs] at h
          obtain ⟨more, hm⟩ := ih _ _ _ h
          exact ⟨slice expression (m0 + i) (m1 + i) :: more, by simp [hm]⟩
    · rw [TokenizeLoop_end expression g i result (Or.inl hi)] at h
      simp only [Except.ok.injEq] at h
      exact ⟨[], by simp [h]⟩

/-- From a `ScanAt` index the loop, with fuel for the rest of the text, returns
the tokens, or panics on a string literal that is not terminated. -/
theorem TokenizeLoop_cases (expression : List Char) :
    ∀ (m i g : Nat) (result : List Token), expression.length - i ≤ m → m + 1 ≤ g →
      ScanAt expression i →
      (∃ ts, TokenizeLoop expression g i result = .ok ts) ∨
      (TokenizeLoop expression g i result = .error (.panic "unterminated string") ∧
        ∃ q, OpensAt expression q ∧ ∀ r, ¬ Closing expression q r) := by
  intro m
  induction m with
  | zero =>
    intro i g result hm hg _
    obtain ⟨g, rfl⟩ : ∃ g', g = g' + 1 := ⟨g - 1, by omega⟩
    exact Or.inl ⟨result, TokenizeLoop_end expression g i result (Or.inl (by omega))⟩
  | succ m ih =>
    intro i g result hm hg hscan
    obtain ⟨g, rfl⟩ : ∃ g', g = g' + 1 := ⟨g - 1, by omega⟩
    by_cases hi : i < expression.length
    · cases hf : FindStringIndex (expression.drop i) with
      | none => exact Or.inl ⟨result, TokenizeLoop_end expression g i result (Or.inr hf)⟩
      | some p =>
        obtain ⟨m0, m1⟩ := p
        have hb := FindStringIndex_bounds _ m0 m1 hf
        by_cases hs : slice expression (m0 + i) (m1 + i) = [quoteChar]
        · by_cases hcl : ∃ r, Closing expression (m0 + i) r
          · obtain ⟨r, hc⟩ := hcl
            rw [TokenizeLoop_string_closing expression g i m0 m1 r result hi hf hs hc]
            have := hc.1
            exact ih (r + 1) g _ (by omega) (by omega)
              (ScanAt.string i m0 m1 r hscan hi hf hs hc)
          · have hno : ∀ r, ¬ Closing expression (m0 + i) r := fun r hr => hcl ⟨r, hr⟩
            exact Or.inr ⟨TokenizeLoop_string_unterminated expression g i m0 m1 result hi hf
              hs hno, m0 + i, ⟨i, m0, m1, hscan, hi, hf, hs, rfl⟩, hno⟩
        · rw [TokenizeLoop_token expression g i m0 m1 result hi hf hs]
          exact ih (i + m1) g _ (by omega) (by omega) (ScanAt.token i m0 m1 hscan hi hf hs)
    · exact Or.inl ⟨result, TokenizeLoop_end expression g i result (Or.inl hi)⟩

theorem Tokenize_eq (expression : List Char) :
    Tokenize expression
      = (TokenizeLoop expression (expression.length + 1) 0 []).bind
          (fun result => .ok (NewTokens result)) := rfl

theorem slice_get? (l : List Char) (a b j : Nat) :
    (slice l a b).get? j = if a + j < b then l.get? (a + j) else none := by
  simp only [slice, List.get?_eq_getElem?, List.getElem?_drop, List.getElem?_take]

theorem slice_length (l : List Char) (a b : Nat) (hb : b ≤ l.length) :
    (slice l a b).length = b - a := by
  simp only [slice, List.length_drop, List.length_take]
  omega

theorem slice_singleton_get? (l : List Char) (a b : Nat) (c : Char)
    (h : slice l a b = [c]) : l.get? a = some c := by
  have := slice_get? l a b 0
  rw [h] at this
  simp only [List.get?_cons_zero, Nat.add_zero] at this
  split at this
  · exact this.symm
  · exact absurd this (by simp)

theorem mem_of_mem_slice (l : List Char) (a b : Nat) (c : Char) (h : c ∈ slice l a b) :
    c ∈ l :=
  List.mem_of_mem_take (List.mem_of_mem_drop h)

/-- The token of a string literal begins and ends with a quote. -/
theorem slice_closing (expression : List Char) (q r : Nat)
    (hq : expression.get? q = some quoteChar) (hc : Closing expression q r) :
    (slice expression q (r + 1)).length = r + 1 - q ∧
      (slice expression q (r + 1)).head? = some quoteChar ∧
      (slice expression q (r + 1)).getLast? = some quoteChar := by
  have hr := get?_lt_of_some hc.2.1
  have hqr := hc.1
  have hlen := slice_length expression q (r + 1) (by omega)
  refine ⟨hlen, ?_, ?_⟩
  · rw [← List.get?_zero, slice_get?]
    simp only [Nat.add_zero]
    rw [if_pos (by omega)]
    exact hq
  · rw [List.getLast?_eq_getElem?, hlen, ← List.get?_eq_getElem?, slice_get?]
    have e : q + (r + 1 - q - 1) = r := by omega
    rw [e, if_pos (by omega)]
    exact hc.2.1

set_option maxRecDepth 100000 in
/-- C9: when the scan of `Tokenize` reaches an opening `"` at position `q` and
`r` is the first later position of a `"` whose preceding character is not a
backslash, the iteration that found the `"` appends the one token
`expression[q : r+1]`, which begins and ends with a quote, and the scan resumes
at `r + 1`; this token is among the tokens that `Tokenize` returns.  The text
of the test, `"hello" + "world" + "\"aaaa\""`, yields five tokens, the fifth of
ten characters with its escaped quotes kept. -/
theorem Tokenize_string_literal :
    (∀ (expression : List Char) (q r : Nat), OpensAt expression q →
      Closing expression q r →
      (∀ (i m0 m1 g : Nat) (result : List Token), i < expression.length →
        FindStringIndex (expression.drop i) = some (m0, m1) →
        slice expression (m0 + i) (m1 + i) = [quoteChar] → q = m0 + i →
        TokenizeLoop expression (g + 1) i result
          = TokenizeLoop expression g (r + 1) (result ++ [slice expression q (r + 1)])) ∧
      ScanAt expression (r + 1) ∧
      (slice expression q (r + 1)).length = r + 1 - q ∧
      (slice expression q (r + 1)).head? = some quoteChar ∧
      (slice expression q (r + 1)).getLast? = some quoteChar ∧
      ∀ ts, Tokenize expression = .ok ts → slice expression q (r + 1) ∈ ts.tokens)
    ∧ Tokenize testExpression = .ok (NewTokens
        [[quoteChar] ++ "hello".toList ++ [quoteChar], ['+'],
         [quoteChar] ++ "world".toList ++ [quoteChar], ['+'],
         [quoteChar, backslashChar, quoteChar] ++ "aaaa".toList ++
           [backslashChar, quoteChar, quoteChar]])
    ∧ ([quoteChar, backslashChar, quoteChar] ++ "aaaa".toList ++
           [backslashChar, quoteChar, quoteChar]).length = 10 := by
  refine ⟨?_, by decide!, by decide⟩
  intro expression q r ho hc
  obtain ⟨i, m0, m1, hscan, hi, hf, hs, rfl⟩ := ho
  have hq := slice_singleton_get? expression (m0 + i) (m1 + i) quoteChar hs
  obtain ⟨h1, h2, h3⟩ := slice_closing expression (m0 + i) r hq hc
  refine ⟨?_, ScanAt.string i m0 m1 r hscan hi hf hs hc, h1, h2, h3, ?_⟩
  · intro i' m0' m1' g result hi' hf' hs' he
    rw [he] at hc ⊢
    exact TokenizeLoop_string_closing expression g i' m0' m1' r result hi' hf' hs' hc
  · intro ts hts
    obtain ⟨k, result, hk, hrun⟩ := ScanAt_reach expression hscan
    rw [Tokenize_eq] at hts
    have hg : expression.length + 1 = (expression.length - k) + 1 + k := by omega
    rw [hg, hrun, TokenizeLoop_string_closing expression _ i m0 m1 r result hi hf hs hc] at hts
    cases hl : TokenizeLoop expression (expression.length - k) (r + 1)
        (result ++ [slice expression (m0 + i) (r + 1)]) with
    | error e => simp [hl, Except.bind] at hts
    | ok out =>
      simp only [hl, Except.bind, Except.ok.injEq] at hts
      obtain ⟨more, hm⟩ := TokenizeLoop_prefix expression _ _ _ _ hl
      rw [← hts, hm]
      simp [NewTokens]

set_option maxRecDepth 100000 in
/-- Witness of C9 on the text of the test: the string literal opened at
position `0` is closed at position `6`. -/
theorem Tokenize_string_literal_witness :
    (slice testExpression 0 (6 + 1)).length = 6 + 1 - 0 ∧
    ∀ ts, Tokenize testExpression = .ok ts → slice testExpression 0 (6 + 1) ∈ ts.tokens := by
  have h := Tokenize_string_literal.1 testExpression 0 6
    ⟨0, 0, 1, ScanAt.start, by decide, by decide, by decide, rfl⟩
    ⟨by decide, by decide, by decide, by
      intro j h1 h2
      interval_cases j <;> decide⟩
  exact ⟨h.2.2.1, h.2.2.2.2.2⟩

set_option maxRecDepth 100000 in
/-- C10: `Tokenize` stops on every text, with the tokens or with the panic
`unterminated string` and in no other way; it panics exactly when its scan
reaches an opening `"` that no later `"` with a preceding character other than a
backslash closes; on a text without `"` it returns the tokens. -/
theorem Tokenize_total :
    (∀ expression : List Char,
      (∃ ts, Tokenize expression = .ok ts) ∨
        Tokenize expression = .error (.panic "unterminated string"))
    ∧ (∀ expression : List Char,
        Tokenize expression = .error (.panic "unterminated string") ↔
          ∃ q, OpensAt expression q ∧ ∀ r, ¬ Closing expression q r)
    ∧ (∀ expression : List Char, quoteChar ∉ expression →
        ∃ ts, Tokenize expression = .ok ts)
    ∧ Tokenize (quoteChar :: "oops".toList) = .error (.panic "unterminated string") := by
  have hcases : ∀ expression : List Char,
      (∃ ts, Tokenize expression = .ok ts) ∨
        (Tokenize expression = .error (.panic "unterminated string") ∧
          ∃ q, OpensAt expression q ∧ ∀ r, ¬ Closing expression q r) := by
    intro expression
    rcases TokenizeLoop_cases expression expression.length 0 (expression.length + 1) []
      (by omega) (le_refl _) ScanAt.start with ⟨ts, h⟩ | ⟨h, hq⟩
    · exact Or.inl ⟨NewTokens ts, by rw [Tokenize_eq, h]; rfl⟩
    · exact Or.inr ⟨by rw [Tokenize_eq, h]; rfl, hq⟩
  have hiff : ∀ expression : List Char,
      Tokenize expression = .error (.panic "unterminated string") ↔
        ∃ q, OpensAt expression q ∧ ∀ r, ¬ Closing expression q r := by
    intro expression
    constructor
    · intro h
      rcases hcases expression with ⟨ts, hts⟩ | ⟨_, hq⟩
      · rw [hts] at h; simp at h
      · exact hq
    · rintro ⟨q, ⟨i, m0, m1, hscan, hi, hf, hs, rfl⟩, hno⟩
      obtain ⟨k, result, hk, hrun⟩ := ScanAt_reach expression hscan
      have hg : expression.length + 1 = (expression.length - k) + 1 + k := by omega
      rw [Tokenize_eq, hg, hrun,
        TokenizeLoop_string_unterminated expression _ i m0 m1 result hi hf hs hno]
      rfl
  refine ⟨?_, hiff, ?_, by decide!⟩
  · intro expression
    rcases hcases expression with h | ⟨h, _⟩
    · exact Or.inl h
    · exact Or.inr h
  · intro expression hnq
    rcases hcases expression with h | ⟨_, q, ⟨i, m0, m1, _, _, _, hs, _⟩, _⟩
    · exact h
    · exfalso
      apply hnq
      apply mem_of_mem_slice expression (m0 + i) (m1 + i)
      rw [hs]
      exact List.mem_singleton_self _

/-- Witness of C10 on the text `1+2`, which holds no quote. -/
theorem Tokenize_total_witness : ∃ ts, Tokenize "1+2".toList = .ok ts :=
  Tokenize_total.2.2.1 "1+2".toList (by decide)

/-! ## Left-to-right associativity of `-` -/

theorem takeWhile_isDigit_append (ds rest : List Char) (hd : ∀ c ∈ ds, isDigit c = true)
    (hr : ∀ c, rest.head? = some c → isDigit c = false) :
    (ds ++ rest).takeWhile isDigit = ds := by
  induction ds with
  | nil =>
    cases rest with
    | nil => rfl
    | cons c cs => simp [List.takeWhile_cons, hr c rfl]
  | cons d ds ih =>
    simp only [List.cons_append, List.takeWhile_cons, hd d (List.mem_cons_self _ _), if_true]
    rw [ih (fun c hc => hd c (List.mem_cons_of_mem _ hc))]

theorem FindStringIndex_digits (tok rest : List Char) (hne : tok ≠ [])
    (hd : ∀ c ∈ tok, isDigit c = true)
    (hr : ∀ c, rest.head? = some c → isDigit c = false) :
    FindStringIndex (tok ++ rest) = some (0, tok.length) := by
  cases tok with
  | nil => exact absurd rfl hne
  | cons d ds =>
    have h1 := hd d (List.mem_cons_self _ _)
    have h2 := isDigit_not_isLetter d h1
    have ht := takeWhile_isDigit_append ds rest (fun c hc => hd c (List.mem_cons_of_mem _ hc)) hr
    simp only [List.cons_append, FindStringIndex, h2, Bool.false_eq_true, if_false, h1, if_true,
      List.length_cons, Nat.add_comm]
    rw [show ds.append rest = ds ++ rest from rfl, ht]

theorem FindStringIndex_punct (c : Char) (rest : List Char) (hl : isLetter c = false)
    (hd : isDigit c = false) (hp : isPunct c = true) :
    FindStringIndex (c :: rest) = some (0, 1) := by
  simp only [FindStringIndex, hl, hd, hp, Bool.false_eq_true, if_false, if_true]

/-- One iteration of the loop of `Tokenize` on a text split as `pre ++ tok ++ rest`
whose next match is `tok`. -/
theorem TokenizeLoop_step (expression pre tok rest : List Char) (g : Nat)
    (result : List Token) (he : expression = pre ++ tok ++ rest)
    (hf : FindStringIndex (tok ++ rest) = some (0, tok.length)) (hne : tok ≠ [])
    (hq : tok ≠ [quoteChar]) :
    TokenizeLoop expression (g + 1) pre.length result
      = TokenizeLoop expression g (pre.length + tok.length) (result ++ [tok]) := by
  have hdrop : expression.drop pre.length = tok ++ rest := by
    rw [he, List.append_assoc, List.drop_left]
  have hslice : slice expression (0 + pre.length) (tok.length + pre.length) = tok := by
    rw [he]
    simp only [slice, Nat.zero_add]
    rw [Nat.add_comm, ← List.length_append, List.take_left, List.drop_left]
  have hlen : pre.length < expression.length := by
    rw [he]
    have : 0 < tok.length := List.length_pos.2 hne
    simp only [List.length_append]
    omega
  have h := TokenizeLoop_token expression g pre.length 0 tok.length result hlen
    (by rw [hdrop, hf]) (by rw [hslice]; exact hq)
  rw [hslice] at h
  exact h

theorem GetOperand_integer {ts : List Token} {i : Nat} {t : Token} {rest : List Token}
    (hd : ts.drop i = t :: rest) (ht : isIntegerToken t = true) (f : Nat) :
    GetOperand (f + 1) (cursorAt ts i)
      = .ok (.ok (NewValue (digitsValue t)), cursorAt ts (i + 1)) := by
  simp [GetOperand, GetToken_cursorAt hd, GetType_integer t ht, GetValue_integer t ht, bind,
    Except.bind, pure, Except.pure, TokenTypeQuoteLeft, TokenTypeIdentifier, TokenTypeOperand]

/-- One iteration of the loop of `GetExpression` on `- t` with an integer `t`. -/
theorem GetExpressionLoop_minus {ts : List Token} {i : Nat} {t : Token} {rest : List Token}
    (hd : ts.drop i = ['-'] :: t :: rest) (ht : isIntegerToken t = true) (f : Nat)
    (root root' : Operator) (hfold : fold root OpSub (NewValue (digitsValue t)) = .ok root') :
    GetExpressionLoop (f + 2) root (cursorAt ts i)
      = GetExpressionLoop (f + 1) root' (cursorAt ts (i + 1 + 1)) := by
  have hv : Token.GetValue ['-'] = .ok OpSub := by decide
  have hty : Token.GetType ['-'] = .ok TokenTypeOperator := by decide
  have hop : (cursorAt ts i).GetTokenOfType TokenTypeOperator
      = .ok (.ok OpSub, cursorAt ts (i + 1)) := by
    simp [Tokens.GetTokenOfType, GetToken_cursorAt hd, hty, hv, bind, Except.bind, pure,
      Except.pure]
  have h1 := (drop_cons_get hd).2.1
  rw [GetExpressionLoop, hop]
  simp only [bind, Except.bind]
  rw [GetOperand_integer h1 ht f]
  simp only [hfold]

theorem wrap_eq_wrap_iff (x y : Int) : wrap x = wrap y ↔ (x - y) % 2 ^ intBits = 0 := by
  unfold wrap
  rw [sub_left_inj, Int.emod_eq_emod_iff_emod_sub_eq_zero]
  have : x + 2 ^ (intBits - 1) - (y + 2 ^ (intBits - 1)) = x - y := by ring
  rw [this]

theorem Calculate_NewValue (rng : Nat → Nat) (v : Int) (k : Nat) :
    (NewValue v).Calculate rng k = .ok (v, k) := by
  have h : (OpVal == OpFunc) = false := by decide
  rw [NewValue, Operator.Calculate]
  simp only [calculateChild, bind, Except.bind, pure, Except.pure]
  rw [h]
  rfl

/-- The parse of `a - b - c`. -/
theorem BuildCalculatorTree_minus_minus (a b c : List Char) (ha : isIntegerToken a = true)
    (hb : isIntegerToken b = true) (hc : isIntegerToken c = true) :
    BuildCalculatorTree (a ++ '-' :: b ++ '-' :: c)
      = .ok (.ok (NewOperator OpSub
            (some (NewOperator OpSub (some (NewValue (digitsValue a)))
              (some (NewValue (digitsValue b)))))
            (some (NewValue (digitsValue c)))),
          cursorAt [a, ['-'], b, ['-'], c] 5) := by
  obtain ⟨ha0, had, _⟩ := (isIntegerToken_iff a).1 ha
  obtain ⟨hb0, hbd, _⟩ := (isIntegerToken_iff b).1 hb
  obtain ⟨hc0, hcd, _⟩ := (isIntegerToken_iff c).1 hc
  have hdq : ∀ t : List Char, (∀ x ∈ t, isDigit x = true) → t ≠ [quoteChar] := by
    intro t ht h
    rw [h] at ht
    exact absurd (ht quoteChar (List.mem_singleton_self _)) (by decide)
  have hminus : ∀ r : List Char, ∀ x, ('-' :: r).head? = some x → isDigit x = false := by
    intro r x hx
    simp only [List.head?_cons, Option.some.injEq] at hx
    subst hx
    decide
  have hnil : ∀ x, ([] : List Char).head? = some x → isDigit x = false := by
    intro x hx
    simp at hx
  obtain ⟨e, he⟩ : ∃ e, e = a ++ '-' :: b ++ '-' :: c := ⟨_, rfl⟩
  have hlen : e.length + 1 = (a.length + b.length + c.length - 3) + 1 + 1 + 1 + 1 + 1 + 1 := by
    have h1 : 0 < a.length := List.length_pos.2 ha0
    have h2 : 0 < b.length := List.length_pos.2 hb0
    have h3 : 0 < c.length := List.length_pos.2 hc0
    rw [he]
    simp only [List.length_append, List.length_cons]
    omega
  have s1 := TokenizeLoop_step e [] a ('-' :: b ++ '-' :: c)
    ((a.length + b.length + c.length - 3) + 1 + 1 + 1 + 1 + 1) [] (by rw [he]; simp)
    (FindStringIndex_digits a _ ha0 had (hminus _)) ha0 (hdq a had)
  have s2 := TokenizeLoop_step e a ['-'] (b ++ '-' :: c)
    ((a.length + b.length + c.length - 3) + 1 + 1 + 1 + 1) [a] (by rw [he]; simp)
    (FindStringIndex_punct '-' _ (by decide) (by decide) (by decide)) (by simp) (by decide)
  have s3 := TokenizeLoop_step e (a ++ ['-']) b ('-' :: c)
    ((a.length + b.length + c.length - 3) + 1 + 1 + 1) [a, ['-']] (by rw [he]; simp)
    (FindStringIndex_digits b _ hb0 hbd (hminus _)) hb0 (hdq b hbd)
  have s4 := TokenizeLoop_step e (a ++ ['-'] ++ b) ['-'] c
    ((a.length + b.length + c.length - 3) + 1 + 1) [a, ['-'], b] (by rw [he]; simp)
    (FindStringIndex_punct '-' _ (by decide) (by decide) (by decide)) (by simp) (by decide)
  have s5 := TokenizeLoop_step e (a ++ ['-'] ++ b ++ ['-']) c []
    ((a.length + b.length + c.length - 3) + 1) [a, ['-'], b, ['-']] (by rw [he]; simp)
    (by rw [List.append_nil]; simpa using FindStringIndex_digits c [] hc0 hcd hnil) hc0
    (hdq c hcd)
  have s6 := TokenizeLoop_end e (a.length + b.length + c.length - 3)
    ((a ++ ['-'] ++ b ++ ['-']).length + c.length) [a, ['-'], b, ['-'], c]
    (Or.inl (by
      rw [he]
      simp only [List.length_append, List.length_cons, List.length_nil]
      omega))
  have htok : Tokenize e = .ok (NewTokens [a, ['-'], b, ['-'], c]) := by
    rw [Tokenize_eq, hlen]
    simp only [List.length_nil, List.nil_append, Nat.zero_add, List.length_append,
      List.length_cons, List.singleton_append, List.cons_append] at s1 s2 s3 s4 s5 s6
    rw [s1, s2, s3, s4, s5, s6]
    rfl
  have hfold1 : fold (NewValue (digitsValue a)) OpSub (NewValue (digitsValue b))
      = .ok (NewOperator OpSub (some (NewValue (digitsValue a)))
          (some (NewValue (digitsValue b)))) := rfl
  have hfold2 : fold (NewOperator OpSub (some (NewValue (digitsValue a)))
        (some (NewValue (digitsValue b)))) OpSub (NewValue (digitsValue c))
      = .ok (NewOperator OpSub
          (some (NewOperator OpSub (some (NewValue (digitsValue a)))
            (some (NewValue (digitsValue b)))))
          (some (NewValue (digitsValue c)))) := rfl
  rw [← he, BuildCalculatorTree, htok]
  simp only [bind, Except.bind]
  apply BuildCalculatorTreeFromTokens_of [a, ['-'], b, ['-'], c]
  show GetExpression (16 + 1) (cursorAt [a, ['-'], b, ['-'], c] 0) = _
  rw [GetExpression, GetOperand_integer (by rfl) ha 15]
  simp only [bind, Except.bind]
  rw [GetExpressionLoop_minus (by rfl) hb 14 _ _ hfold1,
    GetExpressionLoop_minus (by rfl) hc 13 _ _ hfold2]
  exact GetExpressionLoop_follow (by rfl) (Or.inl rfl) 13 _


theorem Calc_minus_minus (rng : Nat → Nat) (k : Nat) (a b c : List Char)
    (ha : isIntegerToken a = true) (hb : isIntegerToken b = true)
    (hc : isIntegerToken c = true) :
    Calc rng (a ++ '-' :: b ++ '-' :: c) k
      = .ok (wrap (((digitsValue a : Int) - digitsValue b) - digitsValue c)) := by
  have hsub : ∀ x y : Int, calculateSwitch OpSub (.int 0) x y = .ok (wrap (x - y)) := by
    intro x y
    rfl
  rw [Calc, BuildCalculatorTree_minus_minus a b c ha hb hc]
  simp only [bind, Except.bind]
  rw [Calculate_NewOperator rng OpSub (Or.inr (Or.inl rfl)),
    Calculate_NewOperator rng OpSub (Or.inr (Or.inl rfl))]
  simp only [Calculate_NewValue, bind, Except.bind, hsub, pure, Except.pure]
  have h := wrap_add_wrap ((digitsValue a : Int) - digitsValue b) (-(digitsValue c : Int))
  simp only [← sub_eq_add_neg] at h
  rw [h]

set_option maxRecDepth 100000 in
/-- C5: for all decimal integer literals `a`, `b`, `c` that fit `int`, evaluating
the text `a-b-c` returns `(a-b)-c` in the arithmetic of `int`: the exact
difference whenever it is not below the smallest `int`.  This is not the value
of `a-(b-c)` unless `c` is `0`, where the two coincide.  In particular `10-3-2`
evaluates to `5`, not to `9`. -/
theorem Calc_minus_left_assoc (rng : Nat → Nat) (k : Nat) (a b c : List Char)
    (ha : isIntegerToken a = true) (hb : isIntegerToken b = true)
    (hc : isIntegerToken c = true) :
    Calc rng (a ++ '-' :: b ++ '-' :: c) k
        = .ok (wrap (((digitsValue a : Int) - digitsValue b) - digitsValue c))
    ∧ (minInt ≤ ((digitsValue a : Int) - digitsValue b) - digitsValue c →
        Calc rng (a ++ '-' :: b ++ '-' :: c) k
          = .ok (((digitsValue a : Int) - digitsValue b) - digitsValue c))
    ∧ (digitsValue c ≠ 0 →
        Calc rng (a ++ '-' :: b ++ '-' :: c) k
          ≠ .ok (wrap ((digitsValue a : Int) - ((digitsValue b : Int) - digitsValue c))))
    ∧ Calc rng "10-3-2".toList k = .ok 5
    ∧ Calc rng "10-3-2".toList k ≠ .ok 9 := by
  have hmain := Calc_minus_minus rng k a b c ha hb hc
  obtain ⟨_, _, har⟩ := (isIntegerToken_iff a).1 ha
  obtain ⟨_, _, hcr⟩ := (isIntegerToken_iff c).1 hc
  have hmax : maxInt = 2 ^ 63 - 1 := by decide
  have hbits : (2 : Int) ^ intBits = 2 ^ 64 := by decide
  have hex : Calc rng "10-3-2".toList k = .ok 5 := by
    have h := Calc_minus_minus rng k "10".toList "3".toList "2".toList (by decide) (by decide)
      (by decide)
    have e : "10".toList ++ '-' :: "3".toList ++ '-' :: "2".toList = "10-3-2".toList := by
      decide
    have v : wrap (((digitsValue "10".toList : Int) - digitsValue "3".toList)
        - digitsValue "2".toList) = 5 := by decide
    rw [e, v] at h
    exact h
  refine ⟨hmain, ?_, ?_, hex, ?_⟩
  · intro hmin
    rw [hmain, wrap_of_range _ hmin (by
      have h1 : (0 : Int) ≤ (digitsValue b : Int) := Int.ofNat_nonneg _
      have h2 : (0 : Int) ≤ (digitsValue c : Int) := Int.ofNat_nonneg _
      omega)]
  · intro hc0 heq
    rw [hmain] at heq
    simp only [Except.ok.injEq] at heq
    rw [wrap_eq_wrap_iff, hbits] at heq
    have h2 : (0 : Int) < (digitsValue c : Int) := by
      have := Nat.pos_of_ne_zero hc0
      exact_mod_cast this
    rw [hmax] at hcr
    omega
  · rw [hex]
    decide

/-- Witness of C5 on `10`, `3` and `2`. -/
theorem Calc_minus_left_assoc_witness :
    Calc (fun _ => 0) ("10".toList ++ '-' :: "3".toList ++ '-' :: "2".toList) 0
      = .ok (wrap (((digitsValue "10".toList : Int) - digitsValue "3".toList)
          - digitsValue "2".toList)) :=
  (Calc_minus_left_assoc (fun _ => 0) 0 "10".toList "3".toList "2".toList (by decide)
    (by decide) (by decide)).1

/-! ## The typed pop and the backtracking of the operand rules -/

theorem ReturnToken_succ (t : Tokens) :
    Tokens.ReturnToken { t with index := t.index + 1 } = t := by
  cases t
  simp [Tokens.ReturnToken]

theorem GetToken_next (t : Tokens) (tok : Token) (hi0 : 0 ≤ t.index)
    (hlt : t.index < t.total) (hget : t.tokens.get? t.index.toNat = some tok) :
    t.GetToken = .ok (.ok tok, { t with index := t.index + 1 }) := by
  have h0 : ¬ t.index < 0 := by omega
  simp only [Tokens.GetToken, hlt, if_true, Tokens.at, h0, if_false, hget, bind, Except.bind,
    pure, Except.pure]

theorem GetToken_exhausted (t : Tokens) (h : ¬ t.index < t.total) :
    t.GetToken = .ok (.error .ErrorNoMoreTokens, t) := by
  simp only [Tokens.GetToken, h, if_false, pure, Except.pure]

/-- C14, the counterexample: on a cursor whose next token is `,`, popping a token
of kind comma neither returns a value nor an error: it panics, a comma has no
numeric value. -/
theorem GetTokenOfType_comma_panics :
    Token.GetType [','] = .ok TokenTypeComma ∧
    (NewTokens [[',']]).GetTokenOfType TokenTypeComma
      = .error (.panic "this token has no value: ,") := by
  decide

/-- C14 as amended: on a cursor whose next token `tok` has the kind `ty`,
`GetTokenOfType k` returns `ErrorUnexpectedToken` and leaves the cursor unchanged
when `ty` is not `k`; when `ty` is `k` it advances the index by one and returns the
numeric value of `tok`, which an operator always has and an integer literal has
when it fits `int`, and it panics when `k` is one of the four kinds without a
numeric value.  On an exhausted cursor it returns `ErrorNoMoreTokens` and leaves
the cursor unchanged. -/
theorem GetTokenOfType_spec (t : Tokens) (k : Int) :
    (∀ (tok : Token) (ty : Int), 0 ≤ t.index → t.index < t.total →
      t.tokens.get? t.index.toNat = some tok → tok.GetType = .ok ty →
      (ty ≠ k → t.GetTokenOfType k = .ok (.error .ErrorUnexpectedToken, t)) ∧
      (ty = k → ∀ v, tok.GetValue = .ok v →
        t.GetTokenOfType k = .ok (.ok v, { t with index := t.index + 1 })) ∧
      (ty = TokenTypeOperator → ∃ v, tok.GetValue = .ok v) ∧
      (ty = TokenTypeOperand → ∀ v, Atoi tok = some v → tok.GetValue = .ok v) ∧
      (ty = k → (k = TokenTypeQuoteLeft ∨ k = TokenTypeQuoteRight ∨ k = TokenTypeComma ∨
          k = TokenTypeIdentifier) →
        t.GetTokenOfType k
          = .error (.panic ("this token has no value: " ++ String.mk tok))))
    ∧ (¬ t.index < t.total →
        t.GetTokenOfType k = .ok (.error .ErrorNoMoreTokens, t)) := by
  refine ⟨?_, ?_⟩
  · intro tok ty hi0 hlt hget hty
    have hg := GetToken_next t tok hi0 hlt hget
    refine ⟨?_, ?_, ?_, ?_, ?_⟩
    · intro hne
      simp only [Tokens.GetTokenOfType, hg, hty, bind, Except.bind, ne_eq, hne,
        not_false_eq_true, if_true, pure, Except.pure, ReturnToken_succ]
    · intro heq v hv
      simp only [Tokens.GetTokenOfType, hg, hty, bind, Except.bind, ne_eq, heq,
        not_true_eq_false, if_false, hv, pure, Except.pure]
    · intro heq
      subst heq
      simp only [Token.GetValue, hty, bind, Except.bind, if_true]
      split
      · exact ⟨_, rfl⟩
      · split
        · exact ⟨_, rfl⟩
        · split
          · exact ⟨_, rfl⟩
          · split
            · exact ⟨_, rfl⟩
            · rename_i h1 h2 h3 h4
              exfalso
              simp only [Token.GetType] at hty
              split at hty
              · tauto
              · repeat (first | (split at hty) | (simp [TokenTypeOperator, TokenTypeQuoteLeft,
                  TokenTypeQuoteRight, TokenTypeComma, TokenTypeIdentifier,
                  TokenTypeOperand] at hty))
    · intro heq v hv
      subst heq
      have h1 : (TokenTypeOperand = TokenTypeOperator) = False := by decide
      simp only [Token.GetValue, hty, bind, Except.bind, h1, if_false, if_true, hv, pure,
        Except.pure]
    · intro heq hk
      subst heq
      have h1 : ty ≠ TokenTypeOperator := by
        rcases hk with h | h | h | h <;> rw [h] <;> decide
      have h2 : ty ≠ TokenTypeOperand := by
        rcases hk with h | h | h | h <;> rw [h] <;> decide
      simp only [Tokens.GetTokenOfType, hg, hty, bind, Except.bind, ne_eq, not_true_eq_false,
        if_false, Token.GetValue, h1, h2, throw, throwThe, MonadExceptOf.throw]
  · intro h
    simp only [Tokens.GetTokenOfType, GetToken_exhausted t h, bind, Except.bind, pure,
      Except.pure]

/-- Witness of the amended C14 on the cursor over the tokens of `+1`, popped
as an operator. -/
theorem GetTokenOfType_spec_witness :
    (NewTokens [['+'], ['1']]).GetTokenOfType TokenTypeOperator
      = .ok (.ok OpAdd, { NewTokens [['+'], ['1']] with index := 0 + 1 }) :=
  ((GetTokenOfType_spec (NewTokens [['+'], ['1']]) TokenTypeOperator).1 ['+']
    TokenTypeOperator (by decide) (by decide) (by decide) (by decide)).2.1 rfl OpAdd
    (by decide)

theorem errorAndIndex_some {α : Type} {res : Except Abort (Except Error α × Tokens)}
    {e : Error} {i : Int} (h : errorAndIndex res = .ok (some e, i)) :
    ∃ c, res = .ok (.error e, c) ∧ c.index = i := by
  cases res with
  | error a => simp [errorAndIndex] at h
  | ok p =>
    obtain ⟨r, c⟩ := p
    cases r with
    | error e' =>
      simp only [errorAndIndex, Except.ok.injEq, Prod.mk.injEq, Option.some.injEq] at h
      exact ⟨c, by rw [h.1], h.2⟩
    | ok x => simp [errorAndIndex] at h

/-- C16, the failing input: on the tokens of `(1`, entered at index 0,
`GetQuotedOperand` returns the error of a missing `)` and leaves the cursor at
index 2, not at the index 0 it stored on entry: the deferred restore tests an
`err` that is never set. -/
theorem GetQuotedOperand_keeps_advance :
    (NewTokens [['('], ['1']]).GetIndex = 0 ∧
    errorAndIndex (GetQuotedOperand 5 (NewTokens [['('], ['1']]))
      = .ok (some (.New "syntax error, expected token ')', but no more token"), 2) := by
  decide!

/-- C17: whenever `GetFunctionCallOperand` returns an error, whatever the fuel and
the cursor it was entered with, the index of the cursor it leaves is the index on
entry. -/
theorem GetFunctionCallOperand_restores (n : Nat) (t c : Tokens) (e : Error)
    (h : GetFunctionCallOperand n t = .ok (.error e, c)) : c.index = t.index := by
  cases n with
  | zero => simp [GetFunctionCallOperand, throw, throwThe, MonadExceptOf.throw] at h
  | succ n =>
    rw [GetFunctionCallOperand] at h
    cases hg : t.GetToken with
    | error e => simp [hg, bind, Except.bind] at h
    | ok p =>
      obtain ⟨r1, c1⟩ := p
      simp only [hg, bind, Except.bind] at h
      cases r1 with
      | error e =>
        simp only [pure, Except.pure, Except.ok.injEq, Prod.mk.injEq] at h
        rw [← h.2]; rfl
      | ok tok =>
        simp only at h
        cases hty : tok.GetType with
        | error e => simp [hty] at h
        | ok ty =>
          simp only [hty] at h
          split at h
          · cases hg2 : c1.GetToken with
            | error e => simp [hg2] at h
            | ok p2 =>
              obtain ⟨r2, c2⟩ := p2
              simp only [hg2] at h
              cases r2 with
              | error e =>
                simp only [pure, Except.pure, Except.ok.injEq, Prod.mk.injEq] at h
                rw [← h.2]; rfl
              | ok tok2 =>
                simp only at h
                cases hty2 : tok2.GetType with
                | error e => simp [hty2] at h
                | ok ty2 =>
                  simp only [hty2] at h
                  split at h
                  · simp only [pure, Except.pure, Except.ok.injEq, Prod.mk.injEq] at h
                    rw [← h.2]; rfl
                  · cases ha : GetArgumentList n c2 with
                    | error e => simp [ha] at h
                    | ok p3 =>
                      obtain ⟨r3, c3⟩ := p3
                      simp only [ha] at h
                      cases r3 with
                      | error e =>
                        simp only [pure, Except.pure, Except.ok.injEq, Prod.mk.injEq] at h
                        rw [← h.2]; rfl
                      | ok args =>
                        simp only at h
                        cases hg3 : c3.GetToken with
                        | error e => simp [hg3] at h
                        | ok p4 =>
                          obtain ⟨r4, c4⟩ := p4
                          simp only [hg3] at h
                          cases r4 with
                          | error e =>
                            simp only [pure, Except.pure, Except.ok.injEq,
                              Prod.mk.injEq] at h
                            rw [← h.2]; rfl
                          | ok tok3 =>
                            simp only at h
                            cases hty3 : tok3.GetType with
                            | error e => simp [hty3] at h
                            | ok ty3 =>
                              simp only [hty3] at h
                              split at h
                              · simp only [pure, Except.pure, Except.ok.injEq,
                                  Prod.mk.injEq] at h
                                rw [← h.2]; rfl
                              · simp [pure, Except.pure] at h
          · simp only [pure, Except.pure, Except.ok.injEq, Prod.mk.injEq] at h
            rw [← h.2]; rfl

/-- Witness of C17 on the tokens of `1+f(2`, entered at the identifier: the argument
list ends the input and the cursor is back at index 2. -/
theorem GetFunctionCallOperand_restores_witness :
    ∃ c, GetFunctionCallOperand 9 (cursorAt [['1'], ['+'], ['f'], ['('], ['2']] 2)
        = .ok (.error (.New "syntax error, expected token ',' or ')'"), c) ∧
      c.index = (cursorAt [['1'], ['+'], ['f'], ['('], ['2']] 2).index := by
  obtain ⟨c, hc, _⟩ := errorAndIndex_some
    (by decide! : errorAndIndex
      (GetFunctionCallOperand 9 (cursorAt [['1'], ['+'], ['f'], ['('], ['2']] 2))
        = .ok (some (.New "syntax error, expected token ',' or ')'"), 2))
  exact ⟨c, hc, GetFunctionCallOperand_restores _ _ _ _ hc⟩

/-! ## The tokenizer reads back tokens written with single spaces -/

theorem takeWhile_append_stop (p : Char → Bool) (ds rest : List Char)
    (hd : ∀ c ∈ ds, p c = true) (hr : ∀ c, rest.head? = some c → p c = false) :
    (ds ++ rest).takeWhile p = ds := by
  induction ds with
  | nil =>
    cases rest with
    | nil => rfl
    | cons c cs => simp [List.takeWhile_cons, hr c rfl]
  | cons d ds ih =>
    simp only [List.cons_append, List.takeWhile_cons, hd d (List.mem_cons_self _ _), if_true]
    rw [ih (fun c hc => hd c (List.mem_cons_of_mem _ hc))]

theorem isPlainToken_ne_nil (t : Token) (h : isPlainToken t = true) : t ≠ [] := by
  intro h0
  subst h0
  simp [isPlainToken, isIdentifierToken, isPunctToken] at h

theorem isPlainToken_ne_quote (t : Token) (h : isPlainToken t = true) : t ≠ [quoteChar] := by
  intro h0
  subst h0
  revert h
  decide

/-- The next match of the tokenizer pattern in a plain token followed by a space
or by the end of the text is the token. -/
theorem FindStringIndex_plain (tok rest : List Char) (h : isPlainToken tok = true)
    (hr : ∀ c, rest.head? = some c → c = ' ') :
    FindStringIndex (tok ++ rest) = some (0, tok.length) := by
  simp only [isPlainToken, Bool.or_eq_true, Bool.and_eq_true, Bool.not_eq_true'] at h
  rcases h with (h | h) | h
  · cases tok with
    | nil => simp [isIdentifierToken] at h
    | cons c cs =>
      simp only [isIdentifierToken, Bool.and_eq_true, List.all_eq_true] at h
      have ht := takeWhile_append_stop isWord cs rest h.2
        (fun c hc => by rw [hr c hc]; decide)
      simp only [List.cons_append, FindStringIndex, h.1, if_true, List.length_cons,
        Nat.add_comm]
      rw [show cs.append rest = cs ++ rest from rfl, ht]
  · refine FindStringIndex_digits tok rest ?_ ?_ ?_
    · intro h0
      rw [h0] at h
      simp at h
    · exact List.all_eq_true.1 h.2
    · intro c hc
      rw [hr c hc]
      decide
  · simp only [isPunctToken, Bool.or_eq_true, decide_eq_true_eq] at h
    rcases h with (((((h | h) | h) | h) | h) | h) | h <;> subst h <;>
      exact FindStringIndex_punct _ rest (by decide) (by decide) (by decide)

theorem FindStringIndex_space (l : List Char) (a b : Nat)
    (h : FindStringIndex l = some (a, b)) :
    FindStringIndex (' ' :: l) = some (a + 1, b + 1) := by
  have h1 : isLetter ' ' = false := by decide
  have h2 : isDigit ' ' = false := by decide
  have h3 : isPunct ' ' = false := by decide
  simp only [FindStringIndex, h1, h2, h3, Bool.false_eq_true, if_false, h]

/-- One iteration of the loop of `Tokenize` at the plain token `tok`, with or
without a space before it. -/
theorem TokenizeLoop_plain (expression pre sp tok rest : List Char) (g : Nat)
    (result : List Token) (he : expression = pre ++ sp ++ tok ++ rest)
    (hsp : sp = [] ∨ sp = [' ']) (h : isPlainToken tok = true)
    (hr : ∀ c, rest.head? = some c → c = ' ') :
    TokenizeLoop expression (g + 1) pre.length result
      = TokenizeLoop expression g (pre ++ sp ++ tok).length (result ++ [tok]) := by
  have hf := FindStringIndex_plain tok rest h hr
  have hne := isPlainToken_ne_nil tok h
  have hq := isPlainToken_ne_quote tok h
  rcases hsp with hsp | hsp
  · subst hsp
    rw [List.append_nil] at he ⊢
    rw [List.length_append]
    exact TokenizeLoop_step expression pre tok rest g result he hf hne hq
  · subst hsp
    have hdrop : expression.drop pre.length = ' ' :: (tok ++ rest) := by
      rw [he]
      simp only [List.append_assoc, List.drop_left, List.singleton_append, List.cons_append,
        List.nil_append]
    have hslice : slice expression (0 + 1 + pre.length) (tok.length + 1 + pre.length) = tok := by
      rw [he]
      simp only [slice, Nat.zero_add]
      have h1 : tok.length + 1 + pre.length = (pre ++ [' '] ++ tok).length := by
        simp only [List.length_append, List.length_singleton]
        omega
      have h2 : 1 + pre.length = (pre ++ [' ']).length := by
        simp only [List.length_append, List.length_singleton]
        omega
      rw [h1, List.take_left, h2, List.drop_left]
    have hlen : pre.length < expression.length := by
      rw [he]
      simp only [List.length_append, List.length_singleton]
      omega
    have hstep := TokenizeLoop_token expression g pre.length (0 + 1) (tok.length + 1) result
      hlen (by rw [hdrop]; exact FindStringIndex_space _ _ _ hf) (by rw [hslice]; exact hq)
    rw [hstep, hslice]
    congr 1
    simp only [List.length_append, List.length_singleton]
    omega

/-- The loop of `Tokenize` over tokens written with single spaces, entered at the
first of them or at the space before it. -/
theorem TokenizeLoop_joinSpaces (expression : List Char) (ts : List Token)
    (hts : ∀ t ∈ ts, isPlainToken t = true) :
    ∀ (pre sp : List Char) (result : List Token) (g : Nat),
      expression = pre ++ sp ++ joinSpaces ts → (sp = [] ∨ sp = [' ']) → ts.length + 1 ≤ g →
      TokenizeLoop expression g pre.length result = .ok (result ++ ts) := by
  induction ts with
  | nil =>
    intro pre sp result g he hsp hg
    obtain ⟨g, rfl⟩ : ∃ g', g = g' + 1 := ⟨g - 1, by omega⟩
    rw [List.append_nil]
    apply TokenizeLoop_end
    rcases hsp with hsp | hsp
    · left
      rw [he, hsp]
      simp [joinSpaces]
    · right
      rw [he, hsp]
      simp only [joinSpaces, List.append_nil, List.drop_left]
      decide
  | cons t rest ih =>
    intro pre sp result g he hsp hg
    obtain ⟨g, rfl⟩ : ∃ g', g = g' + 1 := ⟨g - 1, by simp only [List.length_cons] at hg; omega⟩
    have ht := hts t (List.mem_cons_self _ _)
    have hrest : ∀ x ∈ rest, isPlainToken x = true :=
      fun x hx => hts x (List.mem_cons_of_mem _ hx)
    cases rest with
    | nil =>
      have he' : expression = pre ++ sp ++ t ++ [] := by
        rw [he]; simp [joinSpaces]
      rw [TokenizeLoop_plain expression pre sp t [] g result he' hsp ht (by simp)]
      have := ih hrest (pre ++ sp ++ t) [] (result ++ [t]) g
        (by rw [he']; simp [joinSpaces]) (Or.inl rfl)
        (by simp only [List.length_cons, List.length_nil] at hg ⊢; omega)
      rw [this]
      simp
    | cons t' rest' =>
      have he' : expression = pre ++ sp ++ t ++ (' ' :: joinSpaces (t' :: rest')) := by
        rw [he]; simp [joinSpaces]
      rw [TokenizeLoop_plain expression pre sp t _ g result he' hsp ht
        (by intro c hc; simp only [List.head?_cons, Option.some.injEq] at hc; exact hc.symm)]
      have := ih hrest (pre ++ sp ++ t) [' '] (result ++ [t]) g
        (by rw [he']; simp) (Or.inr rfl)
        (by simp only [List.length_cons] at hg ⊢; omega)
      rw [this]
      simp

theorem length_le_joinSpaces (ts : List Token) (hts : ∀ t ∈ ts, isPlainToken t = true) :
    ts.length ≤ (joinSpaces ts).length := by
  induction ts with
  | nil => simp
  | cons t rest ih =>
    have ht := isPlainToken_ne_nil t (hts t (List.mem_cons_self _ _))
    have hl : 1 ≤ t.length := by
      cases t with
      | nil => exact absurd rfl ht
      | cons c cs => simp
    have hrest := ih (fun x hx => hts x (List.mem_cons_of_mem _ hx))
    cases rest with
    | nil => simpa [joinSpaces] using hl
    | cons t' rest' =>
      simp only [joinSpaces, List.length_append, List.length_cons] at hrest ⊢
      omega

/-- C11: for every list `ts` of tokens each of which is an identifier, a
non-empty run of digits or one of `+ - * / ( ) ,`, `Tokenize` applied to the
tokens joined by single spaces returns the cursor over exactly `ts`. -/
theorem Tokenize_joinSpaces (ts : List Token) (hts : ∀ t ∈ ts, isPlainToken t = true) :
    Tokenize (joinSpaces ts) = .ok (NewTokens ts) := by
  have h := TokenizeLoop_joinSpaces (joinSpaces ts) ts hts [] [] []
    ((joinSpaces ts).length + 1) rfl (Or.inl rfl)
    (by have := length_le_joinSpaces ts hts; omega)
  rw [Tokenize_eq]
  simp only [List.length_nil, List.nil_append] at h
  rw [h]
  rfl

/-- Witness of C11 on the tokens `max`, `(`, `12`, `,`, `x_1`, `)`, `*`, `3`. -/
theorem Tokenize_joinSpaces_witness :
    Tokenize ("max ( 12 , x_1 ) * 3").toList
      = .ok (NewTokens ["max".toList, ['('], "12".toList, [','], "x_1".toList, [')'], ['*'],
          ['3']]) :=
  Tokenize_joinSpaces ["max".toList, ['('], "12".toList, [','], "x_1".toList, [')'], ['*'],
    ['3']] (by decide)

/-! ## The outcomes of the parser rules -/

theorem fold_snoc (s : SumT) (hs : s.WF) (op : Int)
    (hop : op = OpAdd ∨ op = OpSub ∨ op = OpMul ∨ op = OpDiv) (x : Operator) :
    fold s.tree op x = .ok (s.snoc op x).tree := by
  cases s with
  | prod p =>
    by_cases h : op = OpMul ∨ op = OpDiv
    · simp only [SumT.snoc, h, if_true, SumT.tree, ProdT.tree]
      exact fold_prod p hs op x
    · simp only [SumT.snoc, h, if_false, SumT.tree, ProdT.tree]
      exact fold_prod p hs op x
  | add l a p =>
    by_cases h : op = OpMul ∨ op = OpDiv
    · simp only [SumT.snoc, h, if_true]
      exact fold_sum_mul l a hs.2.1 p hs.2.2 op h x
    · simp only [SumT.snoc, h, if_false]
      have hop' : op = OpAdd ∨ op = OpSub := by tauto
      exact fold_sum_add (.add l a p) hs op hop' x

theorem SumT.snoc_atoms (P : Operator → Prop) (s : SumT) (hs : s.Atoms P) (op : Int)
    (x : Operator) (hx : P x) : (s.snoc op x).Atoms P := by
  cases s with
  | prod p =>
    by_cases h : op = OpMul ∨ op = OpDiv
    · simp only [SumT.snoc, h, if_true, SumT.Atoms, ProdT.Atoms]
      exact ⟨hs, hx⟩
    · simp only [SumT.snoc, h, if_false, SumT.Atoms, ProdT.Atoms]
      exact ⟨hs, hx⟩
  | add l a p =>
    by_cases h : op = OpMul ∨ op = OpDiv
    · simp only [SumT.snoc, h, if_true, SumT.Atoms, ProdT.Atoms]
      exact ⟨hs.1, hs.2, hx⟩
    · simp only [SumT.snoc, h, if_false, SumT.Atoms, ProdT.Atoms]
      exact ⟨hs, hx⟩

theorem ProdT.built_prod_tree (p : ProdT) (hp : p.WF) (ha : p.Atoms Built) : Built p.tree := by
  induction p with
  | atom x => exact ha
  | mul l op x ih =>
    exact Built.binary op l.tree x (by have := hp.2.1; tauto) (ih hp.1 ha.1) ha.2

theorem SumT.built_sum_tree (s : SumT) (hs : s.WF) (ha : s.Atoms Built) : Built s.tree := by
  induction s with
  | prod p => exact p.built_prod_tree hs ha
  | add l op p ih =>
    exact Built.binary op l.tree p.tree (by have := hs.2.1; tauto) (ih hs.1 ha.1)
      (p.built_prod_tree hs.2.2 ha.2)

theorem Built_of_Folded {x : Operator} (h : Folded x) : Built x := by
  obtain ⟨s, hs, ha, rfl⟩ := h
  exact s.built_sum_tree hs ha

theorem Folded_of_operand {x : Operator} (hl : x.Leaf = true) (hb : Built x) : Folded x :=
  ⟨.prod (.atom x), hl, hb, rfl⟩

theorem Folded_fold {root x : Operator} {op : Int} (hr : Folded root)
    (hop : op = OpAdd ∨ op = OpSub ∨ op = OpMul ∨ op = OpDiv) (hl : x.Leaf = true)
    (hb : Built x) : ∃ root', fold root op x = .ok root' ∧ Folded root' := by
  obtain ⟨s, hs, ha, rfl⟩ := hr
  exact ⟨_, fold_snoc s hs op hop x,
    s.snoc op x, (s.snoc_spec hs op hop x hl).1, s.snoc_atoms Built ha op x hb, rfl⟩

theorem GetType_abort {tok : Token} {a : Abort} (h : tok.GetType = .error a) :
    a = .panic "unknown token type" ∧ tok.sound = false := by
  refine ⟨?_, by simp [Token.sound, h]⟩
  unfold Token.GetType at h
  split_ifs at h
  simp only [Except.error.injEq] at h
  exact h.symm

theorem GetValue_abort {tok : Token} {a : Abort} (h : tok.GetValue = .error a) :
    ∃ msg, a = .panic msg := by
  unfold Token.GetValue at h
  cases hty : tok.GetType with
  | error e =>
    simp only [hty, bind, Except.bind, Except.error.injEq] at h
    exact ⟨_, h ▸ (GetType_abort hty).1⟩
  | ok ty =>
    simp only [hty, bind, Except.bind] at h
    split_ifs at h
    all_goals first
      | (simp only [throw, throwThe, MonadExceptOf.throw, Except.error.injEq] at h
         exact ⟨_, h.symm⟩)
      | (cases hat : Atoi tok with
         | none =>
           simp only [hat, throw, throwThe, MonadExceptOf.throw, Except.error.injEq] at h
           exact ⟨_, h.symm⟩
         | some v => simp [hat, pure, Except.pure] at h)
      | (simp [pure, Except.pure] at h)

theorem sound_of_value_abort {tok : Token} {a : Abort}
    (hty : tok.GetType = .ok TokenTypeOperand) (h : tok.GetValue = .error a) :
    tok.sound = false := by
  simp [Token.sound, hty, h]

theorem isOperatorToken_of_type {tok : Token} (h : tok.GetType = .ok TokenTypeOperator) :
    isOperatorToken tok = true := by
  unfold Token.GetType at h
  split_ifs at h with h1
  · simp only [isOperatorToken, Bool.or_eq_true, decide_eq_true_eq]
    tauto
  all_goals (simp only [Except.ok.injEq] at h; exact absurd h (by decide))

theorem tokens_cases (ts : List Token) (i : Nat) (hi : i ≤ ts.length) :
    (ts.drop i = [] ∧ i = ts.length) ∨
      ∃ tok rest, ts.drop i = tok :: rest ∧ i < ts.length ∧ tok ∈ ts ∧ ts.get? i = some tok := by
  cases hd : ts.drop i with
  | nil => exact Or.inl ⟨rfl, le_antisymm hi (drop_nil_length hd)⟩
  | cons tok rest =>
    obtain ⟨hg, _, hlt⟩ := drop_cons_get hd
    exact Or.inr ⟨tok, rest, rfl, hlt, List.mem_of_mem_drop (by rw [hd]; simp), hg⟩

theorem Classified.refl (ts : List Token) (i : Nat) : Classified ts i i := by
  intro k h1 h2
  omega

theorem Classified.trans {ts : List Token} {i j k : Nat} (h1 : Classified ts i j)
    (h2 : Classified ts j k) : Classified ts i k := by
  intro m hm1 hm2
  by_cases h : m < j
  · exact h1 m hm1 h
  · exact h2 m (by omega) hm2

theorem Classified.snoc {ts : List Token} {i j : Nat} {tok : Token} {ty : Int}
    (h : Classified ts i j) (hg : ts.get? j = some tok) (hty : tok.GetType = .ok ty) :
    Classified ts i (j + 1) := by
  intro m hm1 hm2
  by_cases hm : m < j
  · exact h m hm1 hm
  · have : m = j := by omega
    subst this
    exact ⟨tok, ty, hg, hty⟩

theorem Classified.shrink {ts : List Token} {i j k : Nat} (h : Classified ts i k)
    (hjk : j ≤ k) : Classified ts i j :=
  fun m h1 h2 => h m h1 (by omega)

theorem Outcome.abort {α β : Type} {ts : List Token} {n b i n' b' i' : Nat}
    {G : α → Nat → Prop} {B : Nat → Prop} {G' : β → Nat → Prop} {B' : Nat → Prop}
    {a : Abort} (h : Outcome ts n' b' i' G' B' (.error a)) (hf : n' < b' → n < b) :
    Outcome ts n b i G B (.error a) := by
  cases a with
  | panic msg => exact h
  | fuel => exact hf h

theorem Outcome.weaken {α : Type} {ts : List Token} {n b i n' b' i' : Nat}
    {G G' : α → Nat → Prop} {B B' : Nat → Prop}
    {res : Except Abort (Except Error α × Tokens)} (h : Outcome ts n' b' i' G' B' res)
    (hcl : Classified ts i i') (hf : n' < b' → n < b) (hG : ∀ x j, G' x j → G x j)
    (hB : ∀ j, B' j → B j) : Outcome ts n b i G B res := by
  cases res with
  | error a => exact Outcome.abort h hf
  | ok p =>
    obtain ⟨r, c⟩ := p
    cases r with
    | error e =>
      obtain ⟨j, hc, hj, hc2, hb⟩ := h
      exact ⟨j, hc, hj, hcl.trans hc2, hB j hb⟩
    | ok x =>
      obtain ⟨j, hc, hj, hc2, hg⟩ := h
      exact ⟨j, hc, hj, hcl.trans hc2, hG x j hg⟩

theorem Outcome.panic {α : Type} {ts : List Token} {n b i : Nat} {G : α → Nat → Prop}
    {B : Nat → Prop} {tok : Token} {a : Abort} (hm : tok ∈ ts) (hs : tok.sound = false)
    (ha : ∃ msg, a = .panic msg) : Outcome ts n b i G B (.error a) := by
  obtain ⟨msg, rfl⟩ := ha
  exact ⟨tok, hm, hs⟩

/-! ## Every rule ends in one of its outcomes -/

theorem Leaf_setLeaf (x : Operator) (b : Bool) : (x.setLeaf b).Leaf = b := by
  cases x; rfl

/-- The three ways `GetTokenOfType(TokenTypeOperator)` ends on a cursor inside the
tokens. -/
theorem GetTokenOfType_cursorAt_cases (ts : List Token) (i : Nat) (hi : i ≤ ts.length) :
    (∃ e, (cursorAt ts i).GetTokenOfType TokenTypeOperator
        = .ok (.error e, cursorAt ts i)) ∨
    (∃ tok v, ts.get? i = some tok ∧ i < ts.length ∧ tok.GetType = .ok TokenTypeOperator ∧
        (v = OpAdd ∨ v = OpSub ∨ v = OpMul ∨ v = OpDiv) ∧
        (cursorAt ts i).GetTokenOfType TokenTypeOperator
          = .ok (.ok v, cursorAt ts (i + 1))) ∨
    (∃ tok a, tok ∈ ts ∧ tok.sound = false ∧ (∃ msg, a = Abort.panic msg) ∧
        (cursorAt ts i).GetTokenOfType TokenTypeOperator = .error a) := by
  rcases tokens_cases ts i hi with ⟨hd, _⟩ | ⟨tok, rest, hd, hlt, hm, hg⟩
  · left
    exact ⟨.ErrorNoMoreTokens, by
      simp [Tokens.GetTokenOfType, GetToken_cursorAt_end hd, bind, Except.bind, pure,
        Except.pure]⟩
  · cases hty : tok.GetType with
    | error a =>
      right; right
      exact ⟨tok, a, hm, (GetType_abort hty).2, ⟨_, (GetType_abort hty).1⟩, by
        simp [Tokens.GetTokenOfType, GetToken_cursorAt hd, hty, bind, Except.bind]⟩
    | ok ty =>
      by_cases hk : ty = TokenTypeOperator
      · subst hk
        obtain ⟨v, hv, hop⟩ := GetValue_operator tok (isOperatorToken_of_type hty)
        right; left
        exact ⟨tok, v, hg, hlt, hty, hop, by
          simp [Tokens.GetTokenOfType, GetToken_cursorAt hd, hty, hv, bind, Except.bind, pure,
            Except.pure]⟩
      · left
        exact ⟨.ErrorUnexpectedToken, by
          simp [Tokens.GetTokenOfType, GetToken_cursorAt hd, hty, hk, bind, Except.bind, pure,
            Except.pure, ReturnToken_cursorAt]⟩

theorem sem_loop {n : Nat} (ih : Sem n) (ts : List Token) (i : Nat) (root : Operator)
    (hi : i ≤ ts.length) (hr : Folded root) :
    Outcome ts (n + 1) (3 * (ts.length - i) + 1) i (fun x j => i ≤ j ∧ Folded x)
      (fun _ => False) (GetExpressionLoop (n + 1) root (cursorAt ts i)) := by
  rw [GetExpressionLoop]
  rcases GetTokenOfType_cursorAt_cases ts i hi with
    ⟨e, he⟩ | ⟨tok, v, hg, hlt, hty, hop, he⟩ | ⟨tok, a, hm, hs, ha, he⟩
  · simp only [he, bind, Except.bind, pure, Except.pure]
    exact ⟨i, rfl, hi, Classified.refl ts i, le_refl i, hr⟩
  · simp only [he, bind, Except.bind]
    have ho := ih.operand ts (i + 1) hlt
    have hci : Classified ts i (i + 1) := (Classified.refl ts i).snoc hg hty
    cases hres : GetOperand n (cursorAt ts (i + 1)) with
    | error a =>
      rw [hres] at ho
      exact Outcome.abort ho (by omega)
    | ok p =>
      obtain ⟨r, c⟩ := p
      rw [hres] at ho
      cases r with
      | error e =>
        obtain ⟨j, rfl, hj, -, -⟩ := ho
        simp only [pure, Except.pure, SetIndex_cursorAt]
        exact ⟨i, rfl, hi, Classified.refl ts i, le_refl i, hr⟩
      | ok x =>
        obtain ⟨j, rfl, hj, hcj, hij, hl, hb⟩ := ho
        obtain ⟨root', hf, hr'⟩ := Folded_fold hr hop hl hb
        simp only [hf]
        exact (ih.loop ts j root' hj hr').weaken (hci.trans hcj) (by omega)
          (fun x k hk => ⟨by omega, hk.2⟩) (fun _ h => h)
  · simp only [he, bind, Except.bind]
    exact Outcome.panic hm hs ha

theorem sem_expression {n : Nat} (ih : Sem n) (ts : List Token) (i : Nat)
    (hi : i ≤ ts.length) :
    Outcome ts (n + 1) (3 * (ts.length - i) + 2) i (fun x j => i + 1 ≤ j ∧ Folded x)
      (fun j => i ≤ j) (GetExpression (n + 1) (cursorAt ts i)) := by
  rw [GetExpression]
  have ho := ih.operand ts i hi
  cases hres : GetOperand n (cursorAt ts i) with
  | error a =>
    rw [hres] at ho
    exact Outcome.abort ho (by omega)
  | ok p =>
    obtain ⟨r, c⟩ := p
    rw [hres] at ho
    simp only [bind, Except.bind]
    cases r with
    | error e =>
      obtain ⟨j, rfl, hj, hcj, hij⟩ := ho
      exact ⟨j, rfl, hj, hcj, hij⟩
    | ok x =>
      obtain ⟨j, rfl, hj, hcj, hij, hl, hb⟩ := ho
      exact (ih.loop ts j x hj (Folded_of_operand hl hb)).weaken hcj (by omega)
        (fun x k hk => ⟨by omega, hk.2⟩) (fun _ h => h.elim)

theorem sem_operand {n : Nat} (ih : Sem n) (ts : List Token) (i : Nat)
    (hi : i ≤ ts.length) :
    Outcome ts (n + 1) (3 * (ts.length - i) + 1) i
      (fun x j => i + 1 ≤ j ∧ x.Leaf = true ∧ Built x) (fun j => i ≤ j)
      (GetOperand (n + 1) (cursorAt ts i)) := by
  rw [GetOperand]
  rcases tokens_cases ts i hi with ⟨hd, _⟩ | ⟨tok, rest, hd, hlt, hm, hg⟩
  · simp only [GetToken_cursorAt_end hd, bind, Except.bind, pure, Except.pure]
    exact ⟨i, rfl, hi, Classified.refl ts i, le_refl i⟩
  · simp only [GetToken_cursorAt hd, bind, Except.bind, ReturnToken_cursorAt]
    cases hty : tok.GetType with
    | error a => exact Outcome.panic hm (GetType_abort hty).2 ⟨_, (GetType_abort hty).1⟩
    | ok ty =>
      have hci : Classified ts i (i + 1) := (Classified.refl ts i).snoc hg hty
      by_cases h1 : ty = TokenTypeQuoteLeft
      · simp only [h1, if_true]
        exact (ih.quoted ts i hlt).weaken (Classified.refl ts i) (by omega)
          (fun x j h => h) (fun j h => h)
      · simp only [h1, if_false]
        by_cases h2 : ty = TokenTypeIdentifier
        · simp only [h2, if_true]
          exact (ih.call ts i hlt).weaken (Classified.refl ts i) (by omega)
            (fun x j h => h) (fun j h => le_of_eq h.symm)
        · simp only [h2, if_false]
          by_cases h3 : ty = TokenTypeOperand
          · subst h3
            simp only [if_true]
            cases hv : tok.GetValue with
            | error a =>
              exact Outcome.panic hm (sound_of_value_abort hty hv) (GetValue_abort hv)
            | ok v => exact ⟨i + 1, rfl, hlt, hci, le_refl _, rfl, Built.value v⟩
          · simp only [h3, if_false, pure, Except.pure]
            exact ⟨i, rfl, hi, Classified.refl ts i, le_refl i⟩

theorem sem_quoted {n : Nat} (ih : Sem n) (ts : List Token) (i : Nat)
    (hi : i < ts.length) :
    Outcome ts (n + 1) (3 * (ts.length - i)) i
      (fun x j => i + 1 ≤ j ∧ x.Leaf = true ∧ Built x) (fun j => i ≤ j)
      (GetQuotedOperand (n + 1) (cursorAt ts i)) := by
  rw [GetQuotedOperand]
  rcases tokens_cases ts i (le_of_lt hi) with ⟨hd, h0⟩ | ⟨tok, rest, hd, hlt, hm, hg⟩
  · omega
  · simp only [GetToken_cursorAt hd, bind, Except.bind, Option.isSome_none,
      Bool.false_eq_true, if_false]
    cases hty : tok.GetType with
    | error a => exact Outcome.panic hm (GetType_abort hty).2 ⟨_, (GetType_abort hty).1⟩
    | ok ty =>
      have hci : Classified ts i (i + 1) := (Classified.refl ts i).snoc hg hty
      by_cases h1 : ty = TokenTypeQuoteLeft
      · simp only [h1, if_true]
        have he := ih.expression ts (i + 1) hlt
        cases hres : GetExpression n (cursorAt ts (i + 1)) with
        | error a =>
          rw [hres] at he
          exact Outcome.abort he (by omega)
        | ok p =>
          obtain ⟨r, c⟩ := p
          rw [hres] at he
          cases r with
          | error e =>
            obtain ⟨j, rfl, hj, hcj, hij⟩ := he
            exact ⟨j, rfl, hj, hci.trans hcj, by omega⟩
          | ok x =>
            obtain ⟨j, rfl, hj, hcj, hij, hx⟩ := he
            rcases tokens_cases ts j hj with ⟨hd2, _⟩ | ⟨tok2, rest2, hd2, hlt2, hm2, hg2⟩
            · simp only [GetToken_cursorAt_end hd2, pure, Except.pure]
              exact ⟨j, rfl, hj, hci.trans hcj, by omega⟩
            · simp only [GetToken_cursorAt hd2]
              cases hty2 : tok2.GetType with
              | error a =>
                exact Outcome.panic hm2 (GetType_abort hty2).2 ⟨_, (GetType_abort hty2).1⟩
              | ok ty2 =>
                have hc2 := (hci.trans hcj).snoc hg2 hty2
                by_cases h2 : ty2 = TokenTypeQuoteRight
                · simp only [h2, ne_eq, not_true_eq_false, if_false, pure, Except.pure]
                  exact ⟨j + 1, rfl, hlt2, hc2, by omega, Leaf_setLeaf x true,
                    Built.paren x (Built_of_Folded hx)⟩
                · simp only [h2, ne_eq, not_false_eq_true, if_true, pure, Except.pure]
                  exact ⟨j + 1, rfl, hlt2, hc2, by omega⟩
      · simp only [h1, if_false, pure, Except.pure]
        exact ⟨i + 1, rfl, hlt, hci, by omega⟩

theorem sem_call {n : Nat} (ih : Sem n) (ts : List Token) (i : Nat)
    (hi : i < ts.length) :
    Outcome ts (n + 1) (3 * (ts.length - i)) i
      (fun x j => i + 1 ≤ j ∧ x.Leaf = true ∧ Built x) (fun j => j = i)
      (GetFunctionCallOperand (n + 1) (cursorAt ts i)) := by
  have hback : ∀ (e : Error) (j : Nat),
      Outcome ts (n + 1) (3 * (ts.length - i)) i
        (fun x j => i + 1 ≤ j ∧ x.Leaf = true ∧ Built x) (fun j => j = i)
        (.ok (.error e, (cursorAt ts j).SetIndex (cursorAt ts i).GetIndex)) := by
    intro e j
    rw [SetIndex_cursorAt]
    exact ⟨i, rfl, le_of_lt hi, Classified.refl ts i, rfl⟩
  rw [GetFunctionCallOperand]
  rcases tokens_cases ts i (le_of_lt hi) with ⟨hd, h0⟩ | ⟨tok, rest, hd, hlt, hm, hg⟩
  · omega
  · simp only [GetToken_cursorAt hd, bind, Except.bind]
    cases hty : tok.GetType with
    | error a => exact Outcome.panic hm (GetType_abort hty).2 ⟨_, (GetType_abort hty).1⟩
    | ok ty =>
      have hci : Classified ts i (i + 1) := (Classified.refl ts i).snoc hg hty
      by_cases h1 : ty = TokenTypeIdentifier
      · simp only [h1, if_true]
        rcases tokens_cases ts (i + 1) hlt with ⟨hd2, _⟩ | ⟨tok2, rest2, hd2, hlt2, hm2, hg2⟩
        · simp only [GetToken_cursorAt_end hd2, pure, Except.pure]
          exact hback _ _
        · simp only [GetToken_cursorAt hd2]
          cases hty2 : tok2.GetType with
          | error a =>
            exact Outcome.panic hm2 (GetType_abort hty2).2 ⟨_, (GetType_abort hty2).1⟩
          | ok ty2 =>
            have hc2 := hci.snoc hg2 hty2
            by_cases h2 : ty2 = TokenTypeQuoteLeft
            · simp only [h2, ne_eq, not_true_eq_false, if_false]
              have ha := ih.arguments ts (i + 1 + 1) hlt2
              cases hres : GetArgumentList n (cursorAt ts (i + 1 + 1)) with
              | error a =>
                rw [hres] at ha
                exact Outcome.abort ha (by omega)
              | ok p =>
                obtain ⟨r, c⟩ := p
                rw [hres] at ha
                cases r with
                | error e =>
                  obtain ⟨j, rfl, hj, hcj, hij⟩ := ha
                  exact hback _ _
                | ok args =>
                  obtain ⟨j, rfl, hj, hcj, hij, hargs⟩ := ha
                  rcases tokens_cases ts j hj with
                    ⟨hd3, _⟩ | ⟨tok3, rest3, hd3, hlt3, hm3, hg3⟩
                  · simp only [GetToken_cursorAt_end hd3, pure, Except.pure]
                    exact hback _ _
                  · simp only [GetToken_cursorAt hd3]
                    cases hty3 : tok3.GetType with
                    | error a =>
                      exact Outcome.panic hm3 (GetType_abort hty3).2
                        ⟨_, (GetType_abort hty3).1⟩
                    | ok ty3 =>
                      have hc3 := (hc2.trans hcj).snoc hg3 hty3
                      by_cases h3 : ty3 = TokenTypeQuoteRight
                      · simp only [h3, ne_eq, not_true_eq_false, if_false, pure,
                          Except.pure]
                        exact ⟨j + 1, rfl, hlt3, hc3, by omega, rfl,
                          Built.call tok args hargs⟩
                      · simp only [h3, ne_eq, not_false_eq_true, if_true, pure,
                          Except.pure]
                        exact hback _ _
            · simp only [h2, ne_eq, not_false_eq_true, if_true, pure, Except.pure]
              exact hback _ _
      · simp only [h1, if_false, pure, Except.pure]
        exact hback _ _

theorem sem_argumentsLoop {n : Nat} (ih : Sem n) (ts : List Token) (i : Nat)
    (args : List Operator) (hi : i ≤ ts.length) (hargs : ∀ a ∈ args, Built a) :
    Outcome ts (n + 1) (3 * (ts.length - i) + 3) i
      (fun args' j => i ≤ j ∧ ∀ a ∈ args', Built a) (fun j => i ≤ j)
      (GetArgumentListLoop (n + 1) args (cursorAt ts i)) := by
  rw [GetArgumentListLoop]
  have he := ih.expression ts i hi
  cases hres : GetExpression n (cursorAt ts i) with
  | error a =>
    rw [hres] at he
    exact Outcome.abort he (by omega)
  | ok p =>
    obtain ⟨r, c⟩ := p
    rw [hres] at he
    simp only [bind, Except.bind]
    cases r with
    | error e =>
      obtain ⟨j, rfl, hj, hcj, hij⟩ := he
      exact ⟨j, rfl, hj, hcj, hij, hargs⟩
    | ok x =>
      obtain ⟨j, rfl, hj, hcj, hij, hx⟩ := he
      have hargs' : ∀ a ∈ args ++ [x], Built a := by
        intro a ha
        rcases List.mem_append.1 ha with h | h
        · exact hargs a h
        · rw [List.mem_singleton.1 h]
          exact Built_of_Folded hx
      rcases tokens_cases ts j hj with ⟨hd2, _⟩ | ⟨tok2, rest2, hd2, hlt2, hm2, hg2⟩
      · simp only [GetToken_cursorAt_end hd2, pure, Except.pure]
        exact ⟨j, rfl, hj, hcj, by omega⟩
      · simp only [GetToken_cursorAt hd2]
        cases hty2 : tok2.GetType with
        | error a =>
          exact Outcome.panic hm2 (GetType_abort hty2).2 ⟨_, (GetType_abort hty2).1⟩
        | ok ty2 =>
          have hc2 := hcj.snoc hg2 hty2
          by_cases h2 : ty2 = TokenTypeComma
          · simp only [h2, if_true]
            exact (ih.argumentsLoop ts (j + 1) (args ++ [x]) hlt2 hargs').weaken hc2
              (by omega) (fun x k hk => ⟨by omega, hk.2⟩) (fun k hk => by omega)
          · simp only [h2, if_false, pure, Except.pure, ReturnToken_cursorAt]
            exact ⟨j, rfl, hj, hcj, by omega, hargs'⟩

theorem sem_arguments {n : Nat} (ih : Sem n) (ts : List Token) (i : Nat)
    (hi : i ≤ ts.length) :
    Outcome ts (n + 1) (3 * (ts.length - i) + 4) i
      (fun args j => i ≤ j ∧ ∀ a ∈ args, Built a) (fun j => i ≤ j)
      (GetArgumentList (n + 1) (cursorAt ts i)) := by
  rw [GetArgumentList]
  exact (ih.argumentsLoop ts i [] hi (fun a ha => absurd ha (List.not_mem_nil a))).weaken
    (Classified.refl ts i) (by omega) (fun x k hk => hk) (fun k hk => hk)

theorem sem_zero : Sem 0 := by
  refine ⟨?_, ?_, ?_, ?_, ?_, ?_, ?_⟩ <;> intros <;>
    simp only [GetExpression, GetOperand, GetQuotedOperand, GetFunctionCallOperand,
      GetArgumentList, GetArgumentListLoop, GetExpressionLoop, throw, throwThe,
      MonadExceptOf.throw, Outcome] <;> omega

/-- Whatever the fuel, every rule ends in one of its outcomes. -/
theorem sem : ∀ n, Sem n
  | 0 => sem_zero
  | n + 1 =>
    have ih := sem n
    ⟨sem_expression ih, sem_operand ih, sem_quoted ih, sem_call ih, sem_arguments ih,
      fun ts i args hi ha => sem_argumentsLoop ih ts i args hi ha,
      fun ts i root hi hr => sem_loop ih ts i root hi hr⟩

/-! ## The trees the rules return, with the record of their parentheses -/

theorem quoteLeft_of_type {tok : Token} (h : tok.GetType = .ok TokenTypeQuoteLeft) :
    tok = ['('] := by
  unfold Token.GetType at h
  split_ifs at h with h1 h2
  · exact absurd (Except.ok.inj h) (by decide)
  · exact h2
  all_goals (simp only [Except.ok.injEq] at h; exact absurd h (by decide))

theorem quoteRight_of_type {tok : Token} (h : tok.GetType = .ok TokenTypeQuoteRight) :
    tok = [')'] := by
  unfold Token.GetType at h
  split_ifs at h with h1 h2 h3
  · exact absurd (Except.ok.inj h) (by decide)
  · exact absurd (Except.ok.inj h) (by decide)
  · exact h3
  all_goals (simp only [Except.ok.injEq] at h; exact absurd h (by decide))

theorem SumT.snoc_tree_leaf (s : SumT) (op : Int) (x : Operator) :
    (s.snoc op x).tree.Leaf = false := by
  cases s with
  | prod p =>
    by_cases h : op = OpMul ∨ op = OpDiv <;> simp [SumT.snoc, h, SumT.tree, ProdT.tree] <;> rfl
  | add l a p =>
    by_cases h : op = OpMul ∨ op = OpDiv <;> simp [SumT.snoc, h, SumT.tree, ProdT.tree] <;> rfl

theorem FoldedBy_of_operand {P : Operator → Prop} {x : Operator} (hl : x.Leaf = true)
    (hp : P x) : FoldedBy (fun a => a.Leaf = true ∧ P a) x :=
  ⟨.prod (.atom x), hl, ⟨hl, hp⟩, rfl⟩

theorem FoldedBy_fold {P : Operator → Prop} {root x : Operator} {op : Int}
    (hr : FoldedBy (fun a => a.Leaf = true ∧ P a) root)
    (hop : op = OpAdd ∨ op = OpSub ∨ op = OpMul ∨ op = OpDiv) (hl : x.Leaf = true)
    (hp : P x) :
    ∃ root', fold root op x = .ok root' ∧ FoldedBy (fun a => a.Leaf = true ∧ P a) root' ∧
      root'.Leaf = false := by
  obtain ⟨s, hs, ha, rfl⟩ := hr
  exact ⟨_, fold_snoc s hs op hop x,
    ⟨s.snoc op x, (s.snoc_spec hs op hop x hl).1,
      s.snoc_atoms (fun a => a.Leaf = true ∧ P a) ha op x ⟨hl, hp⟩, rfl⟩,
    s.snoc_tree_leaf op x⟩

theorem ProdT.parsed_prod_tree (ts : List Token) (p : ProdT) (hp : p.WF)
    (ha : p.Atoms (fun a => a.Leaf = true ∧ Parsed ts a)) : Parsed ts p.tree := by
  induction p with
  | atom x => exact ha.2
  | mul l op x ih =>
    exact Parsed.binary op l.tree x (by have := hp.2.1; tauto) (ih hp.1 ha.1) ha.2.2

theorem SumT.parsed_sum_tree (ts : List Token) (s : SumT) (hs : s.WF)
    (ha : s.Atoms (fun a => a.Leaf = true ∧ Parsed ts a)) : Parsed ts s.tree := by
  induction s with
  | prod p => exact p.parsed_prod_tree ts hs ha
  | add l op p ih =>
    exact Parsed.binary op l.tree p.tree (by have := hs.2.1; tauto) (ih hs.1 ha.1)
      (p.parsed_prod_tree ts hs.2.2 ha.2)

theorem Parsed_of_FoldedBy {ts : List Token} {x : Operator}
    (h : FoldedBy (fun a => a.Leaf = true ∧ Parsed ts a) x) : Parsed ts x := by
  obtain ⟨s, hs, ha, rfl⟩ := h
  exact s.parsed_sum_tree ts hs ha

/-- A tree of a sum that is not leaf-like is a binary node made by `NewOperator`. -/
theorem FoldedBy_not_leaf {P : Operator → Prop} {x : Operator}
    (h : FoldedBy (fun a => a.Leaf = true ∧ P a) x) (hl : x.Leaf = false) :
    ∃ op l r, (op = OpAdd ∨ op = OpSub ∨ op = OpMul ∨ op = OpDiv) ∧
      x = NewOperator op (some l) (some r) := by
  obtain ⟨s, hs, ha, rfl⟩ := h
  cases s with
  | prod p =>
    cases p with
    | atom y =>
      have : y.Leaf = true := hs
      simp only [SumT.tree, ProdT.tree] at hl
      rw [this] at hl
      exact absurd hl (by decide)
    | mul l op y => exact ⟨op, l.tree, y, by have := hs.2.1; tauto, rfl⟩
  | add l op p => exact ⟨op, l.tree, p.tree, by have := hs.2.1; tauto, rfl⟩

theorem traced_quoted {ts : List Token} {n : Nat} (ih : Traced ts n) (i : Nat)
    (x : Operator) (c : Tokens) (hi : i < ts.length)
    (h : GetQuotedOperand (n + 1) (cursorAt ts i) = .ok (.ok x, c)) :
    x.Leaf = true ∧ Parsed ts x ∧ ParenthesizedAt ts i x c := by
  rw [GetQuotedOperand] at h
  rcases tokens_cases ts i (le_of_lt hi) with ⟨hd, h0⟩ | ⟨tok, rest, hd, hlt, hm, hg⟩
  · omega
  · simp only [GetToken_cursorAt hd, bind, Except.bind, Option.isSome_none,
      Bool.false_eq_true, if_false] at h
    cases hty : tok.GetType with
    | error a => simp [hty] at h
    | ok ty =>
      simp only [hty] at h
      by_cases h1 : ty = TokenTypeQuoteLeft
      · simp only [h1, if_true] at h
        have he := (sem n).expression ts (i + 1) hlt
        cases hres : GetExpression n (cursorAt ts (i + 1)) with
        | error a => simp [hres] at h
        | ok p =>
          obtain ⟨r, c'⟩ := p
          rw [hres] at he
          simp only [hres] at h
          cases r with
          | error e => simp [pure, Except.pure] at h
          | ok e =>
            obtain ⟨j, rfl, hj, -, -, -⟩ := he
            have hpe := Parsed_of_FoldedBy (ih.expression (i + 1) e _ hlt hres).1
            simp only at h
            rcases tokens_cases ts j hj with ⟨hd2, _⟩ | ⟨tok2, rest2, hd2, hlt2, hm2, hg2⟩
            · simp [GetToken_cursorAt_end hd2, pure, Except.pure] at h
            · simp only [GetToken_cursorAt hd2] at h
              cases hty2 : tok2.GetType with
              | error a => simp [hty2] at h
              | ok ty2 =>
                simp only [hty2] at h
                by_cases h2 : ty2 = TokenTypeQuoteRight
                · simp only [h2, ne_eq, not_true_eq_false, if_false, pure, Except.pure,
                    Except.ok.injEq, Prod.mk.injEq] at h
                  have hL : tok = ['('] := quoteLeft_of_type (h1 ▸ hty)
                  have hR : tok2 = [')'] := quoteRight_of_type (h2 ▸ hty2)
                  rw [hL] at hg
                  rw [hR] at hg2
                  obtain ⟨hx, hc⟩ := h
                  refine ⟨by rw [← hx]; exact Leaf_setLeaf e true, ?_, ?_⟩
                  · rw [← hx]
                    exact Parsed.paren e n i j hg hg2 hres hpe
                  · exact ⟨n, j, e, hg, hg2, hres, hc.symm, hx.symm⟩
                · simp [h2, pure, Except.pure] at h
      · simp [h1, pure, Except.pure] at h

theorem traced_call {ts : List Token} {n : Nat} (ih : Traced ts n) (i : Nat)
    (x : Operator) (c : Tokens) (hi : i < ts.length)
    (h : GetFunctionCallOperand (n + 1) (cursorAt ts i) = .ok (.ok x, c)) :
    x.Leaf = true ∧ Parsed ts x ∧ x.OpType = OpFunc := by
  rw [GetFunctionCallOperand] at h
  rcases tokens_cases ts i (le_of_lt hi) with ⟨hd, h0⟩ | ⟨tok, rest, hd, hlt, hm, hg⟩
  · omega
  · simp only [GetToken_cursorAt hd, bind, Except.bind] at h
    cases hty : tok.GetType with
    | error a => simp [hty] at h
    | ok ty =>
      simp only [hty] at h
      by_cases h1 : ty = TokenTypeIdentifier
      · simp only [h1, if_true] at h
        rcases tokens_cases ts (i + 1) hlt with ⟨hd2, _⟩ | ⟨tok2, rest2, hd2, hlt2, hm2, hg2⟩
        · simp [GetToken_cursorAt_end hd2, pure, Except.pure] at h
        · simp only [GetToken_cursorAt hd2] at h
          cases hty2 : tok2.GetType with
          | error a => simp [hty2] at h
          | ok ty2 =>
            simp only [hty2] at h
            by_cases h2 : ty2 = TokenTypeQuoteLeft
            · simp only [h2, ne_eq, not_true_eq_false, if_false] at h
              have ha := (sem n).arguments ts (i + 1 + 1) hlt2
              cases hres : GetArgumentList n (cursorAt ts (i + 1 + 1)) with
              | error a => simp [hres] at h
              | ok p =>
                obtain ⟨r, c'⟩ := p
                rw [hres] at ha
                simp only [hres] at h
                cases r with
                | error e => simp [pure, Except.pure] at h
                | ok args =>
                  obtain ⟨j, rfl, hj, -, -, -⟩ := ha
                  have hargs := ih.arguments (i + 1 + 1) args _ hlt2 hres
                  simp only at h
                  rcases tokens_cases ts j hj with
                    ⟨hd3, _⟩ | ⟨tok3, rest3, hd3, hlt3, hm3, hg3⟩
                  · simp [GetToken_cursorAt_end hd3, pure, Except.pure] at h
                  · simp only [GetToken_cursorAt hd3] at h
                    cases hty3 : tok3.GetType with
                    | error a => simp [hty3] at h
                    | ok ty3 =>
                      simp only [hty3] at h
                      by_cases h3 : ty3 = TokenTypeQuoteRight
                      · simp only [h3, ne_eq, not_true_eq_false, if_false, pure,
                          Except.pure, Except.ok.injEq, Prod.mk.injEq] at h
                        rw [← h.1]
                        exact ⟨rfl, Parsed.call tok args hargs, rfl⟩
                      · simp [h3, pure, Except.pure] at h
            · simp [h2, pure, Except.pure] at h
      · simp [h1, pure, Except.pure] at h

theorem traced_operand {ts : List Token} {n : Nat} (ih : Traced ts n) (i : Nat)
    (x : Operator) (c : Tokens) (hi : i ≤ ts.length)
    (h : GetOperand (n + 1) (cursorAt ts i) = .ok (.ok x, c)) :
    x.Leaf = true ∧ Parsed ts x ∧
      (x.OpType = OpVal ∨ x.OpType = OpFunc ∨ ParenthesizedAt ts i x c) := by
  rw [GetOperand] at h
  rcases tokens_cases ts i hi with ⟨hd, _⟩ | ⟨tok, rest, hd, hlt, hm, hg⟩
  · simp [GetToken_cursorAt_end hd, bind, Except.bind, pure, Except.pure] at h
  · simp only [GetToken_cursorAt hd, bind, Except.bind, ReturnToken_cursorAt] at h
    cases hty : tok.GetType with
    | error a => simp [hty] at h
    | ok ty =>
      simp only [hty] at h
      by_cases h1 : ty = TokenTypeQuoteLeft
      · simp only [h1, if_true] at h
        obtain ⟨hl, hp, hq⟩ := ih.quoted i x c hlt h
        exact ⟨hl, hp, Or.inr (Or.inr hq)⟩
      · simp only [h1, if_false] at h
        by_cases h2 : ty = TokenTypeIdentifier
        · simp only [h2, if_true] at h
          obtain ⟨hl, hp, hf⟩ := ih.call i x c hlt h
          exact ⟨hl, hp, Or.inr (Or.inl hf)⟩
        · simp only [h2, if_false] at h
          by_cases h3 : ty = TokenTypeOperand
          · simp only [h3, if_true] at h
            cases hv : tok.GetValue with
            | error a => simp [hv] at h
            | ok v =>
              simp only [hv, pure, Except.pure, Except.ok.injEq, Prod.mk.injEq] at h
              rw [← h.1]
              exact ⟨rfl, Parsed.value v, Or.inl rfl⟩
          · simp [h3, pure, Except.pure] at h

theorem traced_loop {ts : List Token} {n : Nat} (ih : Traced ts n) (i : Nat)
    (root x : Operator) (c : Tokens) (hi : i ≤ ts.length)
    (hr : FoldedBy (fun a => a.Leaf = true ∧ Parsed ts a) root)
    (h : GetExpressionLoop (n + 1) root (cursorAt ts i) = .ok (.ok x, c)) :
    FoldedBy (fun a => a.Leaf = true ∧ Parsed ts a) x ∧
      ((x = root ∧ c = cursorAt ts i) ∨ x.Leaf = false) := by
  rw [GetExpressionLoop] at h
  rcases GetTokenOfType_cursorAt_cases ts i hi with
    ⟨e, he⟩ | ⟨tok, v, hg, hlt, hty, hop, he⟩ | ⟨tok, a, hm, hs, ha, he⟩
  · simp only [he, bind, Except.bind, pure, Except.pure, Except.ok.injEq, Prod.mk.injEq] at h
    obtain ⟨hx, hc⟩ := h
    rw [← hx]
    exact ⟨hr, Or.inl ⟨rfl, hc.symm⟩⟩
  · simp only [he, bind, Except.bind] at h
    have ho := (sem n).operand ts (i + 1) hlt
    cases hres : GetOperand n (cursorAt ts (i + 1)) with
    | error a => simp [hres] at h
    | ok p =>
      obtain ⟨r, c'⟩ := p
      rw [hres] at ho
      simp only [hres] at h
      cases r with
      | error e =>
        obtain ⟨j, rfl, hj, -, -⟩ := ho
        simp only [pure, Except.pure, SetIndex_cursorAt, Except.ok.injEq, Prod.mk.injEq] at h
        obtain ⟨hx, hc⟩ := h
        rw [← hx]
        exact ⟨hr, Or.inl ⟨rfl, hc.symm⟩⟩
      | ok y =>
        obtain ⟨j, rfl, hj, -, -, -, -⟩ := ho
        obtain ⟨hyl, hyp, -⟩ := ih.operand (i + 1) y _ hlt hres
        obtain ⟨root', hf, hr', hleaf⟩ := FoldedBy_fold hr hop hyl hyp
        simp only [hf] at h
        obtain ⟨hx1, hx2⟩ := ih.loop j root' x c hj hr' h
        refine ⟨hx1, Or.inr ?_⟩
        rcases hx2 with ⟨hx, -⟩ | hx
        · rw [hx]; exact hleaf
        · exact hx
  · simp [he, bind, Except.bind] at h

theorem traced_expression {ts : List Token} {n : Nat} (ih : Traced ts n) (i : Nat)
    (x : Operator) (c : Tokens) (hi : i ≤ ts.length)
    (h : GetExpression (n + 1) (cursorAt ts i) = .ok (.ok x, c)) :
    FoldedBy (fun a => a.Leaf = true ∧ Parsed ts a) x ∧
      (x.Leaf = true → ∃ m, GetOperand m (cursorAt ts i) = .ok (.ok x, c)) := by
  rw [GetExpression] at h
  have ho := (sem n).operand ts i hi
  cases hres : GetOperand n (cursorAt ts i) with
  | error a => simp [hres, bind, Except.bind] at h
  | ok p =>
    obtain ⟨r, c'⟩ := p
    rw [hres] at ho
    simp only [hres, bind, Except.bind] at h
    cases r with
    | error e => simp [pure, Except.pure] at h
    | ok y =>
      obtain ⟨j, rfl, hj, -, -, -, -⟩ := ho
      obtain ⟨hyl, hyp, -⟩ := ih.operand i y _ hi hres
      obtain ⟨hx1, hx2⟩ := ih.loop j y x c hj (FoldedBy_of_operand hyl hyp) h
      refine ⟨hx1, fun hl => ?_⟩
      rcases hx2 with ⟨hx, hc⟩ | hx
      · exact ⟨n, by rw [hres, hx, hc]⟩
      · rw [hx] at hl
        exact absurd hl (by decide)

theorem traced_argumentsLoop {ts : List Token} {n : Nat} (ih : Traced ts n) (i : Nat)
    (args0 args : List Operator) (c : Tokens) (hi : i ≤ ts.length)
    (hargs : ∀ a ∈ args0, Parsed ts a)
    (h : GetArgumentListLoop (n + 1) args0 (cursorAt ts i) = .ok (.ok args, c)) :
    ∀ a ∈ args, Parsed ts a := by
  rw [GetArgumentListLoop] at h
  have he := (sem n).expression ts i hi
  cases hres : GetExpression n (cursorAt ts i) with
  | error a => simp [hres, bind, Except.bind] at h
  | ok p =>
    obtain ⟨r, c'⟩ := p
    rw [hres] at he
    simp only [hres, bind, Except.bind] at h
    cases r with
    | error e =>
      simp only [pure, Except.pure, Except.ok.injEq, Prod.mk.injEq] at h
      obtain ⟨hx, -⟩ := h
      rw [← hx]
      exact hargs
    | ok y =>
      obtain ⟨j, rfl, hj, -, -, -⟩ := he
      have hy := Parsed_of_FoldedBy (ih.expression i y _ hi hres).1
      have hargs' : ∀ a ∈ args0 ++ [y], Parsed ts a := by
        intro a ha
        rcases List.mem_append.1 ha with h' | h'
        · exact hargs a h'
        · rw [List.mem_singleton.1 h']
          exact hy
      simp only at h
      rcases tokens_cases ts j hj with ⟨hd2, _⟩ | ⟨tok2, rest2, hd2, hlt2, hm2, hg2⟩
      · simp [GetToken_cursorAt_end hd2, pure, Except.pure] at h
      · simp only [GetToken_cursorAt hd2] at h
        cases hty2 : tok2.GetType with
        | error a => simp [hty2] at h
        | ok ty2 =>
          simp only [hty2] at h
          by_cases h2 : ty2 = TokenTypeComma
          · simp only [h2, if_true] at h
            exact ih.argumentsLoop (j + 1) (args0 ++ [y]) args c hlt2 hargs' h
          · simp only [h2, if_false, pure, Except.pure, Except.ok.injEq, Prod.mk.injEq] at h
            obtain ⟨hx, -⟩ := h
            rw [← hx]
            exact hargs'

theorem traced_zero (ts : List Token) : Traced ts 0 := by
  refine ⟨fun i x c _ h => ?_, fun i x c _ h => ?_, fun i x c _ h => ?_, fun i x c _ h => ?_,
    fun i args c _ h => ?_, fun i args0 args c _ _ h => ?_, fun i root x c _ _ h => ?_⟩ <;>
    simp [GetExpression, GetOperand, GetQuotedOperand, GetFunctionCallOperand,
      GetArgumentList, GetArgumentListLoop, GetExpressionLoop, throw, throwThe,
      MonadExceptOf.throw] at h

/-- Whatever the fuel, the trees the rules return carry the record of their
parentheses. -/
theorem traced (ts : List Token) : ∀ n, Traced ts n
  | 0 => traced_zero ts
  | n + 1 =>
    have ih := traced ts n
    ⟨traced_expression ih, traced_operand ih, traced_quoted ih, traced_call ih,
      fun i args c hi h => by
        rw [GetArgumentList] at h
        exact ih.argumentsLoop i [] args c hi (fun a ha => absurd ha (List.not_mem_nil a)) h,
      traced_argumentsLoop ih, traced_loop ih⟩

/-! ## The shape of the trees and the priorities on the right spine -/

theorem Parsed.opType {ts : List Token} {t : Operator} (h : Parsed ts t) :
    t.OpType = OpAdd ∨ t.OpType = OpSub ∨ t.OpType = OpMul ∨ t.OpType = OpDiv ∨
      t.OpType = OpVal ∨ t.OpType = OpFunc := by
  induction h with
  | value v => right; right; right; right; left; rfl
  | call name args _ _ => right; right; right; right; right; rfl
  | binary op l r hop _ _ _ _ =>
    rcases hop with h | h | h | h <;> simp [NewOperator, Operator.OpType, h]
  | paren e n i j _ _ _ _ ih => cases e; exact ih

theorem Parsed.children {ts : List Token} {t : Operator} (h : Parsed ts t)
    (hb : t.OpType = OpAdd ∨ t.OpType = OpSub ∨ t.OpType = OpMul ∨ t.OpType = OpDiv) :
    ∃ l r, t.Left = some l ∧ t.Right = some r ∧ Parsed ts l ∧ Parsed ts r := by
  induction h with
  | value v => simp [NewValue, Operator.OpType, OpVal, OpAdd, OpSub, OpMul, OpDiv] at hb
  | call name args _ _ => simp [Operator.OpType, OpFunc, OpAdd, OpSub, OpMul, OpDiv] at hb
  | binary op l r hop hl hr _ _ => exact ⟨l, r, rfl, rfl, hl, hr⟩
  | paren e n i j _ _ _ _ ih => cases e; exact ih hb

theorem Parsed.value_node {ts : List Token} {t : Operator} (h : Parsed ts t)
    (hv : t.OpType = OpVal) :
    t.Left = none ∧ t.Right = none ∧ t.Leaf = true ∧ ∃ v, t.Value = .int v := by
  induction h with
  | value v => exact ⟨rfl, rfl, rfl, v, rfl⟩
  | call name args _ _ => simp [Operator.OpType, OpFunc, OpVal] at hv
  | binary op l r hop _ _ _ _ =>
    exfalso
    simp only [NewOperator, Operator.OpType] at hv
    rcases hop with h | h | h | h <;> rw [h] at hv <;> exact absurd hv (by decide)
  | paren e n i j _ _ _ _ ih =>
    cases e with
    | mk ty l r v leaf =>
      obtain ⟨h1, h2, _, h4⟩ := ih hv
      exact ⟨h1, h2, rfl, h4⟩

theorem Parsed.call_node {ts : List Token} {t : Operator} (h : Parsed ts t)
    (hv : t.OpType = OpFunc) :
    t.Left = none ∧ t.Right = none ∧ t.Leaf = true ∧
      ∃ name args, t.Value = .func (.mk name args) ∧ ∀ a ∈ args, Parsed ts a := by
  induction h with
  | value v => simp [NewValue, Operator.OpType, OpFunc, OpVal] at hv
  | call name args hargs _ => exact ⟨rfl, rfl, rfl, name, args, rfl, hargs⟩
  | binary op l r hop _ _ _ _ =>
    exfalso
    simp only [NewOperator, Operator.OpType] at hv
    rcases hop with h | h | h | h <;> rw [h] at hv <;> exact absurd hv (by decide)
  | paren e n i j _ _ _ _ ih =>
    cases e with
    | mk ty l r v leaf =>
      obtain ⟨h1, h2, _, h4⟩ := ih hv
      exact ⟨h1, h2, rfl, h4⟩

/-- A binary node of a parsed tree is a node made by `NewOperator`, which is not
leaf-like, or the tree of a subexpression written in parentheses in the
tokens, which is. -/
theorem Parsed.binary_node {ts : List Token} {t : Operator} (h : Parsed ts t)
    (hb : t.OpType = OpAdd ∨ t.OpType = OpSub ∨ t.OpType = OpMul ∨ t.OpType = OpDiv) :
    (t.Leaf = false ∧ ∃ l r, t = NewOperator t.OpType (some l) (some r)) ∨
      (t.Leaf = true ∧ Parenthesized ts t) := by
  cases h with
  | value v => simp [NewValue, Operator.OpType, OpVal, OpAdd, OpSub, OpMul, OpDiv] at hb
  | call name args _ => simp [Operator.OpType, OpFunc, OpAdd, OpSub, OpMul, OpDiv] at hb
  | binary op l r hop hl hr => exact Or.inl ⟨rfl, l, r, rfl⟩
  | paren e n i j hi hj he _ =>
    exact Or.inr ⟨Leaf_setLeaf e true, n, i, j, e, hi, hj, he, rfl⟩

/-- C15: every tree returned by `GetExpression` on the tokens `ts`, and so every
argument tree stored in a function call, is parsed from `ts`.  The root of the
tree is leaf-like only if no operator was folded, the tree being the one operand
that `GetOperand` returns from the same index to the same cursor; otherwise the
root is a node made by `NewOperator`.  An operand is leaf-like, and when it is
a binary node it is the tree of the parenthesized subexpression that begins
with the `(` at the index where the operand was read.  In a parsed tree every
node with `OpType` add, sub, mul or div has both `Left` and `Right` set, to
parsed trees, and is leaf-like exactly when it is the tree of a subexpression
written between a `(` and a `)` of `ts`; a binary node that is not leaf-like is
as `NewOperator` made it; every value node and every function-call node has no
children and is leaf-like, and the arguments of a call are parsed trees. -/
theorem GetExpression_tree_shape (ts : List Token) :
    (∀ (n i : Nat) (tree : Operator) (c : Tokens), i ≤ ts.length →
        GetExpression n (cursorAt ts i) = .ok (.ok tree, c) →
        Parsed ts tree ∧
        (tree.Leaf = true → ∃ m, GetOperand m (cursorAt ts i) = .ok (.ok tree, c)) ∧
        (tree.Leaf = false →
          ∃ op l r, (op = OpAdd ∨ op = OpSub ∨ op = OpMul ∨ op = OpDiv) ∧
            tree = NewOperator op (some l) (some r))) ∧
    (∀ (n i : Nat) (x : Operator) (c : Tokens), i ≤ ts.length →
        GetOperand n (cursorAt ts i) = .ok (.ok x, c) →
        x.Leaf = true ∧ Parsed ts x ∧
        (x.OpType = OpAdd ∨ x.OpType = OpSub ∨ x.OpType = OpMul ∨ x.OpType = OpDiv →
          ParenthesizedAt ts i x c)) ∧
    (∀ (n i : Nat) (x : Operator) (c : Tokens), i < ts.length →
        GetQuotedOperand n (cursorAt ts i) = .ok (.ok x, c) →
        x.Leaf = true ∧ Parsed ts x ∧ ParenthesizedAt ts i x c) ∧
    (∀ t : Operator, Parsed ts t →
        (t.OpType = OpAdd ∨ t.OpType = OpSub ∨ t.OpType = OpMul ∨ t.OpType = OpDiv ∨
          t.OpType = OpVal ∨ t.OpType = OpFunc) ∧
        (t.OpType = OpAdd ∨ t.OpType = OpSub ∨ t.OpType = OpMul ∨ t.OpType = OpDiv →
          (∃ l r, t.Left = some l ∧ t.Right = some r ∧ Parsed ts l ∧ Parsed ts r) ∧
          (t.Leaf = false → ∃ l r, t = NewOperator t.OpType (some l) (some r)) ∧
          (t.Leaf = true ↔ Parenthesized ts t)) ∧
        (t.OpType = OpVal →
          t.Left = none ∧ t.Right = none ∧ t.Leaf = true ∧ ∃ v, t.Value = .int v) ∧
        (t.OpType = OpFunc →
          t.Left = none ∧ t.Right = none ∧ t.Leaf = true ∧
            ∃ name args, t.Value = .func (.mk name args) ∧ ∀ a ∈ args, Parsed ts a)) := by
  refine ⟨?_, ?_, ?_, ?_⟩
  · intro n i tree c hi h
    obtain ⟨hf, hl⟩ := (traced ts n).expression i tree c hi h
    exact ⟨Parsed_of_FoldedBy hf, hl, FoldedBy_not_leaf hf⟩
  · intro n i x c hi h
    obtain ⟨hl, hp, hk⟩ := (traced ts n).operand i x c hi h
    refine ⟨hl, hp, fun hb => ?_⟩
    rcases hk with hk | hk | hk
    · rw [hk] at hb
      exact absurd hb (by decide)
    · rw [hk] at hb
      exact absurd hb (by decide)
    · exact hk
  · intro n i x c hi h
    exact (traced ts n).quoted i x c hi h
  · intro t ht
    refine ⟨ht.opType, fun hb => ⟨ht.children hb, ?_, ?_⟩, ht.value_node, ht.call_node⟩
    · intro hl
      rcases ht.binary_node hb with h | h
      · exact h.2
      · rw [h.1] at hl
        exact absurd hl (by decide)
    · constructor
      · intro hl
        rcases ht.binary_node hb with h | h
        · rw [h.1] at hl
          exact absurd hl (by decide)
        · exact h.2
      · rintro ⟨n, i, j, e, -, -, -, rfl⟩
        exact Leaf_setLeaf e true

/-- The tree that `GetExpression` returns on the tokens of `(1+2)*f(3)`: it is
parsed from these tokens, and its root, a node made by the fold of `*`, is not
leaf-like. -/
theorem GetExpression_tree_shape_witness :
    ∃ tree c, GetExpression 30 (cursorAt
        [['('], ['1'], ['+'], ['2'], [')'], ['*'], ['f'], ['('], ['3'], [')']] 0)
          = .ok (.ok tree, c) ∧
      Parsed [['('], ['1'], ['+'], ['2'], [')'], ['*'], ['f'], ['('], ['3'], [')']] tree := by
  obtain ⟨tree, c, h⟩ := (accepted_iff _).1
    (by decide! : accepted (GetExpression 30 (cursorAt
        [['('], ['1'], ['+'], ['2'], [')'], ['*'], ['f'], ['('], ['3'], [')']] 0)) = true)
  exact ⟨tree, c, h, ((GetExpression_tree_shape _).1 30 0 tree c (Nat.zero_le _) h).1⟩

theorem spinePriorities_of_leaf (x : Operator) (h : x.Leaf = true) :
    x.spinePriorities = [] := by
  cases x with
  | mk t l r v leaf =>
    simp only [Operator.Leaf] at h
    simp [Operator.spinePriorities, h]

theorem ProdT.spinePriorities_prod_tree (p : ProdT) (hp : p.WF) :
    p.tree.spinePriorities = [] ∨ p.tree.spinePriorities = [2] := by
  cases p with
  | atom x => exact Or.inl (spinePriorities_of_leaf x hp)
  | mul l op x =>
    right
    simp [ProdT.tree, NewOperator, Operator.spinePriorities, spinePrioritiesChild,
      spinePriorities_of_leaf x hp.2.2, priority_mul op hp.2.1]

theorem SumT.spinePriorities_sum_tree (s : SumT) (hs : s.WF) :
    s.tree.spinePriorities = [] ∨ s.tree.spinePriorities = [2] ∨
      s.tree.spinePriorities = [1] ∨ s.tree.spinePriorities = [1, 2] := by
  cases s with
  | prod p =>
    rcases p.spinePriorities_prod_tree hs with h | h
    · exact Or.inl h
    · exact Or.inr (Or.inl h)
  | add l a p =>
    rcases p.spinePriorities_prod_tree hs.2.2 with h | h
    · right; right; left
      simp [SumT.tree, NewOperator, Operator.spinePriorities, spinePrioritiesChild, h,
        priority_add a hs.2.1]
    · right; right; right
      simp [SumT.tree, NewOperator, Operator.spinePriorities, spinePrioritiesChild, h,
        priority_add a hs.2.1]

theorem ProdT.spineOK_prod_tree (p : ProdT) (hp : p.WF) : p.tree.spineOK = true := by
  cases p with
  | atom x => exact spineOK_of_leaf x hp
  | mul l op x =>
    simp [ProdT.tree, NewOperator, Operator.spineOK, spineOKChild, spineOK_of_leaf x hp.2.2]

theorem SumT.spineOK_sum_tree (s : SumT) (hs : s.WF) : s.tree.spineOK = true := by
  cases s with
  | prod p => exact p.spineOK_prod_tree hs
  | add l a p =>
    simp [SumT.tree, NewOperator, Operator.spineOK, spineOKChild, p.spineOK_prod_tree hs.2.2]

mutual
theorem rightSpine_priorities : ∀ (t : Operator) (path : List Operator) (rm : Operator),
    rightSpine t = .ok (path, rm) →
    path.map (fun p => OperatorPriority p.OpType) = t.spinePriorities ∧
      ∀ p ∈ path, p.Leaf = false
  | .mk ty l r v leaf, path, rm, h => by
    cases leaf with
    | true =>
      simp only [rightSpine, if_true, pure, Except.pure, Except.ok.injEq, Prod.mk.injEq] at h
      rw [← h.1]
      simp [Operator.spinePriorities]
    | false =>
      simp only [rightSpine, Bool.false_eq_true, if_false, bind, Except.bind] at h
      cases hc : rightSpineChild r with
      | error e => simp [hc] at h
      | ok q =>
        obtain ⟨p', rm'⟩ := q
        simp only [hc, pure, Except.pure, Except.ok.injEq, Prod.mk.injEq] at h
        obtain ⟨h1, h2⟩ := rightSpineChild_priorities r p' rm' hc
        rw [← h.1]
        refine ⟨?_, ?_⟩
        · simp only [List.map_cons, Operator.spinePriorities, Bool.false_eq_true, if_false, h1]
          rfl
        · intro p hp
          rcases List.mem_cons.1 hp with hp | hp
          · rw [hp]; rfl
          · exact h2 p hp
theorem rightSpineChild_priorities : ∀ (c : Option Operator) (path : List Operator)
    (rm : Operator), rightSpineChild c = .ok (path, rm) →
    path.map (fun p => OperatorPriority p.OpType) = spinePrioritiesChild c ∧
      ∀ p ∈ path, p.Leaf = false
  | none, path, rm, h => by
    simp [rightSpineChild, throw, throwThe, MonadExceptOf.throw] at h
  | some r, path, rm, h => by
    simp only [rightSpineChild] at h
    simpa [spinePrioritiesChild] using rightSpine_priorities r path rm h
end

/-- Along a path of strictly increasing priorities, once the rotation loop stops
at a parent of lower priority than `current`, every node above that parent has a
lower priority than `current` too. -/
theorem rotation_stops (path : List Operator)
    (hchain : List.Chain' (· < ·) (path.map (fun p => OperatorPriority p.OpType)))
    (current parent : Operator) (below above : List Operator)
    (hrev : path.reverse = below ++ parent :: above)
    (hlt : CompareOperatorPriority parent.OpType current.OpType < 0) :
    ∀ a ∈ above, CompareOperatorPriority a.OpType current.OpType < 0 := by
  intro a ha
  have hpath : path = above.reverse ++ parent :: below.reverse := by
    have := congrArg List.reverse hrev
    rw [List.reverse_reverse] at this
    rw [this]
    simp
  rw [hpath, List.map_append] at hchain
  have hp := (List.chain'_iff_pairwise.1 hchain)
  rw [List.pairwise_append] at hp
  have h1 := hp.2.2 (OperatorPriority a.OpType)
    (List.mem_map.2 ⟨a, List.mem_reverse.2 ha, rfl⟩) (OperatorPriority parent.OpType)
    (by simp)
  unfold CompareOperatorPriority at hlt ⊢
  omega

/-- C20: after every fold of the loop of `GetExpression`, here after the first `k`
of the folds that a leaf-like first operand and pairs of an operator and a
leaf-like operand give rise to, the nodes on the right spine of `root`, which
are the nodes that the next descent collects in `path` and none of which is
leaf-like, have strictly increasing priorities from the root downward, each 1
or 2; so `path` holds at most two nodes, and when the rotation loop stops at a
parent of lower priority than `current`, every node above that parent has a
lower priority than `current` as well. -/
theorem foldAll_spine_priorities (x0 : Operator) (rest : List (Int × Operator))
    (h0 : x0.Leaf = true)
    (hrest : ∀ p ∈ rest,
      (p.1 = OpAdd ∨ p.1 = OpSub ∨ p.1 = OpMul ∨ p.1 = OpDiv) ∧ p.2.Leaf = true)
    (k : Nat) :
    ∃ root path rightMost, foldAll x0 (rest.take k) = .ok root ∧
      rightSpine root = .ok (path, rightMost) ∧
      path.map (fun p => OperatorPriority p.OpType) = root.spinePriorities ∧
      (∀ p ∈ path, p.Leaf = false) ∧
      List.Chain' (· < ·) root.spinePriorities ∧
      (∀ q ∈ root.spinePriorities, q = 1 ∨ q = 2) ∧
      path.length ≤ 2 ∧
      ∀ (current parent : Operator) (below above : List Operator),
        path.reverse = below ++ parent :: above →
        CompareOperatorPriority parent.OpType current.OpType < 0 →
        ∀ a ∈ above, CompareOperatorPriority a.OpType current.OpType < 0 := by
  obtain ⟨s, hs, hf, hr⟩ := exists_derivation x0 (rest.take k) h0
    (fun p hp => hrest p (List.mem_of_mem_take hp))
  have hfold := foldAll_sum s hs
  rw [hf, hr] at hfold
  obtain ⟨path, rm, hp, -⟩ := rightSpine_ok s.tree (s.spineOK_sum_tree hs)
  obtain ⟨hmap, hleaf⟩ := rightSpine_priorities s.tree path rm hp
  have hcases := s.spinePriorities_sum_tree hs
  have hchain : List.Chain' (· < ·) s.tree.spinePriorities := by
    rcases hcases with h | h | h | h <;> rw [h] <;> simp
  have hval : ∀ q ∈ s.tree.spinePriorities, q = 1 ∨ q = 2 := by
    rcases hcases with h | h | h | h <;> rw [h] <;> simp
  have hlen : path.length ≤ 2 := by
    have := congrArg List.length hmap
    rw [List.length_map] at this
    rw [this]
    rcases hcases with h | h | h | h <;> rw [h] <;> simp
  exact ⟨s.tree, path, rm, hfold, hp, hmap, hleaf, hchain, hval, hlen,
    fun current parent below above hrev hlt =>
      rotation_stops path (hmap ▸ hchain) current parent below above hrev hlt⟩

/-- Witness of C20 after the two folds of `1 + 2 * 3`. -/
theorem foldAll_spine_priorities_witness :
    ∃ root path rightMost,
      foldAll (NewValue 1) ([(OpAdd, NewValue 2), (OpMul, NewValue 3)].take 2) = .ok root ∧
      rightSpine root = .ok (path, rightMost) ∧
      path.map (fun p => OperatorPriority p.OpType) = root.spinePriorities ∧
      (∀ p ∈ path, p.Leaf = false) ∧
      List.Chain' (· < ·) root.spinePriorities ∧
      (∀ q ∈ root.spinePriorities, q = 1 ∨ q = 2) ∧
      path.length ≤ 2 ∧
      ∀ (current parent : Operator) (below above : List Operator),
        path.reverse = below ++ parent :: above →
        CompareOperatorPriority parent.OpType current.OpType < 0 →
        ∀ a ∈ above, CompareOperatorPriority a.OpType current.OpType < 0 :=
  foldAll_spine_priorities (NewValue 1) [(OpAdd, NewValue 2), (OpMul, NewValue 3)] rfl
    (by
      intro p hp
      simp only [List.mem_cons, List.mem_singleton, List.not_mem_nil, or_false] at hp
      rcases hp with rfl | rfl
      · exact ⟨Or.inl rfl, rfl⟩
      · exact ⟨Or.inr (Or.inr (Or.inl rfl)), rfl⟩) 2

/-! ## The whole parse: string literals and a trailing operator -/

theorem at_cursorAt {ts : List Token} {j : Nat} {tok : Token} (h : ts.get? j = some tok) :
    (cursorAt ts j).at (cursorAt ts j).index = .ok tok := by
  have h2 : ¬ ((j : Int) < 0) := by omega
  simp only [Tokens.at, cursorAt, h2, if_false, Int.toNat_ofNat, h]

theorem HasMoreTokens_cursorAt (ts : List Token) (j : Nat) :
    (cursorAt ts j).HasMoreTokens = decide (j < ts.length) := by
  simp [Tokens.HasMoreTokens, cursorAt]

/-- The outcomes of `BuildCalculatorTreeFromTokens`: a tree with every token
classified and consumed, an error, or a panic caused by a token that is not
sound; the fuel of the model never runs out. -/
theorem BuildCalculatorTreeFromTokens_outcome (ts : List Token) :
    Outcome ts 0 0 0 (fun x j => j = ts.length ∧ Folded x) (fun _ => True)
      (BuildCalculatorTreeFromTokens (NewTokens ts)) := by
  have hc : (cursorAt ts 0).tokens = ts := rfl
  unfold BuildCalculatorTreeFromTokens
  rw [NewTokens_eq_cursorAt, hc]
  have he := (sem (parseFuel ts.length)).expression ts 0 (Nat.zero_le _)
  cases hres : GetExpression (parseFuel ts.length) (cursorAt ts 0) with
  | error a =>
    rw [hres] at he
    cases a with
    | panic msg => exact he
    | fuel =>
      simp only [Outcome, parseFuel] at he
      omega
  | ok p =>
    obtain ⟨r, c⟩ := p
    rw [hres] at he
    simp only [bind, Except.bind]
    cases r with
    | error e =>
      obtain ⟨j, rfl, hj, hcj, -⟩ := he
      exact ⟨j, rfl, hj, hcj, trivial⟩
    | ok x =>
      obtain ⟨j, rfl, hj, hcj, -, hx⟩ := he
      rcases tokens_cases ts j hj with ⟨hd, hlen⟩ | ⟨tok, rest, hd, hlt, hm, hg⟩
      · have hm : (cursorAt ts j).HasMoreTokens = false := by
          rw [HasMoreTokens_cursorAt]; simp; omega
        simp only [hm, Bool.false_eq_true, if_false, pure, Except.pure]
        exact ⟨j, rfl, hj, hcj, hlen, hx⟩
      · have hm : (cursorAt ts j).HasMoreTokens = true := by
          rw [HasMoreTokens_cursorAt]; simp; omega
        simp only [hm, if_true, at_cursorAt hg, pure, Except.pure]
        exact ⟨j, rfl, hj, hcj, trivial⟩

theorem GetType_string_token (s : Token) (hstr : isStringToken s = true)
    (hplain : ∀ c ∈ s, isLetter c = false ∧ isDigit c = false) :
    s.GetType = .error (.panic "unknown token type") := by
  simp only [isStringToken, Bool.and_eq_true, decide_eq_true_eq] at hstr
  obtain ⟨⟨_, hhead⟩, _⟩ := hstr
  have hne : ∀ d : Char, d ≠ quoteChar → s ≠ [d] := by
    intro d hd heq
    rw [heq] at hhead
    simp only [List.head?_cons, Option.some.injEq] at hhead
    exact hd hhead
  have h1 := hne '+' (by decide)
  have h2 := hne '-' (by decide)
  have h3 := hne '*' (by decide)
  have h4 := hne '/' (by decide)
  have h5 := hne '(' (by decide)
  have h6 := hne ')' (by decide)
  have h7 := hne ',' (by decide)
  have h8 : IsIdentifier s = false := by
    simp only [IsIdentifier, List.any_eq_false]
    intro c hc
    simp [(hplain c hc).1]
  have h9 : OperandPatternMatchString s = false := by
    simp only [OperandPatternMatchString, List.any_eq_false]
    intro c hc
    simp [(hplain c hc).2]
  simp only [Token.GetType, h1, h2, h3, h4, h5, h6, h7, h8, h9, or_self, if_false,
    Bool.false_eq_true]

/-- C12, the counterexample: on the single string-literal token `""` the
parser returns no error, it panics with `unknown token type`. -/
theorem empty_string_token_panics :
    isStringToken [quoteChar, quoteChar] = true ∧
    errorAndIndex (BuildCalculatorTreeFromTokens (NewTokens [[quoteChar, quoteChar]]))
      = .error (.panic "unknown token type") := by
  decide!

/-- C12 as amended: `GetType` panics with `unknown token type` on a string-literal
token that holds no letter and no digit, and on every token sequence that
contains such a token `BuildCalculatorTreeFromTokens` returns no tree: it returns
an error or it panics. -/
theorem string_token_never_accepted (ts : List Token) (s : Token) (hs : s ∈ ts)
    (hstr : isStringToken s = true)
    (hplain : ∀ c ∈ s, isLetter c = false ∧ isDigit c = false) :
    s.GetType = .error (.panic "unknown token type") ∧
    ((∃ e c, BuildCalculatorTreeFromTokens (NewTokens ts) = .ok (.error e, c)) ∨
      (∃ msg, BuildCalculatorTreeFromTokens (NewTokens ts) = .error (.panic msg))) := by
  have hty := GetType_string_token s hstr hplain
  refine ⟨hty, ?_⟩
  have ho := BuildCalculatorTreeFromTokens_outcome ts
  cases hres : BuildCalculatorTreeFromTokens (NewTokens ts) with
  | error a =>
    rw [hres] at ho
    cases a with
    | panic msg => exact Or.inr ⟨msg, rfl⟩
    | fuel => simp [Outcome] at ho
  | ok p =>
    obtain ⟨r, c⟩ := p
    rw [hres] at ho
    cases r with
    | error e => exact Or.inl ⟨e, c, rfl⟩
    | ok x =>
      exfalso
      obtain ⟨j, -, -, hcj, hlen, -⟩ := ho
      obtain ⟨k, hk, hget⟩ := List.getElem_of_mem hs
      obtain ⟨tok, ty, h1, h2⟩ := hcj k (Nat.zero_le _) (by omega)
      rw [List.get?_eq_getElem?, List.getElem?_eq_getElem hk, hget] at h1
      simp only [Option.some.injEq] at h1
      rw [← h1, hty] at h2
      simp at h2

/-- Witness of the amended C12 on the tokens `1`, `+`, `""`. -/
theorem string_token_never_accepted_witness :
    Token.GetType [quoteChar, quoteChar] = .error (.panic "unknown token type") ∧
    ((∃ e c, BuildCalculatorTreeFromTokens (NewTokens [['1'], ['+'], [quoteChar, quoteChar]])
        = .ok (.error e, c)) ∨
      (∃ msg, BuildCalculatorTreeFromTokens (NewTokens [['1'], ['+'], [quoteChar, quoteChar]])
        = .error (.panic msg))) :=
  string_token_never_accepted [['1'], ['+'], [quoteChar, quoteChar]] [quoteChar, quoteChar]
    (by decide) (by decide) (by decide)

/-- The slip that the amended C12 leaves out: `GetType` matches its patterns
anywhere in the token, so the string literal `"hello"` counts as an identifier
and the tokens `"hello"`, `(`, `1`, `)` are accepted as a call. -/
theorem string_token_as_identifier :
    Token.GetType (quoteChar :: "hello".toList ++ [quoteChar]) = .ok TokenTypeIdentifier ∧
    accepted (BuildCalculatorTreeFromTokens
      (NewTokens [quoteChar :: "hello".toList ++ [quoteChar], ['('], ['1'], [')']])) = true := by
  decide!

/-- The loop of `GetExpression` entered just before a last operator token: the
operator is read, no operand follows, and the cursor is set back before the
operator. -/
theorem GetExpressionLoop_last_operator {ts : List Token} {i : Nat} {o : Token}
    (hd : ts.drop i = [o]) (ho : isOperatorToken o = true) (f : Nat) (root : Operator) :
    GetExpressionLoop (f + 2) root (cursorAt ts i) = .ok (.ok root, cursorAt ts i) := by
  obtain ⟨v, hv⟩ := GetTokenOfType_operator hd ho
  have h1 := (drop_cons_get hd).2.1
  have hop : GetOperand (f + 1) (cursorAt ts (i + 1))
      = .ok (.error .ErrorNoMoreTokens, cursorAt ts (i + 1)) := by
    simp [GetOperand, GetToken_cursorAt_end h1, bind, Except.bind, pure, Except.pure]
  rw [GetExpressionLoop]
  simp only [hv, hop, bind, Except.bind, pure, Except.pure, SetIndex_cursorAt]

theorem completeBefore (o : Token) (ho : isOperatorToken o = true) {n : Nonterminal}
    {w : List Token} (h : Derives n w) : CompleteBefore o n w := by
  induction h with
  | expression w w' hw _ _ ih' =>
    intro ts i f hd hf
    obtain ⟨f, rfl⟩ : ∃ g, f = g + 1 := ⟨f - 1, by omega⟩
    have hd' : ts.drop i = w ++ (w' ++ [o]) := by simpa using hd
    simp only [List.length_append] at hf
    obtain ⟨x, hx, hxl⟩ := complete hw ts i (w' ++ [o]) f hd' (by omega)
    have h2 := drop_append_length hd'
    obtain ⟨t, ht, -⟩ := ih' ts (i + w.length) f x h2 (spineOK_of_leaf x hxl) (by omega)
    refine ⟨t, ?_⟩
    simp [GetExpression, hx, ht, bind, Except.bind, pure, Except.pure]
    all_goals ring_nf
  | integer t ht => trivial
  | paren w _ _ => trivial
  | call t w ht _ _ => trivial
  | tailNil =>
    intro ts i f root hd hroot hf
    obtain ⟨f, rfl⟩ : ∃ g, f = g + 2 := ⟨f - 2, by omega⟩
    exact ⟨root, by simpa using GetExpressionLoop_last_operator (by simpa using hd) ho f root,
      hroot⟩
  | tailCons o' w w' ho' hw _ _ ih' =>
    intro ts i f root hd hroot hf
    obtain ⟨f, rfl⟩ : ∃ g, f = g + 1 := ⟨f - 1, by omega⟩
    have hd' : ts.drop i = o' :: (w ++ (w' ++ [o])) := by simpa using hd
    simp only [List.length_cons, List.length_append] at hf
    obtain ⟨v, hv⟩ := GetTokenOfType_operator hd' ho'
    have h1 := (drop_cons_get hd').2.1
    obtain ⟨x, hx, hxl⟩ := complete hw ts (i + 1) (w' ++ [o]) f h1 (by omega)
    obtain ⟨root', hfold, hroot'⟩ := fold_ok root v x hroot hxl
    have h2 := drop_append_length h1
    obtain ⟨t, ht, hts⟩ := ih' ts (i + 1 + w.length) f root' h2 hroot' (by omega)
    refine ⟨t, ?_, hts⟩
    simp [GetExpressionLoop, hv, hx, hfold, ht, bind, Except.bind, pure, Except.pure]
    all_goals ring_nf
  | argsNil => trivial
  | argsSome w _ _ => trivial
  | argsOne w _ _ => trivial
  | argsMore w w' _ _ _ _ => trivial

/-- C13: for every token sequence `v` derivable from `expression` and every
operator token `o`, on `v` followed by `o` the rule `GetExpression` returns a tree
and leaves the cursor just before `o`, and `BuildCalculatorTreeFromTokens` returns
the error of the unexpected token `o`. -/
theorem trailing_operator_rejected (v : List Token) (o : Token)
    (hv : Derives .expression v) (ho : isOperatorToken o = true) :
    (∃ tree, GetExpression (parseFuel (v ++ [o]).length) (cursorAt (v ++ [o]) 0)
        = .ok (.ok tree, cursorAt (v ++ [o]) v.length)) ∧
    (cursorAt (v ++ [o]) v.length).HasMoreTokens = true ∧
    BuildCalculatorTreeFromTokens (NewTokens (v ++ [o]))
      = .ok (.error (.New ("syntax error, unexpected token: " ++ String.mk o)),
          cursorAt (v ++ [o]) v.length) := by
  obtain ⟨t, ht⟩ := completeBefore o ho hv (v ++ [o]) 0 (parseFuel (v ++ [o]).length)
    (by simp) (by simp [parseFuel]; omega)
  rw [Nat.zero_add] at ht
  have hm : (cursorAt (v ++ [o]) v.length).HasMoreTokens = true := by
    rw [HasMoreTokens_cursorAt]; simp
  have hg : (v ++ [o]).get? v.length = some o := by simp
  have hc : (cursorAt (v ++ [o]) 0).tokens = v ++ [o] := rfl
  refine ⟨⟨t, ht⟩, hm, ?_⟩
  unfold BuildCalculatorTreeFromTokens
  rw [NewTokens_eq_cursorAt, hc, ht]
  simp only [bind, Except.bind, hm, if_true, at_cursorAt hg, pure, Except.pure]

/-- Witness of C13 on the tokens of `1+`. -/
theorem trailing_operator_rejected_witness :
    BuildCalculatorTreeFromTokens (NewTokens ([['1']] ++ [['+']]))
      = .ok (.error (.New ("syntax error, unexpected token: " ++ String.mk ['+'])),
          cursorAt ([['1']] ++ [['+']]) ([['1']] : List Token).length) :=
  (trailing_operator_rejected [['1']] ['+']
    (Derives.expression [['1']] [] (Derives.integer ['1'] (by decide)) Derives.tailNil)
    (by decide)).2.2

/-! ## The result of a rule does not depend on the fuel left over -/

theorem Extends.same {α : Type} (x : Except Abort α) : Extends x x := Or.inr rfl

theorem Extends.step {α β : Type} {x y : Except Abort α} {f g : α → Except Abort β}
    (h : Extends x y) (hfg : ∀ a, Extends (f a) (g a)) : Extends (x >>= f) (y >>= g) := by
  rcases h with h | h
  · left
    rw [h]
    rfl
  · rw [h]
    cases x with
    | error e => exact Or.inr rfl
    | ok a => exact hfg a

theorem stable_expression {n : Nat} (ih : Stable n) (t : Tokens) :
    Extends (GetExpression (n + 1) t) (GetExpression (n + 1 + 1) t) := by
  rw [GetExpression, GetExpression]
  refine Extends.step (ih.operand t) ?_
  rintro ⟨r, c⟩
  cases r with
  | error e => exact Extends.same _
  | ok x => exact ih.loop x c

theorem stable_loop {n : Nat} (ih : Stable n) (root : Operator) (t : Tokens) :
    Extends (GetExpressionLoop (n + 1) root t) (GetExpressionLoop (n + 1 + 1) root t) := by
  rw [GetExpressionLoop, GetExpressionLoop]
  refine Extends.step (Extends.same _) ?_
  rintro ⟨r, c⟩
  cases r with
  | error e => exact Extends.same _
  | ok operator =>
    refine Extends.step (ih.operand c) ?_
    rintro ⟨r2, c2⟩
    cases r2 with
    | error e => exact Extends.same _
    | ok operand =>
      refine Extends.step (Extends.same _) ?_
      intro root'
      exact ih.loop root' c2

theorem stable_operand {n : Nat} (ih : Stable n) (t : Tokens) :
    Extends (GetOperand (n + 1) t) (GetOperand (n + 1 + 1) t) := by
  rw [GetOperand, GetOperand]
  refine Extends.step (Extends.same _) ?_
  rintro ⟨r, c⟩
  cases r with
  | error e => exact Extends.same _
  | ok tok =>
    refine Extends.step (Extends.same _) ?_
    intro ty
    by_cases h1 : ty = TokenTypeQuoteLeft
    · simp only [h1, if_true]
      exact ih.quoted _
    · simp only [h1, if_false]
      refine Extends.step (Extends.same _) ?_
      intro ty2
      by_cases h2 : ty2 = TokenTypeIdentifier
      · simp only [h2, if_true]
        exact ih.call _
      · simp only [h2, if_false]
        exact Extends.same _

theorem stable_quoted {n : Nat} (ih : Stable n) (t : Tokens) :
    Extends (GetQuotedOperand (n + 1) t) (GetQuotedOperand (n + 1 + 1) t) := by
  rw [GetQuotedOperand, GetQuotedOperand]
  refine Extends.step (Extends.same _) ?_
  rintro ⟨r, c⟩
  cases r with
  | error e => exact Extends.same _
  | ok tok =>
    refine Extends.step (Extends.same _) ?_
    intro ty
    by_cases h1 : ty = TokenTypeQuoteLeft
    · simp only [h1, if_true]
      refine Extends.step (ih.expression c) ?_
      rintro ⟨r2, c2⟩
      exact Extends.same _
    · simp only [h1, if_false]
      exact Extends.same _

theorem stable_call {n : Nat} (ih : Stable n) (t : Tokens) :
    Extends (GetFunctionCallOperand (n + 1) t) (GetFunctionCallOperand (n + 1 + 1) t) := by
  rw [GetFunctionCallOperand, GetFunctionCallOperand]
  refine Extends.step (Extends.same _) ?_
  rintro ⟨r, c⟩
  cases r with
  | error e => exact Extends.same _
  | ok tok =>
    refine Extends.step (Extends.same _) ?_
    intro ty
    by_cases h1 : ty = TokenTypeIdentifier
    · simp only [h1, if_true]
      refine Extends.step (Extends.same _) ?_
      rintro ⟨r2, c2⟩
      cases r2 with
      | error e => exact Extends.same _
      | ok tok2 =>
        refine Extends.step (Extends.same _) ?_
        intro ty2
        by_cases h2 : ty2 = TokenTypeQuoteLeft
        · simp only [h2, ne_eq, not_true_eq_false, if_false]
          refine Extends.step (ih.arguments c2) ?_
          rintro ⟨r3, c3⟩
          exact Extends.same _
        · simp only [h2, ne_eq, not_false_eq_true, if_true]
          exact Extends.same _
    · simp only [h1, if_false]
      exact Extends.same _

theorem stable_argumentsLoop {n : Nat} (ih : Stable n) (args : List Operator) (t : Tokens) :
    Extends (GetArgumentListLoop (n + 1) args t) (GetArgumentListLoop (n + 1 + 1) args t) := by
  rw [GetArgumentListLoop, GetArgumentListLoop]
  refine Extends.step (ih.expression t) ?_
  rintro ⟨r, c⟩
  cases r with
  | error e => exact Extends.same _
  | ok x =>
    refine Extends.step (Extends.same _) ?_
    rintro ⟨r2, c2⟩
    cases r2 with
    | error e => exact Extends.same _
    | ok tok =>
      refine Extends.step (Extends.same _) ?_
      intro ty
      by_cases h1 : ty = TokenTypeComma
      · simp only [h1, if_true]
        exact ih.argumentsLoop _ c2
      · simp only [h1, if_false]
        exact Extends.same _

theorem stable_zero : Stable 0 := by
  refine ⟨?_, ?_, ?_, ?_, ?_, ?_, ?_⟩ <;> intros <;> left <;>
    simp only [GetExpression, GetOperand, GetQuotedOperand, GetFunctionCallOperand,
      GetArgumentList, GetArgumentListLoop, GetExpressionLoop, throw, throwThe,
      MonadExceptOf.throw]

/-- Whatever the fuel, one more unit of fuel leaves the result of every rule as it
is, unless the fuel had run out. -/
theorem stable : ∀ n, Stable n
  | 0 => stable_zero
  | n + 1 =>
    have ih := stable n
    ⟨stable_expression ih, stable_operand ih, stable_quoted ih, stable_call ih,
      fun t => by
        rw [GetArgumentList, GetArgumentList]
        exact ih.argumentsLoop [] t,
      stable_argumentsLoop ih, stable_loop ih⟩

/-- A run that did not run out of fuel ends the same way with any greater
fuel. -/
theorem GetExpression_stable (t : Tokens) (n : Nat)
    (h : GetExpression n t ≠ .error .fuel) (k : Nat) :
    GetExpression (n + k) t = GetExpression n t := by
  induction k with
  | zero => rfl
  | succ k ih =>
    rcases (stable (n + k)).expression t with h1 | h1
    · rw [ih] at h1
      exact absurd h1 h
    · rw [← Nat.add_assoc, h1, ih]

/-! ## Termination of the rules -/

theorem GetExpressionLoop_eq_body (n : Nat) (root : Operator) (t : Tokens) :
    GetExpressionLoop (n + 1) root t
      = (GetExpressionBody n root t).bind (afterExpressionBody n) := by
  rw [GetExpressionLoop, GetExpressionBody]
  simp only [bind, Except.bind]
  cases t.GetTokenOfType TokenTypeOperator with
  | error a => rfl
  | ok p =>
    obtain ⟨r, c⟩ := p
    cases r with
    | error e => rfl
    | ok operator =>
      simp only
      cases GetOperand n c with
      | error a => rfl
      | ok p2 =>
        obtain ⟨r2, c2⟩ := p2
        cases r2 with
        | error e => rfl
        | ok operand =>
          simp only
          cases fold root operator operand with
          | error a => rfl
          | ok root' => rfl

theorem GetArgumentListLoop_eq_body (n : Nat) (args : List Operator) (t : Tokens) :
    GetArgumentListLoop (n + 1) args t
      = (GetArgumentListBody n args t).bind (afterArgumentListBody n) := by
  rw [GetArgumentListLoop, GetArgumentListBody]
  simp only [bind, Except.bind]
  cases GetExpression n t with
  | error a => rfl
  | ok p =>
    obtain ⟨r, c⟩ := p
    cases r with
    | error e => rfl
    | ok operator =>
      simp only
      cases c.GetToken with
      | error a => rfl
      | ok p2 =>
        obtain ⟨r2, c2⟩ := p2
        cases r2 with
        | error e => rfl
        | ok tok =>
          simp only
          cases tok.GetType with
          | error a => rfl
          | ok ty =>
            simp only
            split <;> rfl

/-- A pass through the body of the loop of `GetExpression` that does not leave the
loop has read an operator and an operand: the cursor is at least two further. -/
theorem GetExpressionBody_again (n : Nat) (ts : List Token) (i : Nat) (hi : i ≤ ts.length)
    (root root' : Operator) (c : Tokens)
    (h : GetExpressionBody n root (cursorAt ts i) = .ok (.again root' c)) :
    ∃ j, c = cursorAt ts j ∧ i + 2 ≤ j ∧ j ≤ ts.length := by
  rw [GetExpressionBody] at h
  rcases GetTokenOfType_cursorAt_cases ts i hi with
    ⟨e, he⟩ | ⟨tok, v, hg, hlt, hty, hop, he⟩ | ⟨tok, a, hm, hs, ha, he⟩
  · simp [he, bind, Except.bind, pure, Except.pure] at h
  · simp only [he, bind, Except.bind] at h
    have ho := (sem n).operand ts (i + 1) hlt
    cases hres : GetOperand n (cursorAt ts (i + 1)) with
    | error a => simp [hres] at h
    | ok p =>
      obtain ⟨r, c'⟩ := p
      rw [hres] at ho
      simp only [hres] at h
      cases r with
      | error e => simp [pure, Except.pure] at h
      | ok x =>
        obtain ⟨j, rfl, hj, -, hij, -, -⟩ := ho
        simp only at h
        cases hf : fold root v x with
        | error a => simp [hf] at h
        | ok r' =>
          simp only [hf, pure, Except.pure, Except.ok.injEq, Iteration.again.injEq] at h
          exact ⟨j, h.2.symm, by omega, hj⟩
  · simp [he, bind, Except.bind] at h

/-- A pass through the body of the loop of `GetArgumentList` that does not leave
the loop has read an expression and a comma: the cursor is at least two
further. -/
theorem GetArgumentListBody_again (n : Nat) (ts : List Token) (i : Nat)
    (hi : i ≤ ts.length) (args args' : List Operator) (c : Tokens)
    (h : GetArgumentListBody n args (cursorAt ts i) = .ok (.again args' c)) :
    ∃ j, c = cursorAt ts j ∧ i + 2 ≤ j ∧ j ≤ ts.length := by
  rw [GetArgumentListBody] at h
  have he := (sem n).expression ts i hi
  cases hres : GetExpression n (cursorAt ts i) with
  | error a => simp [hres, bind, Except.bind] at h
  | ok p =>
    obtain ⟨r, c'⟩ := p
    rw [hres] at he
    simp only [hres, bind, Except.bind] at h
    cases r with
    | error e => simp [pure, Except.pure] at h
    | ok x =>
      obtain ⟨j, rfl, hj, -, hij, -⟩ := he
      simp only at h
      rcases tokens_cases ts j hj with ⟨hd2, _⟩ | ⟨tok2, rest2, hd2, hlt2, hm2, hg2⟩
      · simp [GetToken_cursorAt_end hd2, pure, Except.pure] at h
      · simp only [GetToken_cursorAt hd2] at h
        cases hty2 : tok2.GetType with
        | error a => simp [hty2] at h
        | ok ty2 =>
          simp only [hty2] at h
          split at h
          · simp only [pure, Except.pure, Except.ok.injEq, Iteration.again.injEq] at h
            exact ⟨j + 1, h.2.symm, by omega, hlt2⟩
          · simp [pure, Except.pure] at h

/-- The result of `GetQuotedOperand` entered at index `i` depends on the fuel only
through the nested call of `GetExpression`, which starts at index `i + 1`. -/
theorem GetQuotedOperand_nested (ts : List Token) (i : Nat) (hi : i ≤ ts.length)
    (n n' : Nat)
    (h : GetExpression n (cursorAt ts (i + 1)) = GetExpression n' (cursorAt ts (i + 1))) :
    GetQuotedOperand (n + 1) (cursorAt ts i) = GetQuotedOperand (n' + 1) (cursorAt ts i) := by
  rw [GetQuotedOperand, GetQuotedOperand]
  rcases tokens_cases ts i hi with ⟨hd, _⟩ | ⟨tok, rest, hd, hlt, hm, hg⟩
  · simp only [GetToken_cursorAt_end hd, bind, Except.bind]
  · simp only [GetToken_cursorAt hd, bind, Except.bind, h]

/-- The result of `GetFunctionCallOperand` entered at index `i` depends on the
fuel only through the call of `GetArgumentList`, which starts at index `i + 2`. -/
theorem GetFunctionCallOperand_nested (ts : List Token) (i : Nat) (hi : i ≤ ts.length)
    (n n' : Nat)
    (h : GetArgumentList n (cursorAt ts (i + 2)) = GetArgumentList n' (cursorAt ts (i + 2))) :
    GetFunctionCallOperand (n + 1) (cursorAt ts i)
      = GetFunctionCallOperand (n' + 1) (cursorAt ts i) := by
  rw [GetFunctionCallOperand, GetFunctionCallOperand]
  rcases tokens_cases ts i hi with ⟨hd, _⟩ | ⟨tok, rest, hd, hlt, hm, hg⟩
  · simp only [GetToken_cursorAt_end hd, bind, Except.bind]
  · rcases tokens_cases ts (i + 1) hlt with ⟨hd2, _⟩ | ⟨tok2, rest2, hd2, hlt2, hm2, hg2⟩
    · simp only [GetToken_cursorAt hd, GetToken_cursorAt_end hd2, bind, Except.bind]
    · simp only [GetToken_cursorAt hd, GetToken_cursorAt hd2, bind, Except.bind, h]

theorem Outcome.not_fuel {α : Type} {ts : List Token} {n b i : Nat} {G : α → Nat → Prop}
    {B : Nat → Prop} {res : Except Abort (Except Error α × Tokens)}
    (h : Outcome ts n b i G B res) (hb : b ≤ n) : res ≠ .error .fuel := by
  intro hres
  rw [hres] at h
  simp only [Outcome] at h
  omega

/-- C19: on every cursor over a finite token sequence `ts`, at an index `i`, the
mutually recursive rules terminate: run with fuel of at least three per
remaining token plus a constant, `GetExpression`, `GetOperand`,
`GetQuotedOperand`, `GetFunctionCallOperand` and `GetArgumentList` end without the
fuel running out, and so does `BuildCalculatorTreeFromTokens`; the result of
`GetExpression` is the same for every such fuel.  The measure behind the bound: the result of
`GetQuotedOperand` depends on the recursion only through the nested
`GetExpression` started at `i + 1`, that of `GetFunctionCallOperand` only through
`GetArgumentList` started at `i + 2`; each loop is its body followed by a stop or
by the next pass; and a pass that does not stop leaves the cursor at an index at
least two greater. -/
theorem parser_terminates (ts : List Token) (i : Nat) (hi : i ≤ ts.length) :
    (∃ res, res ≠ .error .fuel ∧
      ∀ n, 3 * (ts.length - i) + 2 ≤ n → GetExpression n (cursorAt ts i) = res) ∧
    (∀ n, 3 * (ts.length - i) + 2 ≤ n → GetExpression n (cursorAt ts i) ≠ .error .fuel) ∧
    (∀ n, 3 * (ts.length - i) + 1 ≤ n → GetOperand n (cursorAt ts i) ≠ .error .fuel) ∧
    (∀ n, 3 * (ts.length - i) + 1 ≤ n →
      GetQuotedOperand n (cursorAt ts i) ≠ .error .fuel) ∧
    (∀ n, 3 * (ts.length - i) + 1 ≤ n →
      GetFunctionCallOperand n (cursorAt ts i) ≠ .error .fuel) ∧
    (∀ n, 3 * (ts.length - i) + 4 ≤ n → GetArgumentList n (cursorAt ts i) ≠ .error .fuel) ∧
    BuildCalculatorTreeFromTokens (NewTokens ts) ≠ .error .fuel ∧
    (∀ n n', GetExpression n (cursorAt ts (i + 1)) = GetExpression n' (cursorAt ts (i + 1)) →
      GetQuotedOperand (n + 1) (cursorAt ts i) = GetQuotedOperand (n' + 1) (cursorAt ts i)) ∧
    (∀ n n', GetArgumentList n (cursorAt ts (i + 2)) = GetArgumentList n' (cursorAt ts (i + 2)) →
      GetFunctionCallOperand (n + 1) (cursorAt ts i)
        = GetFunctionCallOperand (n' + 1) (cursorAt ts i)) ∧
    (∀ n, GetArgumentList (n + 1) (cursorAt ts i) = GetArgumentListLoop n [] (cursorAt ts i)) ∧
    (∀ n root, GetExpressionLoop (n + 1) root (cursorAt ts i)
      = (GetExpressionBody n root (cursorAt ts i)).bind (afterExpressionBody n)) ∧
    (∀ n root root' c, GetExpressionBody n root (cursorAt ts i) = .ok (.again root' c) →
      ∃ j, c = cursorAt ts j ∧ i + 2 ≤ j ∧ j ≤ ts.length) ∧
    (∀ n args, GetArgumentListLoop (n + 1) args (cursorAt ts i)
      = (GetArgumentListBody n args (cursorAt ts i)).bind (afterArgumentListBody n)) ∧
    (∀ n args args' c, GetArgumentListBody n args (cursorAt ts i) = .ok (.again args' c) →
      ∃ j, c = cursorAt ts j ∧ i + 2 ≤ j ∧ j ≤ ts.length) := by
  refine ⟨?_, ?_, ?_, ?_, ?_, ?_, ?_, ?_, ?_, ?_, ?_, ?_, ?_, ?_⟩
  · have h0 := ((sem (3 * (ts.length - i) + 2)).expression ts i hi).not_fuel (le_refl _)
    refine ⟨_, h0, fun n hn => ?_⟩
    obtain ⟨k, rfl⟩ : ∃ k, n = 3 * (ts.length - i) + 2 + k := ⟨n - (3 * (ts.length - i) + 2),
      by omega⟩
    exact GetExpression_stable _ _ h0 k
  · intro n hn
    exact ((sem n).expression ts i hi).not_fuel hn
  · intro n hn
    exact ((sem n).operand ts i hi).not_fuel hn
  · intro n hn
    rcases tokens_cases ts i hi with ⟨hd, _⟩ | ⟨tok, rest, hd, hlt, hm, hg⟩
    · obtain ⟨n, rfl⟩ : ∃ g, n = g + 1 := ⟨n - 1, by omega⟩
      simp [GetQuotedOperand, GetToken_cursorAt_end hd, bind, Except.bind, pure, Except.pure]
    · exact ((sem n).quoted ts i hlt).not_fuel (by omega)
  · intro n hn
    rcases tokens_cases ts i hi with ⟨hd, _⟩ | ⟨tok, rest, hd, hlt, hm, hg⟩
    · obtain ⟨n, rfl⟩ : ∃ g, n = g + 1 := ⟨n - 1, by omega⟩
      simp [GetFunctionCallOperand, GetToken_cursorAt_end hd, bind, Except.bind, pure,
        Except.pure]
    · exact ((sem n).call ts i hlt).not_fuel (by omega)
  · intro n hn
    exact ((sem n).arguments ts i hi).not_fuel hn
  · exact (BuildCalculatorTreeFromTokens_outcome ts).not_fuel (le_refl 0)
  · intro n n' h
    exact GetQuotedOperand_nested ts i hi n n' h
  · intro n n' h
    exact GetFunctionCallOperand_nested ts i hi n n' h
  · intro n
    rw [GetArgumentList]
  · intro n root
    exact GetExpressionLoop_eq_body n root _
  · intro n root root' c h
    exact GetExpressionBody_again n ts i hi root root' c h
  · intro n args
    exact GetArgumentListLoop_eq_body n args _
  · intro n args args' c h
    exact GetArgumentListBody_again n ts i hi args args' c h

/-- Witness of C19 on the six tokens of `f(1,2)`, from their start. -/
theorem parser_terminates_witness :
    GetExpression 20 (cursorAt [['f'], ['('], ['1'], [','], ['2'], [')']] 0) ≠ .error .fuel :=
  (parser_terminates [['f'], ['('], ['1'], [','], ['2'], [')']] 0 (by decide)).2.1 20
    (by decide)

/-! ## The parser never aborts on the tokens of a text without string literals -/

theorem take_length_takeWhile (p : Char → Bool) (l : List Char) :
    l.take (l.takeWhile p).length = l.takeWhile p := by
  induction l with
  | nil => rfl
  | cons c cs ih =>
    by_cases h : p c = true
    · simp [List.takeWhile_cons, h, ih]
    · simp [List.takeWhile_cons, h]

theorem all_takeWhile (p : Char → Bool) (l : List Char) : (l.takeWhile p).all p = true := by
  induction l with
  | nil => rfl
  | cons c cs ih =>
    by_cases h : p c = true
    · simp only [List.takeWhile_cons, h, if_true, List.all_cons, ih, Bool.and_self]
    · simp [List.takeWhile_cons, h]

theorem slice_cons_succ (c : Char) (cs : List Char) (a b : Nat) :
    slice (c :: cs) (a + 1) (b + 1) = slice cs a b := by
  simp [slice]

theorem slice_cons_zero (c : Char) (cs : List Char) (k : Nat) :
    slice (c :: cs) 0 (1 + k) = c :: cs.take k := by
  simp [slice, Nat.add_comm]

/-- The text that the tokenizer pattern matches is a quote or a plain token. -/
theorem FindStringIndex_slice :
    ∀ (l : List Char) (m0 m1 : Nat), FindStringIndex l = some (m0, m1) →
      slice l m0 m1 = [quoteChar] ∨ isPlainToken (slice l m0 m1) = true
  | [], m0, m1, h => by simp [FindStringIndex] at h
  | c :: cs, m0, m1, h => by
    unfold FindStringIndex at h
    split at h
    · rename_i hc
      simp only [Option.some.injEq, Prod.mk.injEq] at h
      obtain ⟨rfl, rfl⟩ := h
      right
      rw [slice_cons_zero, take_length_takeWhile]
      simp [isPlainToken, isIdentifierToken, hc, all_takeWhile]
    · split at h
      · rename_i hc
        simp only [Option.some.injEq, Prod.mk.injEq] at h
        obtain ⟨rfl, rfl⟩ := h
        right
        rw [slice_cons_zero, take_length_takeWhile]
        simp [isPlainToken, hc, all_takeWhile]
      · split at h
        · rename_i hl hd hp
          simp only [Option.some.injEq, Prod.mk.injEq] at h
          obtain ⟨rfl, rfl⟩ := h
          have hs : slice (c :: cs) 0 1 = [c] := by simp [slice]
          rw [hs]
          by_cases hq : c = quoteChar
          · left; rw [hq]
          · right
            simp only [isPunct, Bool.or_eq_true, decide_eq_true_eq] at hp
            simp only [isPlainToken, isPunctToken, Bool.or_eq_true, decide_eq_true_eq,
              List.cons.injEq, and_true]
            tauto
        · cases hf : FindStringIndex cs with
          | none => simp [hf] at h
          | some p =>
            obtain ⟨a, b⟩ := p
            simp only [hf, Option.some.injEq, Prod.mk.injEq] at h
            obtain ⟨rfl, rfl⟩ := h
            rw [slice_cons_succ]
            exact FindStringIndex_slice cs a b hf

theorem slice_drop (l : List Char) (i a b : Nat) :
    slice l (a + i) (b + i) = slice (l.drop i) a b := by
  apply List.ext_get?
  intro j
  rw [slice_get?, slice_get?, get?_drop_add]
  by_cases h : a + j < b
  · rw [if_pos h, if_pos (by omega)]
    congr 1
    omega
  · rw [if_neg h, if_neg (by omega)]

/-- On a text without a quote the loop of `Tokenize` returns, and every token it
adds is plain. -/
theorem TokenizeLoop_plain_tokens (expression : List Char) (hq : quoteChar ∉ expression) :
    ∀ (m i g : Nat) (result : List Token), expression.length - i ≤ m → m + 1 ≤ g →
      (∀ t ∈ result, isPlainToken t = true) →
      ∃ ts, TokenizeLoop expression g i result = .ok ts ∧
        ∀ t ∈ ts, isPlainToken t = true := by
  intro m
  induction m with
  | zero =>
    intro i g result hm hg hres
    obtain ⟨g, rfl⟩ : ∃ g', g = g' + 1 := ⟨g - 1, by omega⟩
    exact ⟨result, TokenizeLoop_end expression g i result (Or.inl (by omega)), hres⟩
  | succ m ih =>
    intro i g result hm hg hres
    obtain ⟨g, rfl⟩ : ∃ g', g = g' + 1 := ⟨g - 1, by omega⟩
    by_cases hi : i < expression.length
    · cases hf : FindStringIndex (expression.drop i) with
      | none => exact ⟨result, TokenizeLoop_end expression g i result (Or.inr hf), hres⟩
      | some p =>
        obtain ⟨m0, m1⟩ := p
        have hb := FindStringIndex_bounds _ m0 m1 hf
        have hsl := FindStringIndex_slice _ m0 m1 hf
        rw [← slice_drop] at hsl
        have hnq : slice expression (m0 + i) (m1 + i) ≠ [quoteChar] := by
          intro hs
          apply hq
          exact mem_of_mem_slice expression (m0 + i) (m1 + i) quoteChar
            (by rw [hs]; exact List.mem_singleton_self _)
        have hplain : isPlainToken (slice expression (m0 + i) (m1 + i)) = true := by
          rcases hsl with h | h
          · exact absurd h hnq
          · exact h
        rw [TokenizeLoop_token expression g i m0 m1 result hi hf hnq]
        apply ih
        · omega
        · omega
        · intro t ht
          rcases List.mem_append.1 ht with h | h
          · exact hres t h
          · rw [List.mem_singleton.1 h]
            exact hplain
    · exact ⟨result, TokenizeLoop_end expression g i result (Or.inl hi), hres⟩

/-- A plain token is sound when, being a run of digits, it fits `int`. -/
theorem sound_of_plain (t : Token) (h : isPlainToken t = true)
    (hint : t.all isDigit = true → (digitsValue t : Int) ≤ maxInt) : t.sound = true := by
  simp only [isPlainToken, Bool.or_eq_true, Bool.and_eq_true, Bool.not_eq_true'] at h
  rcases h with (h | h) | h
  · simp [Token.sound, GetType_identifier t h, TokenTypeIdentifier, TokenTypeOperand]
  · have hi : isIntegerToken t = true := by
      simp only [isIntegerToken, Bool.and_eq_true, Bool.not_eq_true', decide_eq_true_eq]
      exact ⟨⟨h.1, h.2⟩, hint h.2⟩
    simp [Token.sound, GetType_integer t hi, GetValue_integer t hi]
  · simp only [isPunctToken, Bool.or_eq_true, decide_eq_true_eq] at h
    rcases h with (((((h | h) | h) | h) | h) | h) | h <;> subst h <;> decide

/-- C18: for every text that holds no `"` and whose tokens that are runs of digits
all fit `int`, `Tokenize` returns tokens that are all plain and sound, so that
`GetType` and `GetValue` succeed on each, and `BuildCalculatorTree` returns a tree
or an error, with the cursor over these tokens at an index within `0..total`.
No panic is reached: in the model the panics of `GetType` and `GetValue`, an
index outside the tokens, an empty `path` and a `nil` `Right` child on the
descent each end the run with `Abort`.  The last two cannot occur: every operand
is leaf-like, `root` is the tree of a sum of products before and after every
fold, and on such a tree the descent reaches a leaf-like node and `path` is not
empty unless `root` is leaf-like. -/
theorem BuildCalculatorTree_never_aborts (expression : List Char)
    (hq : quoteChar ∉ expression)
    (hint : ∀ cursor, Tokenize expression = .ok cursor → ∀ tok ∈ cursor.tokens,
      tok.all isDigit = true → (digitsValue tok : Int) ≤ maxInt) :
    ∃ ts, Tokenize expression = .ok (NewTokens ts) ∧
      (∀ tok ∈ ts, isPlainToken tok = true ∧ tok.sound = true ∧
        (∃ ty, tok.GetType = .ok ty) ∧
        (tok.GetType = .ok TokenTypeOperator ∨ tok.GetType = .ok TokenTypeOperand →
          ∃ v, tok.GetValue = .ok v)) ∧
      (∃ r j, BuildCalculatorTree expression = .ok (r, cursorAt ts j) ∧ j ≤ ts.length ∧
        Inside ts (cursorAt ts j)) ∧
      (∀ n j x c, j ≤ ts.length → GetOperand n (cursorAt ts j) = .ok (.ok x, c) →
        x.Leaf = true ∧ Folded x) ∧
      (∀ root, Folded root →
        (∃ path rightMost, rightSpine root = .ok (path, rightMost) ∧
          (root.IsLeaf = false → path ≠ [])) ∧
        ∀ op x, (op = OpAdd ∨ op = OpSub ∨ op = OpMul ∨ op = OpDiv) → x.Leaf = true →
          Folded x → ∃ root', fold root op x = .ok root' ∧ Folded root') := by
  obtain ⟨ts, hts, hplain⟩ := TokenizeLoop_plain_tokens expression hq expression.length 0
    (expression.length + 1) [] (by omega) (le_refl _) (by simp)
  have htok : Tokenize expression = .ok (NewTokens ts) := by
    rw [Tokenize_eq, hts]; rfl
  have hsound : ∀ tok ∈ ts, tok.sound = true := fun tok hm =>
    sound_of_plain tok (hplain tok hm) (hint (NewTokens ts) htok tok hm)
  refine ⟨ts, htok, ?_, ?_, ?_, ?_⟩
  rotate_left 2
  · intro n j x c hj h
    have ho := (sem n).operand ts j hj
    rw [h] at ho
    obtain ⟨k, -, -, -, -, hl, hb⟩ := ho
    exact ⟨hl, Folded_of_operand hl hb⟩
  · intro root hr
    refine ⟨?_, fun op x hop hl hx => Folded_fold hr hop hl (Built_of_Folded hx)⟩
    obtain ⟨s, hs, -, rfl⟩ := hr
    obtain ⟨path, rm, hp, hne⟩ := rightSpine_ok s.tree (s.spineOK_sum_tree hs)
    refine ⟨path, rm, hp, fun hl => ?_⟩
    obtain ⟨q, hq⟩ := hne hl
    rw [hq]
    exact List.cons_ne_nil _ _
  · intro tok hm
    have hs := hsound tok hm
    refine ⟨hplain tok hm, hs, ?_, ?_⟩
    · cases hty : tok.GetType with
      | error a => simp [Token.sound, hty] at hs
      | ok ty => exact ⟨ty, rfl⟩
    · intro hk
      rcases hk with hk | hk
      · obtain ⟨v, hv, -⟩ := GetValue_operator tok (isOperatorToken_of_type hk)
        exact ⟨v, hv⟩
      · cases hv : tok.GetValue with
        | error a => simp [Token.sound, hk, hv] at hs
        | ok v => exact ⟨v, rfl⟩
  · have ho := BuildCalculatorTreeFromTokens_outcome ts
    have hb : BuildCalculatorTree expression = BuildCalculatorTreeFromTokens (NewTokens ts) := by
      simp only [BuildCalculatorTree, htok, bind, Except.bind]
    rw [hb]
    have hin : ∀ j, j ≤ ts.length → Inside ts (cursorAt ts j) := by
      intro j hj
      exact ⟨rfl, rfl, by simp [cursorAt], by simp [cursorAt]; exact hj⟩
    cases hres : BuildCalculatorTreeFromTokens (NewTokens ts) with
    | error a =>
      rw [hres] at ho
      cases a with
      | panic msg =>
        obtain ⟨tok, hm, hs⟩ := ho
        rw [hsound tok hm] at hs
        exact absurd hs (by decide)
      | fuel => simp [Outcome] at ho
    | ok p =>
      obtain ⟨r, c⟩ := p
      rw [hres] at ho
      cases r with
      | error e =>
        obtain ⟨j, rfl, hj, -, -⟩ := ho
        exact ⟨_, j, rfl, hj, hin j hj⟩
      | ok x =>
        obtain ⟨j, rfl, hj, -, -, -⟩ := ho
        exact ⟨_, j, rfl, hj, hin j hj⟩

/-- Witness of C18 on the text `2*(3+` of five tokens, for which the parser
returns an error. -/
theorem BuildCalculatorTree_never_aborts_witness :
    ∃ ts, Tokenize "2*(3+".toList = .ok (NewTokens ts) ∧
      ∃ r j, BuildCalculatorTree "2*(3+".toList = .ok (r, cursorAt ts j) ∧ j ≤ ts.length ∧
        Inside ts (cursorAt ts j) := by
  obtain ⟨ts, h1, -, h2, -⟩ := BuildCalculatorTree_never_aborts "2*(3+".toList (by decide) (by
    intro cursor hc tok hm _
    have h : Tokenize "2*(3+".toList = .ok (NewTokens [['2'], ['*'], ['('], ['3'], ['+']]) := by
      decide!
    rw [h] at hc
    simp only [Except.ok.injEq] at hc
    rw [← hc] at hm
    simp only [NewTokens, List.mem_cons, List.mem_singleton, List.not_mem_nil, or_false] at hm
    rcases hm with rfl | rfl | rfl | rfl | rfl <;> decide)
  exact ⟨ts, h1, h2⟩

/-! ## Tokens left after a well-formed expression are reported -/

theorem tokensBetween_self (ts : List Token) (i : Nat) : tokensBetween ts i i = [] := by
  simp [tokensBetween]

theorem tokensBetween_cons {ts : List Token} {i j : Nat} {tok : Token}
    (hg : ts.get? i = some tok) (hij : i < j) :
    tokensBetween ts i j = tok :: tokensBetween ts (i + 1) j := by
  have hlt : i < ts.length := by
    by_contra h
    rw [List.get?_eq_none.2 (by omega)] at hg
    exact absurd hg (by simp)
  have hd : ts.drop i = tok :: ts.drop (i + 1) := by
    rw [List.drop_eq_getElem_cons hlt]
    rw [List.get?_eq_getElem?, List.getElem?_eq_getElem hlt] at hg
    simp only [Option.some.injEq] at hg
    rw [hg]
  obtain ⟨d, hdj⟩ : ∃ d, j - i = d + 1 := ⟨j - i - 1, by omega⟩
  have hd2 : j - (i + 1) = d := by omega
  simp only [tokensBetween, hd, hdj, hd2, List.take_succ_cons]

theorem tokensBetween_append (ts : List Token) {i j k : Nat} (hij : i ≤ j) (hjk : j ≤ k) :
    tokensBetween ts i k = tokensBetween ts i j ++ tokensBetween ts j k := by
  obtain ⟨a, rfl⟩ : ∃ a, j = i + a := ⟨j - i, by omega⟩
  obtain ⟨b, rfl⟩ : ∃ b, k = i + a + b := ⟨k - (i + a), by omega⟩
  have h1 : i + a + b - i = a + b := by omega
  have h2 : i + a - i = a := by omega
  have h3 : i + a + b - (i + a) = b := by omega
  simp only [tokensBetween, h1, h2, h3]
  rw [List.take_add, List.drop_drop]

theorem tokensBetween_single {ts : List Token} {i : Nat} {tok : Token}
    (hg : ts.get? i = some tok) : tokensBetween ts i (i + 1) = [tok] := by
  rw [tokensBetween_cons hg (by omega), tokensBetween_self]

theorem tokensBetween_suffix (v s : List Token) :
    tokensBetween (v ++ s) v.length (v ++ s).length = s := by
  simp [tokensBetween]

theorem cursorAt_inj {ts : List Token} {i j : Nat} (h : cursorAt ts i = cursorAt ts j) :
    i = j := by
  have := congrArg Tokens.index h
  simp only [cursorAt] at this
  exact_mod_cast this

theorem GetType_digits (t : Token) (hne : t ≠ []) (hd : ∀ c ∈ t, isDigit c = true) :
    t.GetType = .ok TokenTypeOperand := by
  cases t with
  | nil => exact absurd rfl hne
  | cons c cs =>
    have hc := hd c (List.mem_cons_self _ _)
    have hne : ∀ d : Char, isDigit d = false → c :: cs ≠ [d] := by
      intro d hd heq
      simp only [List.cons.injEq] at heq
      rw [heq.1, hd] at hc
      exact Bool.false_ne_true hc
    have h1 := hne '+' (by decide)
    have h2 := hne '-' (by decide)
    have h3 := hne '*' (by decide)
    have h4 := hne '/' (by decide)
    have h5 := hne '(' (by decide)
    have h6 := hne ')' (by decide)
    have h7 := hne ',' (by decide)
    have hl : IsIdentifier (c :: cs) = false := by
      simp only [IsIdentifier, List.any_eq_false]
      intro d hdm
      simp [isDigit_not_isLetter d (hd d hdm)]
    simp only [Token.GetType, h1, h2, h3, h4, h5, h6, h7, or_self, if_false, hl,
      Bool.false_eq_true, OperandPatternMatchString, List.any_cons, hc, Bool.true_or, if_true]

/-- A run of digits on which `GetValue` succeeds fits `int`. -/
theorem digits_range_of_value (t : Token) (hne : t ≠ []) (hd : ∀ c ∈ t, isDigit c = true)
    (v : Int) (hv : t.GetValue = .ok v) : (digitsValue t : Int) ≤ maxInt := by
  by_contra hr
  have hty := GetType_digits t hne hd
  have h1 : (TokenTypeOperand = TokenTypeOperator) = False := by decide
  have hat : Atoi t = none := by
    cases t with
    | nil => exact absurd rfl hne
    | cons c cs =>
      have hc := hd c (List.mem_cons_self _ _)
      have hm : c ≠ '-' := by
        intro h; rw [h] at hc; exact absurd hc (by decide)
      have hp : c ≠ '+' := by
        intro h; rw [h] at hc; exact absurd hc (by decide)
      have hall : (c :: cs).all isDigit = true := by
        simp only [List.all_eq_true]; exact hd
      simp only [Atoi, List.head?_cons, Option.some.injEq, hm, hp, or_self, if_false, hall,
        not_true_eq_false, or_false]
      simp only [not_le] at hr
      simp [hr]
  simp [Token.GetValue, hty, hat, bind, Except.bind, h1, throw, throwThe,
    MonadExceptOf.throw] at hv

/-- The kinds of the plain tokens. -/
theorem plain_kind (t : Token) (h : isPlainToken t = true) :
    (isIdentifierToken t = true ∧ t.GetType = .ok TokenTypeIdentifier) ∨
    ((t ≠ [] ∧ ∀ c ∈ t, isDigit c = true) ∧ t.GetType = .ok TokenTypeOperand) ∨
    (isOperatorToken t = true ∧ t.GetType = .ok TokenTypeOperator) ∨
    (t = ['('] ∧ t.GetType = .ok TokenTypeQuoteLeft) ∨
    (t = [')'] ∧ t.GetType = .ok TokenTypeQuoteRight) ∨
    (t = [','] ∧ t.GetType = .ok TokenTypeComma) := by
  simp only [isPlainToken, Bool.or_eq_true, Bool.and_eq_true, Bool.not_eq_true'] at h
  rcases h with (h | h) | h
  · exact Or.inl ⟨h, GetType_identifier t h⟩
  · have hne : t ≠ [] := by
      intro h0
      rw [h0] at h
      simp at h
    have hd := List.all_eq_true.1 h.2
    exact Or.inr (Or.inl ⟨⟨hne, hd⟩, GetType_digits t hne hd⟩)
  · simp only [isPunctToken, Bool.or_eq_true, decide_eq_true_eq] at h
    rcases h with (((((h | h) | h) | h) | h) | h) | h <;> subst h
    · exact Or.inr (Or.inr (Or.inl ⟨by decide, by decide⟩))
    · exact Or.inr (Or.inr (Or.inl ⟨by decide, by decide⟩))
    · exact Or.inr (Or.inr (Or.inl ⟨by decide, by decide⟩))
    · exact Or.inr (Or.inr (Or.inl ⟨by decide, by decide⟩))
    · exact Or.inr (Or.inr (Or.inr (Or.inl ⟨rfl, by decide⟩)))
    · exact Or.inr (Or.inr (Or.inr (Or.inr (Or.inl ⟨rfl, by decide⟩))))
    · exact Or.inr (Or.inr (Or.inr (Or.inr (Or.inr ⟨rfl, by decide⟩))))

theorem plain_operand (t : Token) (h : isPlainToken t = true)
    (hty : t.GetType = .ok TokenTypeOperand) (v : Int) (hv : t.GetValue = .ok v) :
    isIntegerToken t = true := by
  rcases plain_kind t h with h | h | h | h | h | h
  · rw [h.2] at hty; exact absurd (Except.ok.inj hty) (by decide)
  · exact (isIntegerToken_iff t).2 ⟨h.1.1, h.1.2, digits_range_of_value t h.1.1 h.1.2 v hv⟩
  all_goals (rw [h.2] at hty; exact absurd (Except.ok.inj hty) (by decide))

theorem plain_identifier (t : Token) (h : isPlainToken t = true)
    (hty : t.GetType = .ok TokenTypeIdentifier) : isIdentifierToken t = true := by
  rcases plain_kind t h with h | h | h | h | h | h
  · exact h.1
  all_goals (rw [h.2] at hty; exact absurd (Except.ok.inj hty) (by decide))

theorem opTail_append {n : Nonterminal} {a : List Token} (h : Derives n a) :
    n = .opTail → ∀ b, Derives .opTail b → Derives .opTail (a ++ b) := by
  induction h with
  | tailNil => intro _ b hb; simpa using hb
  | tailCons o w w' ho hw _ _ ih' =>
    intro _ b hb
    have := Derives.tailCons o w (w' ++ b) ho hw (ih' rfl b hb)
    simpa using this
  | expression w w' _ _ _ _ => intro hn; cases hn
  | integer t ht => intro hn; cases hn
  | paren w _ _ => intro hn; cases hn
  | call t w ht _ _ => intro hn; cases hn
  | argsNil => intro hn; cases hn
  | argsSome w _ _ => intro hn; cases hn
  | argsOne w _ _ => intro hn; cases hn
  | argsMore w w' _ _ _ _ => intro hn; cases hn

theorem loopPrefix {n : Nonterminal} {w : List Token} (h : Derives n w) : LoopPrefix n w := by
  induction h with
  | expression w w' hw _ _ ih' =>
    intro ts i rest f hd hf
    have hd' : ts.drop i = w ++ (w' ++ rest) := by simpa using hd
    simp only [List.length_append] at hf
    obtain ⟨x, hx, hxl⟩ := complete hw ts i (w' ++ rest) f hd' (by omega)
    have h2 := drop_append_length hd'
    obtain ⟨f0, rfl⟩ : ∃ g, f = g + 1 := ⟨f - 1, by omega⟩
    obtain ⟨root', f', hr', heq⟩ := ih' ts (i + w.length) rest f0 x h2
      (spineOK_of_leaf x hxl) (by omega)
    refine ⟨root', f', hr', ?_⟩
    rw [GetExpression, hx]
    simp only [bind, Except.bind]
    rw [heq, List.length_append, Nat.add_assoc]
  | integer t ht => trivial
  | paren w _ _ => trivial
  | call t w ht _ _ => trivial
  | tailNil =>
    intro ts i rest f root hd hroot hf
    exact ⟨root, f, hroot, by simp⟩
  | tailCons o w w' ho hw _ _ ih' =>
    intro ts i rest f root hd hroot hf
    have hd' : ts.drop i = o :: (w ++ (w' ++ rest)) := by simpa using hd
    simp only [List.length_cons, List.length_append] at hf
    obtain ⟨v, hv⟩ := GetTokenOfType_operator hd' ho
    have h1 := (drop_cons_get hd').2.1
    obtain ⟨x, hx, hxl⟩ := complete hw ts (i + 1) (w' ++ rest) f h1 (by omega)
    obtain ⟨root1, hfold, hroot1⟩ := fold_ok root v x hroot hxl
    have h2 := drop_append_length h1
    obtain ⟨f0, rfl⟩ : ∃ g, f = g + 1 := ⟨f - 1, by omega⟩
    obtain ⟨root', f', hr', heq⟩ := ih' ts (i + 1 + w.length) rest f0 root1 h2 hroot1
      (by omega)
    refine ⟨root', f', hr', ?_⟩
    rw [GetExpressionLoop, hv]
    simp only [bind, Except.bind, hx, hfold]
    rw [heq]
    congr 2
    simp only [List.length_cons, List.length_append]
    omega
  | argsNil => trivial
  | argsSome w _ _ => trivial
  | argsOne w _ _ => trivial
  | argsMore w w' _ _ _ _ => trivial

theorem sound_operand {ts : List Token} {i0 n : Nat} (hreg : PlainFrom ts i0)
    (ih : Sound ts i0 n) (i : Nat) (t : Operator) (c : Tokens) (h0 : i0 ≤ i)
    (hi : i ≤ ts.length) (h : GetOperand (n + 1) (cursorAt ts i) = .ok (.ok t, c)) :
    ∃ j, c = cursorAt ts j ∧ i ≤ j ∧ j ≤ ts.length ∧
      Derives .operand (tokensBetween ts i j) := by
  rw [GetOperand] at h
  rcases tokens_cases ts i hi with ⟨hd, _⟩ | ⟨tok, rest, hd, hlt, hm, hg⟩
  · simp [GetToken_cursorAt_end hd, bind, Except.bind, pure, Except.pure] at h
  · simp only [GetToken_cursorAt hd, bind, Except.bind, ReturnToken_cursorAt] at h
    cases hty : tok.GetType with
    | error a => simp [hty] at h
    | ok ty =>
      simp only [hty] at h
      by_cases h1 : ty = TokenTypeQuoteLeft
      · simp only [h1, if_true] at h
        exact ih.quoted i t c h0 hlt h
      · simp only [h1, if_false] at h
        by_cases h2 : ty = TokenTypeIdentifier
        · simp only [h2, if_true] at h
          exact absurd h (ih.call i t c h0 hlt)
        · simp only [h2, if_false] at h
          by_cases h3 : ty = TokenTypeOperand
          · simp only [h3, if_true] at h
            cases hv : tok.GetValue with
            | error a => simp [hv] at h
            | ok v =>
              simp only [hv, pure, Except.pure, Except.ok.injEq, Prod.mk.injEq] at h
              refine ⟨i + 1, h.2.symm, by omega, hlt, ?_⟩
              rw [tokensBetween_single hg]
              exact Derives.integer tok
                (plain_operand tok (hreg i tok h0 hg).1 (h3 ▸ hty) v hv)
          · simp [h3, pure, Except.pure] at h

theorem sound_quoted {ts : List Token} {i0 n : Nat} (ih : Sound ts i0 n) (i : Nat)
    (t : Operator) (c : Tokens) (h0 : i0 ≤ i) (hi : i < ts.length)
    (h : GetQuotedOperand (n + 1) (cursorAt ts i) = .ok (.ok t, c)) :
    ∃ j, c = cursorAt ts j ∧ i ≤ j ∧ j ≤ ts.length ∧
      Derives .operand (tokensBetween ts i j) := by
  rw [GetQuotedOperand] at h
  rcases tokens_cases ts i (le_of_lt hi) with ⟨hd, hz⟩ | ⟨tok, rest, hd, hlt, hm, hg⟩
  · omega
  · simp only [GetToken_cursorAt hd, bind, Except.bind, Option.isSome_none,
      Bool.false_eq_true, if_false] at h
    cases hty : tok.GetType with
    | error a => simp [hty] at h
    | ok ty =>
      simp only [hty] at h
      by_cases h1 : ty = TokenTypeQuoteLeft
      · simp only [h1, if_true] at h
        cases hres : GetExpression n (cursorAt ts (i + 1)) with
        | error a => simp [hres] at h
        | ok p =>
          obtain ⟨r, c'⟩ := p
          simp only [hres] at h
          cases r with
          | error e => simp [pure, Except.pure] at h
          | ok e =>
            obtain ⟨j, rfl, hij, hj, hder⟩ := ih.expression (i + 1) e c' (by omega) hlt hres
            simp only at h
            rcases tokens_cases ts j hj with ⟨hd2, _⟩ | ⟨tok2, rest2, hd2, hlt2, hm2, hg2⟩
            · simp [GetToken_cursorAt_end hd2, pure, Except.pure] at h
            · simp only [GetToken_cursorAt hd2] at h
              cases hty2 : tok2.GetType with
              | error a => simp [hty2] at h
              | ok ty2 =>
                simp only [hty2] at h
                by_cases h2 : ty2 = TokenTypeQuoteRight
                · simp only [h2, ne_eq, not_true_eq_false, if_false, pure, Except.pure,
                    Except.ok.injEq, Prod.mk.injEq] at h
                  have hL : tok = ['('] := quoteLeft_of_type (h1 ▸ hty)
                  have hR : tok2 = [')'] := quoteRight_of_type (h2 ▸ hty2)
                  refine ⟨j + 1, h.2.symm, by omega, hlt2, ?_⟩
                  rw [tokensBetween_cons hg (by omega),
                    tokensBetween_append ts (by omega : i + 1 ≤ j) (by omega : j ≤ j + 1),
                    tokensBetween_single hg2, hL, hR]
                  exact Derives.paren _ hder
                · simp [h2, pure, Except.pure] at h
      · simp [h1, pure, Except.pure] at h

theorem sound_call {ts : List Token} {i0 n : Nat} (hreg : PlainFrom ts i0) (i : Nat)
    (t : Operator) (c : Tokens) (h0 : i0 ≤ i) (hi : i < ts.length) :
    GetFunctionCallOperand (n + 1) (cursorAt ts i) ≠ .ok (.ok t, c) := by
  intro h
  rw [GetFunctionCallOperand] at h
  rcases tokens_cases ts i (le_of_lt hi) with ⟨hd, hz⟩ | ⟨tok, rest, hd, hlt, hm, hg⟩
  · omega
  · simp only [GetToken_cursorAt hd, bind, Except.bind] at h
    cases hty : tok.GetType with
    | error a => simp [hty] at h
    | ok ty =>
      simp only [hty] at h
      by_cases h1 : ty = TokenTypeIdentifier
      · simp only [h1, if_true] at h
        rcases tokens_cases ts (i + 1) hlt with ⟨hd2, _⟩ | ⟨tok2, rest2, hd2, hlt2, hm2, hg2⟩
        · simp [GetToken_cursorAt_end hd2, pure, Except.pure] at h
        · simp only [GetToken_cursorAt hd2] at h
          cases hty2 : tok2.GetType with
          | error a => simp [hty2] at h
          | ok ty2 =>
            simp only [hty2] at h
            by_cases h2 : ty2 = TokenTypeQuoteLeft
            · have hL : tok2 = ['('] := quoteLeft_of_type (h2 ▸ hty2)
              obtain ⟨hp, hno⟩ := hreg i tok h0 hg
              exact hno (plain_identifier tok hp (h1 ▸ hty)) (hL ▸ hg2)
            · simp [h2, pure, Except.pure] at h
      · simp [h1, pure, Except.pure] at h

theorem sound_loop {ts : List Token} {i0 n : Nat} (ih : Sound ts i0 n) (i : Nat)
    (root t : Operator) (c : Tokens) (h0 : i0 ≤ i) (hi : i ≤ ts.length)
    (h : GetExpressionLoop (n + 1) root (cursorAt ts i) = .ok (.ok t, c)) :
    ∃ j, c = cursorAt ts j ∧ i ≤ j ∧ j ≤ ts.length ∧
      Derives .opTail (tokensBetween ts i j) := by
  have hstop : ∃ j, cursorAt ts i = cursorAt ts j ∧ i ≤ j ∧ j ≤ ts.length ∧
      Derives .opTail (tokensBetween ts i j) :=
    ⟨i, rfl, le_refl i, hi, by rw [tokensBetween_self]; exact Derives.tailNil⟩
  rw [GetExpressionLoop] at h
  rcases GetTokenOfType_cursorAt_cases ts i hi with
    ⟨e, he⟩ | ⟨tok, v, hg, hlt, hty, hop, he⟩ | ⟨tok, a, hm, hs, ha, he⟩
  · simp only [he, bind, Except.bind, pure, Except.pure, Except.ok.injEq, Prod.mk.injEq] at h
    rw [← h.2]
    exact hstop
  · simp only [he, bind, Except.bind] at h
    have ho := (sem n).operand ts (i + 1) hlt
    cases hres : GetOperand n (cursorAt ts (i + 1)) with
    | error a => simp [hres] at h
    | ok p =>
      obtain ⟨r, c'⟩ := p
      rw [hres] at ho
      simp only [hres] at h
      cases r with
      | error e =>
        obtain ⟨j, rfl, hj, -, -⟩ := ho
        simp only [pure, Except.pure, SetIndex_cursorAt, Except.ok.injEq, Prod.mk.injEq] at h
        rw [← h.2]
        exact hstop
      | ok y =>
        obtain ⟨j1, rfl, hij1, hj1, hder1⟩ := ih.operand (i + 1) y c' (by omega) hlt hres
        simp only at h
        cases hf : fold root v y with
        | error a => simp [hf] at h
        | ok root' =>
          simp only [hf] at h
          obtain ⟨j, hc, hj1j, hj, hder⟩ := ih.loop j1 root' t c (by omega) hj1 h
          refine ⟨j, hc, by omega, hj, ?_⟩
          rw [tokensBetween_cons hg (by omega),
            tokensBetween_append ts (by omega : i + 1 ≤ j1) hj1j]
          exact Derives.tailCons tok _ _ (isOperatorToken_of_type hty) hder1 hder
  · simp [he, bind, Except.bind] at h

theorem sound_expression {ts : List Token} {i0 n : Nat} (ih : Sound ts i0 n) (i : Nat)
    (t : Operator) (c : Tokens) (h0 : i0 ≤ i) (hi : i ≤ ts.length)
    (h : GetExpression (n + 1) (cursorAt ts i) = .ok (.ok t, c)) :
    ∃ j, c = cursorAt ts j ∧ i ≤ j ∧ j ≤ ts.length ∧
      Derives .expression (tokensBetween ts i j) := by
  rw [GetExpression] at h
  cases hres : GetOperand n (cursorAt ts i) with
  | error a => simp [hres, bind, Except.bind] at h
  | ok p =>
    obtain ⟨r, c'⟩ := p
    simp only [hres, bind, Except.bind] at h
    cases r with
    | error e => simp [pure, Except.pure] at h
    | ok y =>
      obtain ⟨j1, rfl, hij1, hj1, hder1⟩ := ih.operand i y c' h0 hi hres
      obtain ⟨j, hc, hj1j, hj, hder⟩ := ih.loop j1 y t c (by omega) hj1 h
      refine ⟨j, hc, by omega, hj, ?_⟩
      rw [tokensBetween_append ts hij1 hj1j]
      exact Derives.expression _ _ hder1 hder

theorem sound_zero (ts : List Token) (i0 : Nat) : Sound ts i0 0 := by
  refine ⟨fun i t c _ _ h => ?_, fun i t c _ _ h => ?_, fun i t c _ _ h => ?_,
    fun i t c _ _ h => ?_, fun i root t c _ _ h => ?_⟩ <;>
    simp [GetExpression, GetOperand, GetQuotedOperand, GetFunctionCallOperand,
      GetExpressionLoop, throw, throwThe, MonadExceptOf.throw] at h

/-- On tokens that are plain and open no call from `i0` on, a rule entered at an
index from `i0` on returns a tree only for tokens derivable from its
nonterminal. -/
theorem sound {ts : List Token} {i0 : Nat} (hreg : PlainFrom ts i0) : ∀ n, Sound ts i0 n
  | 0 => sound_zero ts i0
  | n + 1 =>
    have ih := sound hreg n
    ⟨sound_expression ih, sound_operand hreg ih, sound_quoted ih,
      fun i t c h0 hi => sound_call hreg i t c h0 hi, sound_loop ih⟩

/-! ## Whole-input consumption over tokens -/

theorem opensCall_get {s : List Token} (h : opensCall s = false) :
    ∀ (m : Nat) (tok : Token), s.get? m = some tok → isIdentifierToken tok = true →
      s.get? (m + 1) ≠ some ['('] := by
  induction s with
  | nil => intro m tok hg; simp at hg
  | cons a s ih =>
    cases s with
    | nil =>
      intro m tok _ _
      simp
    | cons b s =>
      simp only [opensCall, Bool.or_eq_false_iff] at h
      intro m tok hg hid
      cases m with
      | zero =>
        simp only [List.get?_cons_zero, Option.some.injEq] at hg
        subst hg
        simp only [Nat.zero_add, List.get?_cons_succ, List.get?_cons_zero, ne_eq,
          Option.some.injEq]
        intro hb
        have h1 := h.1
        simp [hid, hb] at h1
      | succ m =>
        have := ih h.2 m tok (by simpa using hg) hid
        simpa using this

theorem plainFrom_append (v s : List Token) (hp : ∀ t ∈ s, isPlainToken t = true)
    (hc : opensCall s = false) : PlainFrom (v ++ s) v.length := by
  intro k tok hk hg
  obtain ⟨m, rfl⟩ : ∃ m, k = v.length + m := ⟨k - v.length, by omega⟩
  have hg' : s.get? m = some tok := by
    rwa [List.get?_eq_getElem?, List.getElem?_append_right (by omega),
      Nat.add_sub_cancel_left, ← List.get?_eq_getElem?] at hg
  refine ⟨hp tok (List.get?_mem hg'), fun hid hnext => ?_⟩
  rw [Nat.add_assoc, List.get?_eq_getElem?, List.getElem?_append_right (by omega),
    Nat.add_sub_cancel_left, ← List.get?_eq_getElem?] at hnext
  exact opensCall_get hc m tok hg' hid hnext

/-- Every token of a derivable sequence is plain and sound. -/
theorem derives_tokens {n : Nonterminal} {w : List Token} (h : Derives n w) :
    ∀ t ∈ w, isPlainToken t = true ∧ t.sound = true := by
  have hint : ∀ t, isIntegerToken t = true → isPlainToken t = true ∧ t.sound = true := by
    intro t ht
    have h3 := (isIntegerToken_iff t).1 ht
    have hpl : isPlainToken t = true := by
      simp only [isPlainToken, Bool.or_eq_true, Bool.and_eq_true, Bool.not_eq_true']
      refine Or.inl (Or.inr ⟨?_, List.all_eq_true.2 h3.2.1⟩)
      cases t with
      | nil => exact absurd rfl h3.1
      | cons c cs => rfl
    exact ⟨hpl, by simp [Token.sound, GetType_integer t ht, GetValue_integer t ht]⟩
  have hid : ∀ t, isIdentifierToken t = true → isPlainToken t = true ∧ t.sound = true := by
    intro t ht
    have hpl : isPlainToken t = true := by simp [isPlainToken, ht]
    exact ⟨hpl, sound_of_plain t hpl (fun hd => by
      cases t with
      | nil => simp [isIdentifierToken] at ht
      | cons c cs =>
        simp only [isIdentifierToken, Bool.and_eq_true] at ht
        simp only [List.all_cons, Bool.and_eq_true] at hd
        have := isDigit_not_isLetter c hd.1
        rw [ht.1] at this
        cases this)⟩
  have hop : ∀ t, isOperatorToken t = true → isPlainToken t = true ∧ t.sound = true := by
    intro t ht
    simp only [isOperatorToken, Bool.or_eq_true, decide_eq_true_eq] at ht
    rcases ht with ((h | h) | h) | h <;> subst h <;> decide
  induction h with
  | expression w w' _ _ ih ih' =>
    intro t ht
    rcases List.mem_append.1 ht with h | h
    · exact ih t h
    · exact ih' t h
  | integer t ht =>
    intro t' ht'
    simp only [List.mem_singleton] at ht'
    subst ht'
    exact hint _ ht
  | paren w _ ih =>
    intro t ht
    simp only [List.cons_append, List.mem_cons, List.mem_append, List.mem_singleton,
      List.not_mem_nil, or_false] at ht
    rcases ht with rfl | h | rfl
    · decide
    · exact ih t h
    · decide
  | call t w ht _ ih =>
    intro t' ht'
    simp only [List.cons_append, List.mem_cons, List.mem_append, List.mem_singleton,
      List.not_mem_nil, or_false] at ht'
    rcases ht' with rfl | rfl | h | rfl
    · exact hid _ ht
    · decide
    · exact ih t' h
    · decide
  | tailNil => intro t ht; simp at ht
  | tailCons o w w' ho _ _ ih ih' =>
    intro t ht
    simp only [List.cons_append, List.mem_cons, List.mem_append] at ht
    rcases ht with rfl | h | h
    · exact hop _ ho
    · exact ih t h
    · exact ih' t h
  | argsNil => intro t ht; simp at ht
  | argsSome w _ ih => exact ih
  | argsOne w _ ih => exact ih
  | argsMore w w' _ _ ih ih' =>
    intro t ht
    simp only [List.mem_append, List.mem_cons] at ht
    rcases ht with h | rfl | h
    · exact ih t h
    · decide
    · exact ih' t h

/-- On a token that is no operator the loop of `GetExpression` stops: it returns
the current `root` and leaves the cursor on the token. -/
theorem GetExpressionLoop_stops {ts : List Token} {i : Nat} {tok : Token}
    {rest : List Token} {ty : Int} (hd : ts.drop i = tok :: rest)
    (hty : tok.GetType = .ok ty) (hne : ty ≠ TokenTypeOperator) (f : Nat) (root : Operator) :
    GetExpressionLoop (f + 1) root (cursorAt ts i) = .ok (.ok root, cursorAt ts i) := by
  rw [GetExpressionLoop]
  simp [Tokens.GetTokenOfType, GetToken_cursorAt hd, hty, hne, bind, Except.bind, pure,
    Except.pure, ReturnToken_cursorAt]

/-- After a derivable `v` the top-level call is in the loop of `GetExpression` with
the cursor just after `v`. -/
theorem GetExpression_after (v s : List Token) (hv : Derives .expression v) :
    ∃ root f, GetExpression (parseFuel (v ++ s).length) (cursorAt (v ++ s) 0)
      = GetExpressionLoop (f + 1) root (cursorAt (v ++ s) v.length) := by
  obtain ⟨root, f, -, heq⟩ := loopPrefix hv (v ++ s) 0 s (3 * (v ++ s).length + 1)
    (by simp) (by simp)
  have hfuel : parseFuel (v ++ s).length = 3 * (v ++ s).length + 1 + 1 := rfl
  rw [Nat.zero_add] at heq
  exact ⟨root, f, by rw [hfuel, heq]⟩

/-- The parser is sound after a derivable prefix: when the tokens `s` are plain and
open no call, a tree is returned on `v` followed by `s` only if the whole sequence
is derivable. -/
theorem derives_of_accepted (v s : List Token) (hv : Derives .expression v)
    (hp : ∀ t ∈ s, isPlainToken t = true) (hc : opensCall s = false) (tree : Operator)
    (c : Tokens)
    (h : BuildCalculatorTreeFromTokens (NewTokens (v ++ s)) = .ok (.ok tree, c)) :
    Derives .expression (v ++ s) := by
  have hts : (cursorAt (v ++ s) 0).tokens = v ++ s := rfl
  unfold BuildCalculatorTreeFromTokens at h
  rw [NewTokens_eq_cursorAt, hts] at h
  obtain ⟨root, f, heq⟩ := GetExpression_after v s hv
  rw [heq] at h
  cases hres : GetExpressionLoop (f + 1) root (cursorAt (v ++ s) v.length) with
  | error a => simp [hres, bind, Except.bind] at h
  | ok p =>
    obtain ⟨r, c'⟩ := p
    simp only [hres, bind, Except.bind] at h
    cases r with
    | error e => simp [pure, Except.pure] at h
    | ok x =>
      obtain ⟨j, rfl, hvj, hj, hder⟩ := (sound (plainFrom_append v s hp hc) (f + 1)).loop
        v.length root x c' (le_refl _) (by simp) hres
      simp only [HasMoreTokens_cursorAt] at h
      by_cases hlt : j < (v ++ s).length
      · simp only [hlt, decide_True, if_true] at h
        cases ha : (cursorAt (v ++ s) j).at (cursorAt (v ++ s) j).index <;>
          simp [ha, pure, Except.pure] at h
      · have hje : j = (v ++ s).length := by omega
        rw [hje, tokensBetween_suffix] at hder
        cases hv with
        | expression w w' h1 h2 =>
          rw [List.append_assoc]
          exact Derives.expression _ _ h1 (opTail_append h2 rfl s hder)

/-- A plain token that is not sound is a run of digits beyond `int`. -/
theorem digits_of_unsound (t : Token) (hp : isPlainToken t = true) (hs : t.sound = false) :
    t.all isDigit = true ∧ maxInt < (digitsValue t : Int) := by
  by_cases hd : t.all isDigit = true
  · refine ⟨hd, ?_⟩
    by_contra hle
    have := sound_of_plain t hp (fun _ => not_lt.1 hle)
    rw [hs] at this
    cases this
  · have := sound_of_plain t hp (fun h => absurd h hd)
    rw [hs] at this
    cases this

/-- A token that is no operator right after a derivable `v` is reported: the
top-level call returns the error of the unexpected token with the cursor on it. -/
theorem unexpected_after (v : List Token) (hv : Derives .expression v) (t : Token)
    (rest : List Token) (ty : Int) (hty : t.GetType = .ok ty) (hne : ty ≠ TokenTypeOperator) :
    BuildCalculatorTreeFromTokens (NewTokens (v ++ t :: rest))
      = .ok (.error (.New ("syntax error, unexpected token: " ++ String.mk t)),
          cursorAt (v ++ t :: rest) v.length) := by
  have hts : (cursorAt (v ++ t :: rest) 0).tokens = v ++ t :: rest := rfl
  have hm : (cursorAt (v ++ t :: rest) v.length).HasMoreTokens = true := by
    rw [HasMoreTokens_cursorAt]; simp
  have hd : (v ++ t :: rest).drop v.length = t :: rest := by simp
  have hg : (v ++ t :: rest).get? v.length = some t := (drop_cons_get hd).1
  obtain ⟨root, f, heq⟩ := GetExpression_after v (t :: rest) hv
  unfold BuildCalculatorTreeFromTokens
  rw [NewTokens_eq_cursorAt, hts, heq, GetExpressionLoop_stops hd hty hne]
  simp only [bind, Except.bind, hm, if_true, at_cursorAt hg, pure, Except.pure]

/-- C4 as amended: whole-input consumption over tokens.  Let the tokens `v` be
derivable from `expression`.  First, for every token `t` that has a kind other
than operator and every `rest`, the tokens `v`, `t`, `rest` are not derivable and
`BuildCalculatorTreeFromTokens` returns the error
`syntax error, unexpected token: t` with the cursor on `t`.  Second, for every
sequence `s` of plain tokens (identifiers, runs of digits and the seven
one-character tokens) in which no identifier is directly followed by `(`, if `v`
followed by `s` is not derivable then `BuildCalculatorTreeFromTokens` returns no
tree on it: it returns an error with the cursor inside the tokens, or it panics
and then `s` holds a run of digits beyond `int`; and `BuildCalculatorTree` ends
the same way on every text that `Tokenize` splits into `v` followed by `s`. -/
theorem suffix_rejected (v : List Token) (hv : Derives .expression v) :
    (∀ (t : Token) (rest : List Token) (ty : Int), t.GetType = .ok ty →
      ty ≠ TokenTypeOperator →
      ¬ Derives .expression (v ++ t :: rest) ∧
      BuildCalculatorTreeFromTokens (NewTokens (v ++ t :: rest))
        = .ok (.error (.New ("syntax error, unexpected token: " ++ String.mk t)),
            cursorAt (v ++ t :: rest) v.length)) ∧
    (∀ s : List Token, (∀ t ∈ s, isPlainToken t = true) → opensCall s = false →
      ¬ Derives .expression (v ++ s) →
      ((∃ e j, j ≤ (v ++ s).length ∧
          BuildCalculatorTreeFromTokens (NewTokens (v ++ s))
            = .ok (.error e, cursorAt (v ++ s) j)) ∨
        (∃ msg t, t ∈ s ∧ t.all isDigit = true ∧ maxInt < (digitsValue t : Int) ∧
          BuildCalculatorTreeFromTokens (NewTokens (v ++ s)) = .error (.panic msg))) ∧
      ∀ text, Tokenize text = .ok (NewTokens (v ++ s)) →
        ((∃ e j, j ≤ (v ++ s).length ∧
            BuildCalculatorTree text = .ok (.error e, cursorAt (v ++ s) j)) ∨
          (∃ msg t, t ∈ s ∧ t.all isDigit = true ∧ maxInt < (digitsValue t : Int) ∧
            BuildCalculatorTree text = .error (.panic msg)))) := by
  have key : ∀ s : List Token, (∀ t ∈ s, isPlainToken t = true) → opensCall s = false →
      ¬ Derives .expression (v ++ s) →
      ((∃ e j, j ≤ (v ++ s).length ∧
          BuildCalculatorTreeFromTokens (NewTokens (v ++ s))
            = .ok (.error e, cursorAt (v ++ s) j)) ∨
        (∃ msg t, t ∈ s ∧ t.all isDigit = true ∧ maxInt < (digitsValue t : Int) ∧
          BuildCalculatorTreeFromTokens (NewTokens (v ++ s)) = .error (.panic msg))) := by
    intro s hp hc hbad
    have ho := BuildCalculatorTreeFromTokens_outcome (v ++ s)
    cases hres : BuildCalculatorTreeFromTokens (NewTokens (v ++ s)) with
    | error a =>
      rw [hres] at ho
      cases a with
      | fuel => exact absurd ho (by simp [Outcome])
      | panic msg =>
        obtain ⟨tok, hmem, hs⟩ := ho
        rcases List.mem_append.1 hmem with h | h
        · rw [(derives_tokens hv tok h).2] at hs
          cases hs
        · obtain ⟨hd, hbig⟩ := digits_of_unsound tok (hp tok h) hs
          exact Or.inr ⟨msg, tok, h, hd, hbig, rfl⟩
    | ok p =>
      obtain ⟨r, c⟩ := p
      rw [hres] at ho
      cases r with
      | ok tree => exact absurd (derives_of_accepted v s hv hp hc tree c hres) hbad
      | error e =>
        obtain ⟨j, rfl, hj, -, -⟩ := ho
        exact Or.inl ⟨e, j, hj, rfl⟩
  refine ⟨fun t rest ty hty hne => ⟨fun hder => ?_, unexpected_after v hv t rest ty hty hne⟩,
    fun s hp hc hbad => ⟨key s hp hc hbad, fun text htok => ?_⟩⟩
  · obtain ⟨tree, ht, -⟩ := complete hder (v ++ t :: rest) 0 []
      (parseFuel (v ++ t :: rest).length) (by simp) (Or.inl rfl) (by simp [parseFuel])
    rw [Nat.zero_add] at ht
    have h1 := BuildCalculatorTreeFromTokens_of (v ++ t :: rest) tree ht
    rw [unexpected_after v hv t rest ty hty hne] at h1
    simp only [Except.ok.injEq, Prod.mk.injEq] at h1
    exact absurd h1.1 (by simp)
  · have hb : BuildCalculatorTree text
        = BuildCalculatorTreeFromTokens (NewTokens (v ++ s)) := by
      simp only [BuildCalculatorTree, htok, bind, Except.bind]
    rw [hb]
    exact key s hp hc hbad

set_option maxRecDepth 100000 in
/-- Witness of the amended C4 with `v` the token `1`: on the tokens `1 2` the error
names the unexpected token `2`, and the tokens `1 + 2 ,`, which `Tokenize` returns
on the text `1+2,`, are rejected by `BuildCalculatorTree`. -/
theorem suffix_rejected_witness :
    Derives .expression [['1']] ∧
    BuildCalculatorTreeFromTokens (NewTokens ([['1']] ++ ['2'] :: []))
      = .ok (.error (.New ("syntax error, unexpected token: " ++ String.mk ['2'])),
          cursorAt ([['1']] ++ ['2'] :: []) ([['1']] : List Token).length) ∧
    ((∃ e j, j ≤ ([['1']] ++ [['+'], ['2'], [',']] : List Token).length ∧
        BuildCalculatorTree "1+2,".toList
          = .ok (.error e, cursorAt ([['1']] ++ [['+'], ['2'], [',']]) j)) ∨
      (∃ msg t, t ∈ ([['+'], ['2'], [',']] : List Token) ∧ t.all isDigit = true ∧
        maxInt < (digitsValue t : Int) ∧
        BuildCalculatorTree "1+2,".toList = .error (.panic msg))) :=
  have hv : Derives .expression [['1']] :=
    Derives.expression [['1']] [] (Derives.integer ['1'] (by decide)) Derives.tailNil
  ⟨hv, ((suffix_rejected [['1']] hv).1 ['2'] [] TokenTypeOperand (by decide) (by decide)).2,
    ((suffix_rejected [['1']] hv).2 [['+'], ['2'], [',']] (by decide) (by decide)
      (fun h => (derives_no_commaClose h).2.1 (by decide))).2 "1+2,".toList (by decide!)⟩

set_option maxRecDepth 100000 in
/-- Why the suffix may open no call: the tokens `1` followed by the plain tokens
`+ f ( 1 , )` are not derivable, yet a tree is returned (the trailing comma of an
argument list is swallowed). -/
theorem call_suffix_accepted :
    (∀ t ∈ ([['+'], ['f'], ['('], ['1'], [','], [')']] : List Token), isPlainToken t = true) ∧
    opensCall [['+'], ['f'], ['('], ['1'], [','], [')']] = true ∧
    ¬ Derives .expression ([['1']] ++ [['+'], ['f'], ['('], ['1'], [','], [')']]) ∧
    accepted (BuildCalculatorTreeFromTokens
      (NewTokens ([['1']] ++ [['+'], ['f'], ['('], ['1'], [','], [')']]))) = true := by
  refine ⟨by decide, by decide, fun h => ?_, by decide!⟩
  have := (derives_no_commaClose h).1
  exact absurd this (by decide)

set_option maxRecDepth 100000 in
/-- Why the suffix is made of plain tokens: the string literal `"a"` is no
identifier of the grammar, so `1` followed by `+ "a" ( )` is not derivable, yet
`GetType` finds a letter in it and a tree is returned. -/
theorem string_suffix_accepted :
    opensCall [['+'], [quoteChar, 'a', quoteChar], ['('], [')']] = false ∧
    ¬ Derives .expression ([['1']] ++ [['+'], [quoteChar, 'a', quoteChar], ['('], [')']]) ∧
    accepted (BuildCalculatorTreeFromTokens
      (NewTokens ([['1']] ++ [['+'], [quoteChar, 'a', quoteChar], ['('], [')']]))) = true := by
  refine ⟨by decide, fun h => ?_, by decide!⟩
  have := (derives_tokens h [quoteChar, 'a', quoteChar] (by simp)).1
  exact absurd this (by decide)

end Calculator
